import Mathlib

/-!
# Range-extension thunk synthesis (mold, `src/elf/thunks.cc`)

A shallow embedding of the thunk-creation sweep of the mold linker.  The
sweep lays out the input sections of one output section, decides which
branch relocations are out of range, collects their target symbols into
thunks, and records a `(thunk_idx, sym_idx)` routing entry for every
relocation that needs a thunk.

The C++ source is `create_range_extension_thunks` together with its
helpers `is_reachable`, `reset_thunk` and `scan_rels`.  The embedding is
a sequential state machine over a `St` record; the two `parallel_for_each`
scans of the source are modelled as sequential folds, with the single
scheduling-visible effect of the parallelism — the arrival order of
symbols appended to the current thunk's `symbols` vector — exposed as an
explicit reordering parameter `arr` applied to each freshly collected
symbol list (the identity ordering `idArr` is the canonical schedule).

Data that lives outside `src/` (the headers defining `RangeExtensionThunk`,
`align_to`, `Symbol::get_addr`, `get_addend`, …) is modelled from the
spec; each such definition carries a doc comment saying so.
-/

namespace Mold

/-- The three ISAs the thunk code supports (`ARM64`, `ARM32`, `PPC64`). -/
inductive Arch
  | arm64
  | arm32
  | ppc64
  deriving DecidableEq

/-- Branch reach in bytes: `1LL << (ARM64 ? 27 : ARM32 ? 24 : 25)`. -/
def maxDistance : Arch → Int
  | .arm64 => 2 ^ 27
  | .arm32 => 2 ^ 24
  | .ppc64 => 2 ^ 25

/-- `batch_size<E> = max_distance<E> / 10`. -/
def batchSize (e : Arch) : Int := maxDistance e / 10

/-- `max_thunk_size = 102400`. -/
def maxThunkSize : Int := 102400

/-- Relocation types relevant to `needs_thunk_rel`; `other` stands for
every relocation type that is not a direct call/jump. -/
inductive RType
  | jump26
  | call26
  | jump24
  | thmJump24
  | armCall
  | thmCall
  | ppcRel24
  | other
  deriving DecidableEq

/-- `needs_thunk_rel`: is the relocation a direct call/jump on this ISA? -/
def needsThunkRel : Arch → RType → Bool
  | .arm64, .jump26 => true
  | .arm64, .call26 => true
  | .arm32, .jump24 => true
  | .arm32, .thmJump24 => true
  | .arm32, .armCall => true
  | .arm32, .thmCall => true
  | .ppc64, .ppcRel24 => true
  | _, _ => false

/-- One ELF relocation.  `r_addend` is modelled from the spec: the source
calls the external `get_addend(isec, rel)`, "`A` the relocation addend". -/
structure ElfRel where
  r_type : RType
  r_sym : Nat
  r_offset : Int
  r_addend : Int
  deriving DecidableEq

/-- `RangeExtensionRef`: the per-relocation routing slot.  Modelled from
the spec: the default (unset) value is the sentinel `(-1, -1)`. -/
structure RangeExtensionRef where
  thunk_idx : Int
  sym_idx : Int
  deriving DecidableEq

/-- The unset routing entry. -/
def RangeExtensionRef.unset : RangeExtensionRef := ⟨-1, -1⟩

/-- The immutable part of a `Symbol`.
`file` is the owning file (none = undefined symbol);
`sym_idx` is the symbol's index in that file's symbol table;
`isec` is the member index, inside the output section being swept, of the
symbol's defining input section — `none` covers both "no defining input
section" and "defining section belongs to a different output section",
which `is_reachable` treats identically;
`value` is the symbol's offset inside its defining section (for ARM32 its
lowest bit is the Thumb bit, exactly as in `get_addr`);
`has_plt` is the result of `sym.has_plt(ctx)`. -/
structure SymbolStatic where
  file : Option Nat
  sym_idx : Nat
  isec : Option Nat
  value : Int
  has_plt : Bool
  deriving DecidableEq

/-- A file: its link priority and its symbol table (global symbol ids). -/
structure FileRec where
  priority : Int
  symbols : List Nat
  deriving DecidableEq

/-- The immutable part of an `InputSection`. -/
structure InputSecStatic where
  sh_size : Int
  p2align : Nat
  file : Nat
  rels : List ElfRel
  deriving DecidableEq

/-- The static context of one `create_range_extension_thunks` run:
the target, the spec-modelled target constants (`stub_size` is the
per-slot code size of a thunk, `thunk_align` its ISA-defined alignment),
the output section's base address, and the immutable input data. -/
structure Ctx where
  arch : Arch
  stub_size : Int
  thunk_align : Int
  osec_addr : Int
  files : List FileRec
  syms : List SymbolStatic
  members : List InputSecStatic
  deriving DecidableEq

/-- The mutable per-symbol state: the atomic scratch `flags` word and
`extra.thunk_idx` / `extra.thunk_sym_idx`. -/
structure SymExtra where
  flags : Int
  thunk_idx : Int
  thunk_sym_idx : Int
  deriving DecidableEq

/-- A thunk record: its ordinal, its assigned offset, its symbol list. -/
structure RangeExtensionThunk where
  thunk_idx : Nat
  offset : Int
  symbols : List Nat
  deriving DecidableEq

/-- The mutable state of the sweep.
`offsets` are the members' `offset` fields, `extns` the members'
`extra.range_extn` vectors, `symst` the per-symbol mutable state,
`thunks` is `osec.thunks`, `a b c d` and `offset` are the sweep's local
variables, `sh_size` is `osec.shdr.sh_size`, and `assert_ok` records
whether every `assert(thunk.size() < max_thunk_size)` so far held. -/
structure St where
  offsets : List Int
  extns : List (List RangeExtensionRef)
  symst : List SymExtra
  thunks : List RangeExtensionThunk
  a : Nat
  b : Nat
  c : Nat
  d : Nat
  offset : Int
  sh_size : Int
  assert_ok : Bool
  deriving DecidableEq

/-- Default values used for out-of-range list reads (which the algorithm
never performs on well-formed input). -/
def d0Sym : SymExtra := ⟨0, -1, -1⟩

def dSec : InputSecStatic := ⟨0, 0, 0, []⟩

def dFile : FileRec := ⟨0, []⟩

def dThunk : RangeExtensionThunk := ⟨0, 0, []⟩

def dSymS : SymbolStatic := ⟨none, 0, none, 0, false⟩

/-- `align_to(x, a)`: round `x` up to the next multiple of `a`.  Modelled
from the spec ("`align(offset, 2^p2align)`"); the header defining mold's
`align_to` is not part of the sources under verification. -/
def alignTo (x a : Int) : Int := x + (a - x % a) % a

/-- Look up a global symbol id. -/
def getSym (cx : Ctx) (sid : Nat) : SymbolStatic := cx.syms.getD sid dSymS

/-- The global symbol id denoted by `isec.file.symbols[rel.r_sym]`. -/
def relSymId (cx : Ctx) (fileIdx : Nat) (r : ElfRel) : Nat :=
  (cx.files.getD fileIdx dFile).symbols.getD r.r_sym 0

/-- The address of a symbol defined in member `j` of this output section:
`osec_addr + members[j].offset + value`.  Modelled from the spec
(`get_addr` is external); the `NO_OPD` variant coincides with it here. -/
def symAddr (cx : Ctx) (offs : List Int) (j : Nat) (s : SymbolStatic) : Int :=
  cx.osec_addr + offs.getD j 0 + s.value

/-- `is_reachable(ctx, isec, sym, rel)` from `src/elf/thunks.cc:77`. -/
def isReachable (cx : Ctx) (offs : List Int) (mi : Nat) (s : SymbolStatic)
    (r : ElfRel) : Bool :=
  match s.isec with
  | none => false
  | some j =>
    if s.has_plt then false
    else if offs.getD j 0 = -1 then false
    else if cx.arch = Arch.arm32 ∧
        ((r.r_type = RType.thmJump24 ∧ ¬ symAddr cx offs j s % 2 = 1) ∨
         (r.r_type = RType.jump24 ∧ symAddr cx offs j s % 2 = 1)) then false
    else
      let S := symAddr cx offs j s
      let A := r.r_addend
      let P := cx.osec_addr + offs.getD mi 0 + r.r_offset
      decide (-(maxDistance cx.arch) ≤ S + A - P ∧ S + A - P < maxDistance cx.arch)

/-- `reset_thunk(thunk)`: clear the registrations of the thunk's symbols. -/
def resetThunk (t : RangeExtensionThunk) (symst : List SymExtra) : List SymExtra :=
  t.symbols.foldl (fun acc sid => acc.set sid ⟨0, -1, -1⟩) symst

/-- The call site `reset_thunk(*osec.thunks[i])`: only `symst` changes. -/
def retireAt (st : St) (i : Nat) : St :=
  { st with symst := resetThunk (st.thunks.getD i dThunk) st.symst }

/-- One relocation of `scan_rels`: returns the `range_extn` entry for the
relocation plus the updated symbol state and collected-symbol list. -/
def scanRel1 (cx : Ctx) (offs : List Int) (tIdx : Nat) (mi : Nat)
    (fileSyms : List Nat) (r : ElfRel) (symst : List SymExtra)
    (coll : List Nat) : RangeExtensionRef × List SymExtra × List Nat :=
  if ¬ needsThunkRel cx.arch r.r_type then (.unset, symst, coll)
  else
    let sid := fileSyms.getD r.r_sym 0
    let s := getSym cx sid
    if s.file = none then (.unset, symst, coll)
    else if isReachable cx offs mi s r then (.unset, symst, coll)
    else if (symst.getD sid d0Sym).thunk_idx ≠ -1 then
      (⟨(symst.getD sid d0Sym).thunk_idx, (symst.getD sid d0Sym).thunk_sym_idx⟩,
       symst, coll)
    else
      let old := (symst.getD sid d0Sym).flags
      let symst' := symst.set sid { symst.getD sid d0Sym with flags := -1 }
      if old = 0 then (⟨(tIdx : Int), -1⟩, symst', coll ++ [sid])
      else (⟨(tIdx : Int), -1⟩, symst', coll)

/-- The relocation loop of `scan_rels` over one section's relocations. -/
def scanRels (cx : Ctx) (offs : List Int) (tIdx : Nat) (mi : Nat)
    (fileSyms : List Nat) :
    List ElfRel → List SymExtra → List Nat →
      List RangeExtensionRef × List SymExtra × List Nat
  | [], symst, coll => ([], symst, coll)
  | r :: rs, symst, coll =>
    let p := scanRel1 cx offs tIdx mi fileSyms r symst coll
    let q := scanRels cx offs tIdx mi fileSyms rs p.2.1 p.2.2
    (p.1 :: q.1, q.2.1, q.2.2)

/-- The symbol table (`isec.file.symbols`) of member `mi`'s file. -/
def secFileSyms (cx : Ctx) (mi : Nat) : List Nat :=
  (cx.files.getD (cx.members.getD mi dSec).file dFile).symbols

/-- The relocations of member `mi`. -/
def secRels (cx : Ctx) (mi : Nat) : List ElfRel :=
  (cx.members.getD mi dSec).rels

/-- `scan_rels(ctx, isec, thunk)` for member `mi`: rebuilds the member's
`range_extn` vector (the `resize` plus the loop) and threads the shared
symbol state and the thunk's symbol list. -/
def scanSec (cx : Ctx) (tIdx : Nat) (p : St × List Nat) (mi : Nat) :
    St × List Nat :=
  let q := scanRels cx p.1.offsets tIdx mi (secFileSyms cx mi)
      (secRels cx mi) p.1.symst p.2
  ({ p.1 with extns := p.1.extns.set mi q.1, symst := q.2.1 }, q.2.2)

/-- First parallel scan over the batch, as a sequential fold. -/
def scanBatch (cx : Ctx) (tIdx : Nat) (batch : List Nat) (p : St × List Nat) :
    St × List Nat :=
  batch.foldl (scanSec cx tIdx) p

/-- Sort key, first component: `sym->file->priority`. -/
def symPriority (cx : Ctx) (sid : Nat) : Int :=
  (cx.files.getD ((getSym cx sid).file.getD 0) dFile).priority

/-- The sorting order on thunk symbols:
`tuple{a->file->priority, a->sym_idx} < tuple{b->…}` made reflexive. -/
def symLe (cx : Ctx) (x y : Nat) : Prop :=
  symPriority cx x < symPriority cx y ∨
    (symPriority cx x = symPriority cx y ∧ (getSym cx x).sym_idx ≤ (getSym cx y).sym_idx)

instance (cx : Ctx) : DecidableRel (symLe cx) := fun x y => by
  unfold symLe; infer_instance

/-- `sort(thunk.symbols, …)` by `(file priority, sym_idx)`. -/
def sortSyms (cx : Ctx) (l : List Nat) : List Nat :=
  List.insertionSort (symLe cx) l

/-- Assign slot indices: `sym->extra.thunk_idx = thunk.thunk_idx;
sym->extra.thunk_sym_idx = i++` over the sorted symbol list. -/
def assignSlots (tIdx : Nat) : List Nat → Nat → List SymExtra → List SymExtra
  | [], _, symst => symst
  | sid :: rest, i, symst =>
    assignSlots tIdx rest (i + 1)
      (symst.set sid
        { symst.getD sid d0Sym with thunk_idx := (tIdx : Int), thunk_sym_idx := (i : Int) })

/-- Second scan over one member: for every relocation whose entry selected
the fresh thunk, fill in the now-known slot index. -/
def fixupSec (cx : Ctx) (tIdx : Nat) (symst : List SymExtra) (st : St)
    (mi : Nat) : St :=
  let ext := List.zipWith
    (fun (r : ElfRel) (e : RangeExtensionRef) =>
      if e.thunk_idx = (tIdx : Int) then
        { e with sym_idx :=
            (symst.getD ((secFileSyms cx mi).getD r.r_sym 0) d0Sym).thunk_sym_idx }
      else e)
    (secRels cx mi) (st.extns.getD mi [])
  { st with extns := st.extns.set mi ext }

/-- Second parallel scan over the batch, as a sequential fold. -/
def fixupBatch (cx : Ctx) (tIdx : Nat) (batch : List Nat) (st : St) : St :=
  batch.foldl (fixupSec cx tIdx st.symst) st

/-- The `while (d < m.size() && …)` loop: place input sections at the
frontier as long as a thunk after them would still be reachable from `b`.
The fuel is instantiated with `m.size() - d`, which the guard makes
sufficient. -/
def dPhase (cx : Ctx) : Nat → St → St
  | 0, st => st
  | fuel + 1, st =>
    if st.d < cx.members.length then
      let sec := cx.members.getD st.d dSec
      let al : Int := 2 ^ sec.p2align
      if alignTo st.offset al + sec.sh_size + maxThunkSize <
          st.offsets.getD st.b 0 + maxDistance cx.arch then
        dPhase cx fuel
          { st with offsets := st.offsets.set st.d (alignTo st.offset al),
                    offset := alignTo st.offset al + sec.sh_size,
                    d := st.d + 1 }
      else st
    else st

/-- The `while (c < m.size() && …)` loop advancing the batch end. -/
def cPhase (cx : Ctx) : Nat → St → St
  | 0, st => st
  | fuel + 1, st =>
    if st.c < cx.members.length ∧
        st.offsets.getD st.c 0 + (cx.members.getD st.c dSec).sh_size <
        st.offsets.getD st.b 0 + batchSize cx.arch then
      cPhase cx fuel { st with c := st.c + 1 }
    else st

/-- The `while (a < osec.thunks.size() && …)` retirement loop. -/
def aPhase (cx : Ctx) : Nat → Int → St → St
  | 0, _, st => st
  | fuel + 1, cOff, st =>
    if st.a < st.thunks.length ∧
        (st.thunks.getD st.a dThunk).offset + maxDistance cx.arch < cOff then
      aPhase cx fuel cOff { retireAt st st.a with a := st.a + 1 }
    else st

/-- The final `while (a < osec.thunks.size()) reset_thunk(…)` loop. -/
def finishLoop : Nat → St → St
  | 0, st => st
  | fuel + 1, st =>
    if st.a < st.thunks.length then
      finishLoop fuel { retireAt st st.a with a := st.a + 1 }
    else st

/-- Stage 1 of an iteration: the `D` loop, with sufficient fuel. -/
def stepD (cx : Ctx) (st : St) : St := dPhase cx (cx.members.length - st.d) st

/-- Stage 2: `c = b + 1` followed by the `C` loop. -/
def stepC (cx : Ctx) (st : St) : St :=
  cPhase cx cx.members.length { stepD cx st with c := st.b + 1 }

/-- `c_offset = (c == m.size()) ? offset : m[c]->offset`. -/
def stepCOff (cx : Ctx) (st : St) : Int :=
  if (stepC cx st).c = cx.members.length then (stepC cx st).offset
  else (stepC cx st).offsets.getD (stepC cx st).c 0

/-- Stage 3: the thunk-retirement (`A`) loop. -/
def stepA (cx : Ctx) (st : St) : St :=
  aPhase cx ((stepC cx st).thunks.length - (stepC cx st).a) (stepCOff cx st)
    (stepC cx st)

/-- The member indices of the current batch `[b, c)`. -/
def stepBatch (cx : Ctx) (st : St) : List Nat :=
  List.range' st.b ((stepC cx st).c - st.b)

/-- Stage 4: the first relocation scan over the batch, feeding the fresh
thunk (whose index is the current `osec.thunks.size()`). -/
def stepScan (cx : Ctx) (st : St) : St × List Nat :=
  scanBatch cx (stepA cx st).thunks.length (stepBatch cx st) (stepA cx st, [])

/-- One iteration of the main sweep loop (the body of `while (b < m.size())`).
`arr` reorders each freshly collected symbol list, standing for the
arrival order produced by the parallel scanner tasks. -/
def sweepStep (cx : Ctx) (arr : Nat → List Nat → List Nat) (st : St) : St :=
  let tIdx := (stepA cx st).thunks.length
  let tOff := alignTo (stepA cx st).offset cx.thunk_align
  let coll := arr tIdx (stepScan cx st).2
  let ok := decide ((coll.length : Int) * cx.stub_size < maxThunkSize)
  let sorted := sortSyms cx coll
  let st5 := { (stepScan cx st).1 with
    symst := assignSlots tIdx sorted 0 (stepScan cx st).1.symst }
  let st6 := fixupBatch cx tIdx (stepBatch cx st) st5
  { st6 with
    thunks := st6.thunks ++ [⟨tIdx, tOff, sorted⟩],
    offset := tOff + (coll.length : Int) * cx.stub_size,
    b := (stepC cx st).c,
    assert_ok := st6.assert_ok && ok }

/-- After the main loop: retire the remaining thunks and set
`osec.shdr.sh_size = offset`. -/
def sweepFinish (st : St) : St :=
  let st' := finishLoop (st.thunks.length - st.a) st
  { st' with sh_size := st'.offset }

/-- The fueled main loop.  `none` means the fuel ran out; termination
(claim C8) shows fuel `m.size() + 1` always suffices. -/
def sweepLoop (cx : Ctx) (arr : Nat → List Nat → List Nat) :
    Nat → St → Option St
  | 0, _ => none
  | fuel + 1, st =>
    if st.b < cx.members.length then sweepLoop cx arr fuel (sweepStep cx arr st)
    else some (sweepFinish st)

/-- `create_range_extension_thunks(ctx, osec)`.  `st0` carries the state
of `osec` on entry; on the empty-members path it is returned untouched. -/
def createRangeExtensionThunks (cx : Ctx) (arr : Nat → List Nat → List Nat)
    (st0 : St) : Option St :=
  if cx.members.length = 0 then some st0
  else
    sweepLoop cx arr (cx.members.length + 1)
      { st0 with
        offsets := (List.replicate cx.members.length (-1 : Int)).set 0 0,
        a := 0, b := 0, c := 0, d := 0, offset := 0, assert_ok := true }

/-- The canonical (identity) arrival order of collected symbols. -/
def idArr : Nat → List Nat → List Nat := fun _ l => l

/-- The run with the canonical schedule. -/
def runSweep (cx : Ctx) (st0 : St) : Option St :=
  createRangeExtensionThunks cx idArr st0

/-! ## Concrete fixtures used by witnesses and counterexamples -/

/-- A fresh `osec` state: no thunks, clean symbols, `n` members. -/
def cleanSt (nsecs nsyms : Nat) : St :=
  { offsets := List.replicate nsecs 0,
    extns := List.replicate nsecs [],
    symst := List.replicate nsyms ⟨0, -1, -1⟩,
    thunks := [], a := 0, b := 0, c := 0, d := 0, offset := 0, sh_size := 0,
    assert_ok := true }

/-- ARM64 fixture: two 8-byte sections; section 0 calls an out-of-section
symbol (id 1) and a local symbol (id 0) defined in section 1. -/
def cxTwo : Ctx :=
  { arch := .arm64, stub_size := 12, thunk_align := 4, osec_addr := 0,
    files := [⟨10, [0, 1]⟩],
    syms := [⟨some 0, 0, some 1, 0, false⟩, ⟨some 0, 1, none, 0, false⟩],
    members := [⟨8, 2, 0, [⟨.call26, 1, 0, 0⟩, ⟨.call26, 0, 4, 0⟩]⟩,
                ⟨8, 2, 0, []⟩] }

/-- Fixture with no members (for the empty-input path). -/
def cxEmpty : Ctx :=
  { arch := .arm64, stub_size := 12, thunk_align := 4, osec_addr := 0,
    files := [], syms := [], members := [] }

/-- ARM32 fixture whose second member is a 16 MiB section: placing it
after the first would leave no room for a thunk within branch range, so
the `D` frontier never reaches it. -/
def cxGiant : Ctx :=
  { arch := .arm32, stub_size := 12, thunk_align := 4, osec_addr := 0,
    files := [⟨10, []⟩], syms := [],
    members := [⟨8, 2, 0, []⟩, ⟨16777216, 2, 0, []⟩] }

/-- ARM64 fixture with a relocation whose `r_offset` (and hence referring
site) lies 1 GiB past the section start, far beyond every thunk. -/
def cxFarSite : Ctx :=
  { arch := .arm64, stub_size := 12, thunk_align := 4, osec_addr := 0,
    files := [⟨10, [0]⟩],
    syms := [⟨some 0, 0, none, 0, false⟩],
    members := [⟨8, 2, 0, [⟨.call26, 0, 1073741824, 0⟩]⟩] }

/-- ARM64 fixture where one batch enlists ten out-of-section symbols with
a 10240-byte stub each: the thunk grows to exactly `max_thunk_size`. -/
def cxOverflow : Ctx :=
  { arch := .arm64, stub_size := 10240, thunk_align := 4, osec_addr := 0,
    files := [⟨10, [0, 1, 2, 3, 4, 5, 6, 7, 8, 9]⟩],
    syms := [⟨some 0, 0, none, 0, false⟩, ⟨some 0, 1, none, 0, false⟩,
             ⟨some 0, 2, none, 0, false⟩, ⟨some 0, 3, none, 0, false⟩,
             ⟨some 0, 4, none, 0, false⟩, ⟨some 0, 5, none, 0, false⟩,
             ⟨some 0, 6, none, 0, false⟩, ⟨some 0, 7, none, 0, false⟩,
             ⟨some 0, 8, none, 0, false⟩, ⟨some 0, 9, none, 0, false⟩],
    members := [⟨64, 2, 0,
      [⟨.call26, 0, 0, 0⟩, ⟨.call26, 1, 4, 0⟩, ⟨.call26, 2, 8, 0⟩,
       ⟨.call26, 3, 12, 0⟩, ⟨.call26, 4, 16, 0⟩, ⟨.call26, 5, 20, 0⟩,
       ⟨.call26, 6, 24, 0⟩, ⟨.call26, 7, 28, 0⟩, ⟨.call26, 8, 32, 0⟩,
       ⟨.call26, 9, 36, 0⟩]⟩] }

/-- Extract the final state of a run that is known to succeed. -/
def finalOf (o : Option St) : St := o.getD (cleanSt 0 0)

/-- The final state of the run on `cxTwo` (checked by `decide`). -/
def stTwoFinal : St :=
  { offsets := [0, 8],
    extns := [[⟨0, 0⟩, ⟨-1, -1⟩], []],
    symst := [⟨0, -1, -1⟩, ⟨0, -1, -1⟩],
    thunks := [⟨0, 16, [1]⟩],
    a := 1, b := 2, c := 2, d := 2, offset := 28, sh_size := 28,
    assert_ok := true }

/-- Default relocation, used for out-of-range list reads. -/
def dRel : ElfRel := ⟨.other, 0, 0, 0⟩

/-! ## Invariants -/

/-- The state `create_range_extension_thunks` may assume on entry:
`osec.thunks` empty, every symbol unflagged and unregistered, and one
`range_extn` vector per member. -/
def WfInit (cx : Ctx) (st0 : St) : Prop :=
  st0.thunks = [] ∧
  st0.extns.length = cx.members.length ∧
  st0.symst.length = cx.syms.length ∧
  (∀ e ∈ st0.symst, e = (⟨0, -1, -1⟩ : SymExtra)) ∧
  (∀ v ∈ st0.extns, v = ([] : List RangeExtensionRef)) ∧
  st0.assert_ok = true

/-- Mid-scan state of the symbol table relative to the list `coll` of
symbols collected so far in the current batch: flags are `0` or `-1`; a
symbol is flagged iff it is registered in an earlier thunk or enlisted in
the current one; unregistered symbols carry no slot; enlisted symbols are
valid ids whose whole record is `(-1, -1, -1)`. -/
def ScanQ (symst : List SymExtra) (coll : List Nat) : Prop :=
  coll.Nodup ∧
  (∀ sid ∈ coll, sid < symst.length ∧
    symst.getD sid d0Sym = (⟨-1, -1, -1⟩ : SymExtra)) ∧
  ∀ sid, sid < symst.length →
    ((symst.getD sid d0Sym).flags = 0 ∨ (symst.getD sid d0Sym).flags = -1) ∧
    ((symst.getD sid d0Sym).flags = -1 ↔
      ((symst.getD sid d0Sym).thunk_idx ≠ -1 ∨ sid ∈ coll)) ∧
    ((symst.getD sid d0Sym).thunk_idx = -1 →
      (symst.getD sid d0Sym).thunk_sym_idx = -1)

/-- The registration invariant between sweep iterations: flags are `0` or
`-1`, a symbol is flagged iff registered, a registered symbol holds a
valid slot of a live (not yet retired) thunk. -/
def RegInv (cx : Ctx) (st : St) : Prop :=
  st.symst.length = cx.syms.length ∧
  st.a ≤ st.thunks.length ∧
  ∀ sid, sid < st.symst.length →
    ((st.symst.getD sid d0Sym).flags = 0 ∨ (st.symst.getD sid d0Sym).flags = -1) ∧
    ((st.symst.getD sid d0Sym).flags = -1 ↔
      (st.symst.getD sid d0Sym).thunk_idx ≠ -1) ∧
    ((st.symst.getD sid d0Sym).thunk_idx = -1 →
      (st.symst.getD sid d0Sym).thunk_sym_idx = -1) ∧
    ((st.symst.getD sid d0Sym).thunk_idx ≠ -1 →
      ∃ k : Nat, (k : Int) = (st.symst.getD sid d0Sym).thunk_idx ∧
        st.a ≤ k ∧ k < st.thunks.length ∧
        sid ∈ (st.thunks.getD k dThunk).symbols ∧
        ∃ j : Nat, (j : Int) = (st.symst.getD sid d0Sym).thunk_sym_idx ∧
          j < (st.thunks.getD k dThunk).symbols.length)

/-- The routing-entry invariant: every `range_extn` entry that selected a
thunk names an existing thunk and carries a filled-in slot index. -/
def ExtInv (st : St) : Prop :=
  ∀ mi : Nat, ∀ e ∈ st.extns.getD mi [], e.thunk_idx ≠ -1 →
    0 ≤ e.thunk_idx ∧ e.thunk_idx < (st.thunks.length : Int) ∧ e.sym_idx ≠ -1

/-- `assert_ok` is precisely "every thunk fits under `max_thunk_size`". -/
def AssertInv (cx : Ctx) (st : St) : Prop :=
  st.assert_ok = true ↔
    ∀ t ∈ st.thunks, (t.symbols.length : Int) * cx.stub_size < maxThunkSize

/-- Characterization of a freshly scanned `range_extn` vector: every slot
is unset, a replay of an existing registration (read from the symbol
state `symst0` at batch entry), or routed to the fresh thunk `tIdx` with
its target enlisted in the batch's collected list `collF`. -/
def ExtChar (cx : Ctx) (tIdx : Nat) (fileSyms : List Nat)
    (symst0 : List SymExtra) (collF : List Nat) (rels : List ElfRel)
    (ext : List RangeExtensionRef) : Prop :=
  ext.length = rels.length ∧
  ∀ i, i < rels.length →
    ext.getD i RangeExtensionRef.unset = RangeExtensionRef.unset ∨
    ((symst0.getD (fileSyms.getD (rels.getD i dRel).r_sym 0) d0Sym).thunk_idx ≠ -1 ∧
      ext.getD i RangeExtensionRef.unset =
        ⟨(symst0.getD (fileSyms.getD (rels.getD i dRel).r_sym 0) d0Sym).thunk_idx,
         (symst0.getD (fileSyms.getD (rels.getD i dRel).r_sym 0) d0Sym).thunk_sym_idx⟩) ∨
    (ext.getD i RangeExtensionRef.unset = ⟨(tIdx : Int), -1⟩ ∧
      fileSyms.getD (rels.getD i dRel).r_sym 0 ∈ collF ∧
      (symst0.getD (fileSyms.getD (rels.getD i dRel).r_sym 0) d0Sym).thunk_idx = -1)

/-- Well-formedness of the static input that the C++ types guarantee:
section sizes are unsigned (hence nonnegative), the thunk alignment is a
positive power of two, and the per-slot stub size is nonnegative. -/
def WfSizes (cx : Ctx) : Prop :=
  (∀ s ∈ cx.members, 0 ≤ s.sh_size) ∧ 0 < cx.thunk_align ∧ 0 ≤ cx.stub_size

/-- The layout invariant maintained by the frontier cursor `d`: offsets
are assigned exactly on the placed prefix (plus member 0, pinned at 0
before any placement), assigned offsets are aligned, their section ends
stay below the running frontier `offset`, and placed sections do not
overlap. -/
def LayoutInv (cx : Ctx) (st : St) : Prop :=
  st.offsets.length = cx.members.length ∧
  st.d ≤ cx.members.length ∧
  0 ≤ st.offset ∧
  (st.d = 0 → st.offsets.getD 0 0 = 0) ∧
  (∀ i, i < cx.members.length → st.d ≤ i → i ≠ 0 →
    st.offsets.getD i 0 = -1) ∧
  (∀ i, i < st.d →
    0 ≤ st.offsets.getD i 0 ∧
    alignTo (st.offsets.getD i 0) (2 ^ (cx.members.getD i dSec).p2align) =
      st.offsets.getD i 0 ∧
    st.offsets.getD i 0 + (cx.members.getD i dSec).sh_size ≤ st.offset) ∧
  (∀ i j, i < j → j < st.d →
    st.offsets.getD i 0 + (cx.members.getD i dSec).sh_size ≤
      st.offsets.getD j 0)

/-- Every relocation's site lies inside its input section. -/
def SitesWf (cx : Ctx) : Prop :=
  ∀ s ∈ cx.members, ∀ r ∈ s.rels, 0 ≤ r.r_offset ∧ r.r_offset ≤ s.sh_size

/-- Per-section batching well-formedness, presupposed by the sweep's
design (a batch must span about one tenth of the branch range, so a
single section together with one maximal thunk has to fit in a batch),
plus the target fact that a thunk's per-slot stub is at least as large
as the thunk's alignment.  No bound on the number of sections or on the
total size of the output section is implied: a run may span arbitrarily
many branch ranges and retire thunks. -/
def BatchWf (cx : Ctx) : Prop :=
  (∀ s ∈ cx.members, (2 : Int) ^ s.p2align + s.sh_size + maxThunkSize +
    cx.thunk_align ≤ batchSize cx.arch) ∧
  cx.thunk_align ≤ cx.stub_size

/-- Quantitative characterization of the routing entries (as long as
every size assertion held): every entry that selected a thunk names an
existing thunk and a live slot, its referring section is already placed,
the whole referring section lies within branch reach of the thunk
(spec invariant 2), and the slot's address stays within forward reach of
the section start. -/
def Ent4 (cx : Ctx) (st : St) : Prop :=
  st.assert_ok = true →
  ∀ mi : Nat, ∀ e ∈ st.extns.getD mi [], e.thunk_idx ≠ -1 →
    ∃ k j : Nat, (k : Int) = e.thunk_idx ∧ (j : Int) = e.sym_idx ∧
      k < st.thunks.length ∧
      j < (st.thunks.getD k dThunk).symbols.length ∧
      mi < st.d ∧ mi < cx.members.length ∧
      st.offsets.getD mi 0 + (cx.members.getD mi dSec).sh_size ≤
        (st.thunks.getD k dThunk).offset + maxDistance cx.arch ∧
      (st.thunks.getD k dThunk).offset + (j : Int) * cx.stub_size <
        st.offsets.getD mi 0 + maxDistance cx.arch

/-- The reachability invariant maintained between sweep iterations: the
batch start is placed (or the state is still pristine), one maximal
thunk always fits between the frontier and the end of the branch range
starting at the batch start (the code's `D`-guard margin), `extns`
mirrors `members`, every thunk lies in `[0, offset]`, thunk offsets are
monotone in creation order, every thunk and every placed section occupy
disjoint ordered ranges (each thunk sits at or past the end of every
section placed before its creation — in particular past the last section
of its batch — and wholly before every section placed after it), and the
routing entries satisfy `Ent4`. -/
def ReachInv (cx : Ctx) (st : St) : Prop :=
  (st.b < cx.members.length →
    (st.b < st.d ∨ (st.b = st.d ∧ st.offset = 0 ∧ st.offsets.getD st.b 0 = 0))) ∧
  (st.assert_ok = true → st.b < cx.members.length →
    st.offset + maxThunkSize ≤ st.offsets.getD st.b 0 + maxDistance cx.arch) ∧
  st.extns.length = cx.members.length ∧
  (∀ t ∈ st.thunks, 0 ≤ t.offset ∧
    t.offset + (t.symbols.length : Int) * cx.stub_size ≤ st.offset) ∧
  (∀ k1 k2 : Nat, k1 ≤ k2 → k2 < st.thunks.length →
    (st.thunks.getD k1 dThunk).offset ≤ (st.thunks.getD k2 dThunk).offset) ∧
  (∀ k : Nat, k < st.thunks.length → ∀ mi : Nat, mi < st.d →
    st.offsets.getD mi 0 + (cx.members.getD mi dSec).sh_size ≤
      (st.thunks.getD k dThunk).offset ∨
    (st.thunks.getD k dThunk).offset +
      ((st.thunks.getD k dThunk).symbols.length : Int) * cx.stub_size ≤
      st.offsets.getD mi 0) ∧
  Ent4 cx st

/-! ## Basic list helpers -/

theorem getD_set_self {α : Type} (l : List α) (i : Nat) (v d : α)
    (h : i < l.length) : (l.set i v).getD i d = v := by
  simp [List.getD_eq_getElem?_getD, List.getElem?_set, h]

theorem getD_set_ne {α : Type} (l : List α) (i j : Nat) (v d : α)
    (h : i ≠ j) : (l.set i v).getD j d = l.getD j d := by
  simp [List.getD_eq_getElem?_getD, List.getElem?_set, h]

theorem getD_set (l : List α) (i j : Nat) (v d : α) :
    (l.set i v).getD j d =
      if i = j ∧ i < l.length then v else l.getD j d := by
  by_cases h : i = j
  · subst h
    by_cases h2 : i < l.length
    · simp [getD_set_self, h2]
    · simp [h2, List.getD_eq_getElem?_getD, List.getElem?_set,
        List.getElem?_eq_none (le_of_not_lt h2)]
  · simp [getD_set_ne _ _ _ _ _ h, h]

/-! ## Frame lemmas for the loop phases -/

theorem dPhase_frame (cx : Ctx) : ∀ (f : Nat) (st : St),
    (dPhase cx f st).b = st.b ∧ (dPhase cx f st).symst = st.symst ∧
    (dPhase cx f st).extns = st.extns ∧ (dPhase cx f st).thunks = st.thunks ∧
    (dPhase cx f st).a = st.a ∧ (dPhase cx f st).c = st.c ∧
    (dPhase cx f st).sh_size = st.sh_size ∧
    (dPhase cx f st).assert_ok = st.assert_ok := by
  intro f
  induction f with
  | zero => intro st; simp [dPhase]
  | succ f ih =>
    intro st
    rw [dPhase]
    split
    · dsimp only
      split
      · exact ih _
      · simp
    · simp

theorem cPhase_frame (cx : Ctx) : ∀ (f : Nat) (st : St),
    (cPhase cx f st).b = st.b ∧ (cPhase cx f st).symst = st.symst ∧
    (cPhase cx f st).extns = st.extns ∧ (cPhase cx f st).thunks = st.thunks ∧
    (cPhase cx f st).a = st.a ∧ (cPhase cx f st).d = st.d ∧
    (cPhase cx f st).offset = st.offset ∧
    (cPhase cx f st).offsets = st.offsets ∧
    (cPhase cx f st).sh_size = st.sh_size ∧
    (cPhase cx f st).assert_ok = st.assert_ok := by
  intro f
  induction f with
  | zero => intro st; simp [cPhase]
  | succ f ih =>
    intro st
    rw [cPhase]
    split
    · exact ih _
    · simp

theorem cPhase_c_ge (cx : Ctx) : ∀ (f : Nat) (st : St),
    st.c ≤ (cPhase cx f st).c := by
  intro f
  induction f with
  | zero => intro st; simp [cPhase]
  | succ f ih =>
    intro st
    rw [cPhase]
    split
    · have h := ih { st with c := st.c + 1 }
      simp only at h
      exact le_trans (Nat.le_succ _) h
    · exact le_refl _

theorem aPhase_frame (cx : Ctx) : ∀ (f : Nat) (cOff : Int) (st : St),
    (aPhase cx f cOff st).b = st.b ∧ (aPhase cx f cOff st).c = st.c ∧
    (aPhase cx f cOff st).d = st.d ∧
    (aPhase cx f cOff st).extns = st.extns ∧
    (aPhase cx f cOff st).thunks = st.thunks ∧
    (aPhase cx f cOff st).offset = st.offset ∧
    (aPhase cx f cOff st).offsets = st.offsets ∧
    (aPhase cx f cOff st).sh_size = st.sh_size ∧
    (aPhase cx f cOff st).assert_ok = st.assert_ok := by
  intro f
  induction f with
  | zero => intro cOff st; simp [aPhase]
  | succ f ih =>
    intro cOff st
    rw [aPhase]
    split
    · exact ih _ _
    · simp

theorem scanRels_frame (cx : Ctx) (offs : List Int) (tIdx : Nat) (mi : Nat)
    (fileSyms : List Nat) : ∀ (rels : List ElfRel) (symst : List SymExtra)
    (coll : List Nat),
    (scanRels cx offs tIdx mi fileSyms rels symst coll).1.length = rels.length := by
  intro rels
  induction rels with
  | nil => intro symst coll; simp [scanRels]
  | cons r rs ih =>
    intro symst coll
    simp only [scanRels, List.length_cons]
    rw [ih]

theorem scanSec_frame (cx : Ctx) (tIdx : Nat) (p : St × List Nat) (mi : Nat) :
    (scanSec cx tIdx p mi).1.b = p.1.b ∧ (scanSec cx tIdx p mi).1.c = p.1.c ∧
    (scanSec cx tIdx p mi).1.d = p.1.d ∧ (scanSec cx tIdx p mi).1.a = p.1.a ∧
    (scanSec cx tIdx p mi).1.thunks = p.1.thunks ∧
    (scanSec cx tIdx p mi).1.offset = p.1.offset ∧
    (scanSec cx tIdx p mi).1.offsets = p.1.offsets ∧
    (scanSec cx tIdx p mi).1.sh_size = p.1.sh_size ∧
    (scanSec cx tIdx p mi).1.assert_ok = p.1.assert_ok := by
  simp [scanSec]

theorem scanBatch_frame (cx : Ctx) (tIdx : Nat) : ∀ (batch : List Nat)
    (p : St × List Nat),
    (scanBatch cx tIdx batch p).1.b = p.1.b ∧
    (scanBatch cx tIdx batch p).1.c = p.1.c ∧
    (scanBatch cx tIdx batch p).1.d = p.1.d ∧
    (scanBatch cx tIdx batch p).1.a = p.1.a ∧
    (scanBatch cx tIdx batch p).1.thunks = p.1.thunks ∧
    (scanBatch cx tIdx batch p).1.offset = p.1.offset ∧
    (scanBatch cx tIdx batch p).1.offsets = p.1.offsets ∧
    (scanBatch cx tIdx batch p).1.sh_size = p.1.sh_size ∧
    (scanBatch cx tIdx batch p).1.assert_ok = p.1.assert_ok := by
  intro batch
  induction batch with
  | nil => intro p; simp [scanBatch]
  | cons mi rest ih =>
    intro p
    have h1 := scanSec_frame cx tIdx p mi
    have h2 := ih (scanSec cx tIdx p mi)
    simp only [scanBatch, List.foldl_cons] at *
    constructor
    · rw [h2.1, h1.1]
    constructor
    · rw [h2.2.1, h1.2.1]
    constructor
    · rw [h2.2.2.1, h1.2.2.1]
    constructor
    · rw [h2.2.2.2.1, h1.2.2.2.1]
    constructor
    · rw [h2.2.2.2.2.1, h1.2.2.2.2.1]
    constructor
    · rw [h2.2.2.2.2.2.1, h1.2.2.2.2.2.1]
    constructor
    · rw [h2.2.2.2.2.2.2.1, h1.2.2.2.2.2.2.1]
    constructor
    · rw [h2.2.2.2.2.2.2.2.1, h1.2.2.2.2.2.2.2.1]
    · rw [h2.2.2.2.2.2.2.2.2, h1.2.2.2.2.2.2.2.2]

theorem fixupSec_frame (cx : Ctx) (tIdx : Nat) (symst : List SymExtra)
    (st : St) (mi : Nat) :
    (fixupSec cx tIdx symst st mi).b = st.b ∧
    (fixupSec cx tIdx symst st mi).c = st.c ∧
    (fixupSec cx tIdx symst st mi).d = st.d ∧
    (fixupSec cx tIdx symst st mi).a = st.a ∧
    (fixupSec cx tIdx symst st mi).thunks = st.thunks ∧
    (fixupSec cx tIdx symst st mi).symst = st.symst ∧
    (fixupSec cx tIdx symst st mi).offset = st.offset ∧
    (fixupSec cx tIdx symst st mi).offsets = st.offsets ∧
    (fixupSec cx tIdx symst st mi).sh_size = st.sh_size ∧
    (fixupSec cx tIdx symst st mi).assert_ok = st.assert_ok := by
  simp [fixupSec]

theorem fixupBatch_frame (cx : Ctx) (tIdx : Nat) : ∀ (batch : List Nat) (st : St),
    (fixupBatch cx tIdx batch st).b = st.b ∧
    (fixupBatch cx tIdx batch st).c = st.c ∧
    (fixupBatch cx tIdx batch st).d = st.d ∧
    (fixupBatch cx tIdx batch st).a = st.a ∧
    (fixupBatch cx tIdx batch st).thunks = st.thunks ∧
    (fixupBatch cx tIdx batch st).symst = st.symst ∧
    (fixupBatch cx tIdx batch st).offset = st.offset ∧
    (fixupBatch cx tIdx batch st).offsets = st.offsets ∧
    (fixupBatch cx tIdx batch st).sh_size = st.sh_size ∧
    (fixupBatch cx tIdx batch st).assert_ok = st.assert_ok := by
  intro batch
  have key : ∀ (sy : List SymExtra) (l : List Nat) (st0 : St),
      (l.foldl (fixupSec cx tIdx sy) st0).b = st0.b ∧
      (l.foldl (fixupSec cx tIdx sy) st0).c = st0.c ∧
      (l.foldl (fixupSec cx tIdx sy) st0).d = st0.d ∧
      (l.foldl (fixupSec cx tIdx sy) st0).a = st0.a ∧
      (l.foldl (fixupSec cx tIdx sy) st0).thunks = st0.thunks ∧
      (l.foldl (fixupSec cx tIdx sy) st0).symst = st0.symst ∧
      (l.foldl (fixupSec cx tIdx sy) st0).offset = st0.offset ∧
      (l.foldl (fixupSec cx tIdx sy) st0).offsets = st0.offsets ∧
      (l.foldl (fixupSec cx tIdx sy) st0).sh_size = st0.sh_size ∧
      (l.foldl (fixupSec cx tIdx sy) st0).assert_ok = st0.assert_ok := by
    intro sy l
    induction l with
    | nil => intro st0; simp
    | cons mi rest ih =>
      intro st0
      have h1 := fixupSec_frame cx tIdx sy st0 mi
      have h2 := ih (fixupSec cx tIdx sy st0 mi)
      simp only [List.foldl_cons]
      exact ⟨h2.1.trans h1.1, h2.2.1.trans h1.2.1, h2.2.2.1.trans h1.2.2.1,
        h2.2.2.2.1.trans h1.2.2.2.1, h2.2.2.2.2.1.trans h1.2.2.2.2.1,
        h2.2.2.2.2.2.1.trans h1.2.2.2.2.2.1,
        h2.2.2.2.2.2.2.1.trans h1.2.2.2.2.2.2.1,
        h2.2.2.2.2.2.2.2.1.trans h1.2.2.2.2.2.2.2.1,
        h2.2.2.2.2.2.2.2.2.1.trans h1.2.2.2.2.2.2.2.2.1,
        h2.2.2.2.2.2.2.2.2.2.trans h1.2.2.2.2.2.2.2.2.2⟩
  intro st
  exact key st.symst batch st

/-- One sweep iteration advances `b` to the new `c`, which is at least
`b + 1`: each batch contains at least one input section. -/
theorem sweepStep_b_ge (cx : Ctx) (arr : Nat → List Nat → List Nat) (st : St) :
    st.b + 1 ≤ (sweepStep cx arr st).b := by
  show st.b + 1 ≤ (sweepStep cx arr st).b
  simp only [sweepStep, stepC, stepD]
  have h := cPhase_c_ge cx cx.members.length
      { dPhase cx (cx.members.length - st.d) st with c := st.b + 1 }
  simpa using h

/-- The fueled loop succeeds whenever the fuel exceeds `m.size() - b`. -/
theorem sweepLoop_isSome (cx : Ctx) (arr : Nat → List Nat → List Nat) :
    ∀ (fuel : Nat) (st : St), cx.members.length - st.b < fuel →
    (sweepLoop cx arr fuel st).isSome := by
  intro fuel
  induction fuel with
  | zero => intro st h; omega
  | succ f ih =>
    intro st h
    rw [sweepLoop]
    split
    · apply ih
      have hb := sweepStep_b_ge cx arr st
      rename_i hlt
      omega
    · simp

/-- Effect of the `foldl` inside `reset_thunk` on a single symbol slot. -/
theorem resetThunk_foldl_getD : ∀ (l : List Nat) (symst : List SymExtra)
    (sid : Nat),
    (l.foldl (fun acc s => acc.set s ⟨0, -1, -1⟩) symst).getD sid d0Sym =
      if sid ∈ l then ⟨0, -1, -1⟩ else symst.getD sid d0Sym := by
  intro l
  induction l with
  | nil => intro symst sid; simp
  | cons x xs ih =>
    intro symst sid
    simp only [List.foldl_cons]
    rw [ih]
    by_cases hmem : sid ∈ xs
    · simp [hmem]
    · by_cases hx : sid = x
      · subst hx
        simp only [hmem, if_false, List.mem_cons, true_or, if_true]
        rw [getD_set]
        split
        · rfl
        · rename_i hcon
          have hlen : symst.length ≤ sid := by
            rcases Nat.lt_or_ge sid symst.length with h | h
            · exact absurd ⟨rfl, h⟩ hcon
            · exact h
          simp [List.getD_eq_getElem?_getD, List.getElem?_eq_none hlen, d0Sym]
      · rw [getD_set_ne _ _ _ _ _ (fun h => hx h.symm)]
        simp [hmem, hx]

/-- `reset_thunk` does not change the number of symbol slots. -/
theorem resetThunk_length (t : RangeExtensionThunk) (symst : List SymExtra) :
    (resetThunk t symst).length = symst.length := by
  unfold resetThunk
  generalize t.symbols = l
  induction l generalizing symst with
  | nil => rfl
  | cons x xs ih => simp only [List.foldl_cons]; rw [ih, List.length_set]

/-! ## Claim theorems -/

/-- **C1.** The reachability oracle `is_reachable(ctx, isec, sym, rel)`
returns true iff: the symbol has a defining input section in the same
output section (modelled as `s.isec = some j`); `has_plt` is false; the
target section's offset is assigned (not the sentinel `-1`); on ARM32 the
relocation is neither a `THM_JUMP24` to an ARM-mode target nor a `JUMP24`
to a Thumb-mode target; and the signed distance `S + A - P` lies in
`[-max_distance, +max_distance)`. -/
theorem isReachable_characterization (cx : Ctx) (offs : List Int) (mi : Nat)
    (s : SymbolStatic) (r : ElfRel) :
    isReachable cx offs mi s r = true ↔
      ∃ j, s.isec = some j ∧ s.has_plt = false ∧ offs.getD j 0 ≠ -1 ∧
        ¬(cx.arch = Arch.arm32 ∧ r.r_type = RType.thmJump24 ∧
            symAddr cx offs j s % 2 ≠ 1) ∧
        ¬(cx.arch = Arch.arm32 ∧ r.r_type = RType.jump24 ∧
            symAddr cx offs j s % 2 = 1) ∧
        -(maxDistance cx.arch) ≤
            symAddr cx offs j s + r.r_addend -
              (cx.osec_addr + offs.getD mi 0 + r.r_offset) ∧
        symAddr cx offs j s + r.r_addend -
            (cx.osec_addr + offs.getD mi 0 + r.r_offset) < maxDistance cx.arch := by
  cases hi : s.isec with
  | none => simp [isReachable, hi]
  | some j =>
    simp only [isReachable, hi, Option.some.injEq]
    split_ifs with h1 h2 h3
    · refine iff_of_false (by simp) ?_
      rintro ⟨j', rfl, hplt, -⟩
      rw [hplt] at h1
      exact Bool.noConfusion h1
    · refine iff_of_false (by simp) ?_
      rintro ⟨j', rfl, -, hoff, -⟩
      exact hoff h2
    · refine iff_of_false (by simp) ?_
      rintro ⟨j', rfl, -, -, hn1, hn2, -⟩
      rcases h3.2 with ⟨ht, ho⟩ | ⟨ht, ho⟩
      · exact hn1 ⟨h3.1, ht, ho⟩
      · exact hn2 ⟨h3.1, ht, ho⟩
    · rw [decide_eq_true_eq]
      constructor
      · rintro ⟨hlo, hhi⟩
        refine ⟨j, rfl, ?_, h2, ?_, ?_, hlo, hhi⟩
        · cases hpl : s.has_plt
          · rfl
          · exact absurd hpl h1
        · rintro ⟨ha, ht, ho⟩
          exact h3 ⟨ha, Or.inl ⟨ht, ho⟩⟩
        · rintro ⟨ha, ht, ho⟩
          exact h3 ⟨ha, Or.inr ⟨ht, ho⟩⟩
      · rintro ⟨j', rfl, -, -, -, -, hlo, hhi⟩
        exact ⟨hlo, hhi⟩

/-- **C6.** Retiring a thunk (`reset_thunk` at its call site
`reset_thunk(*osec.thunks[i])`) sets, for every symbol in the thunk's
`symbols` list, `thunk_idx`, `thunk_sym_idx` to `-1` and `flags` to `0`,
and changes nothing else: the thunk stays an element of `osec.thunks`
with its `offset`, `thunk_idx` and `symbols` unchanged, and all other
state (offsets, range_extn, other symbols) is untouched. -/
theorem retireAt_effect (st : St) (i : Nat) :
    (retireAt st i).thunks = st.thunks ∧
    (retireAt st i).thunks.getD i dThunk = st.thunks.getD i dThunk ∧
    (retireAt st i).offsets = st.offsets ∧
    (retireAt st i).extns = st.extns ∧
    (retireAt st i).offset = st.offset ∧
    (retireAt st i).sh_size = st.sh_size ∧
    (retireAt st i).symst.length = st.symst.length ∧
    (∀ sid : Nat,
      (retireAt st i).symst.getD sid d0Sym =
        if sid ∈ (st.thunks.getD i dThunk).symbols then ⟨0, -1, -1⟩
        else st.symst.getD sid d0Sym) := by
  refine ⟨rfl, rfl, rfl, rfl, rfl, rfl, resetThunk_length _ _, ?_⟩
  intro sid
  exact resetThunk_foldl_getD _ _ _

/-- **C8.** The sweep terminates on every finite members list: each
iteration sets `c` (the new `b`) to at least `b + 1`, so the loop's
measure decreases, and the fueled loop with fuel `m.size() + 1` always
returns a result. -/
theorem sweep_terminates (cx : Ctx) (arr : Nat → List Nat → List Nat)
    (st0 : St) :
    (∀ st : St, st.b < cx.members.length → st.b + 1 ≤ (sweepStep cx arr st).b) ∧
    (createRangeExtensionThunks cx arr st0).isSome := by
  constructor
  · intro st _
    exact sweepStep_b_ge cx arr st
  · rw [createRangeExtensionThunks]
    split
    · simp
    · apply sweepLoop_isSome
      simp only []
      omega

/-- Witness for C8 at a concrete input. -/
theorem sweep_terminates_witness :
    (cleanSt 2 2).b < cxTwo.members.length ∧
    (cleanSt 2 2).b + 1 ≤ (sweepStep cxTwo idArr (cleanSt 2 2)).b ∧
    (createRangeExtensionThunks cxTwo idArr (cleanSt 2 2)).isSome := by
  refine ⟨by decide, ?_, ?_⟩
  · exact (sweep_terminates cxTwo idArr (cleanSt 2 2)).1 (cleanSt 2 2) (by decide)
  · exact (sweep_terminates cxTwo idArr (cleanSt 2 2)).2

/-- **C10.** If `osec.members` is empty, `create_range_extension_thunks`
returns immediately with the entire state unchanged — no offsets written,
no thunks appended, `shdr.sh_size` untouched. -/
theorem emptyMembers_unchanged (cx : Ctx) (arr : Nat → List Nat → List Nat)
    (st0 : St) (h : cx.members = []) :
    createRangeExtensionThunks cx arr st0 = some st0 := by
  simp [createRangeExtensionThunks, h]

/-- Witness for C10 at a concrete input. -/
theorem emptyMembers_unchanged_witness :
    cxEmpty.members = [] ∧
    createRangeExtensionThunks cxEmpty idArr (cleanSt 0 0) = some (cleanSt 0 0) :=
  ⟨rfl, emptyMembers_unchanged cxEmpty idArr (cleanSt 0 0) rfl⟩

/-! ## Determinism of the sweep under scanner arrival order (C7) -/

instance (cx : Ctx) : IsTotal Nat (symLe cx) := by
  constructor
  intro x y
  unfold symLe
  rcases lt_trichotomy (symPriority cx x) (symPriority cx y) with h | h | h
  · exact Or.inl (Or.inl h)
  · rcases Nat.le_total (getSym cx x).sym_idx (getSym cx y).sym_idx with hs | hs
    · exact Or.inl (Or.inr ⟨h, hs⟩)
    · exact Or.inr (Or.inr ⟨h.symm, hs⟩)
  · exact Or.inr (Or.inl h)

instance (cx : Ctx) : IsTrans Nat (symLe cx) := by
  constructor
  intro x y z h1 h2
  unfold symLe at *
  omega

/-- Every symbol the scanner appends to a thunk is a valid symbol id:
the undefined-symbol check rejects the out-of-range default. -/
theorem scanRel1_coll_lt (cx : Ctx) (offs : List Int) (tIdx : Nat) (mi : Nat)
    (fileSyms : List Nat) (r : ElfRel) (symst : List SymExtra) (coll : List Nat) :
    ∀ sid ∈ (scanRel1 cx offs tIdx mi fileSyms r symst coll).2.2,
      sid ∈ coll ∨ sid < cx.syms.length := by
  have hbound : ¬ (getSym cx (fileSyms.getD r.r_sym 0)).file = none →
      fileSyms.getD r.r_sym 0 < cx.syms.length := by
    intro h2
    by_contra hge
    have hd : getSym cx (fileSyms.getD r.r_sym 0) = dSymS := by
      unfold getSym
      refine List.getD_eq_default _ _ ?_
      omega
    rw [hd] at h2
    exact h2 rfl
  intro sid hmem
  simp only [scanRel1] at hmem
  split_ifs at hmem with h1 h2 h3 h4 h5
  all_goals try exact Or.inl hmem
  rcases List.mem_append.mp hmem with h | h
  · exact Or.inl h
  · rw [List.mem_singleton] at h
    subst h
    exact Or.inr (hbound h2)

theorem scanRels_coll_lt (cx : Ctx) (offs : List Int) (tIdx : Nat) (mi : Nat)
    (fileSyms : List Nat) : ∀ (rels : List ElfRel) (symst : List SymExtra)
    (coll : List Nat),
    ∀ sid ∈ (scanRels cx offs tIdx mi fileSyms rels symst coll).2.2,
      sid ∈ coll ∨ sid < cx.syms.length := by
  intro rels
  induction rels with
  | nil => intro symst coll sid h; exact Or.inl h
  | cons r rs ih =>
    intro symst coll sid h
    simp only [scanRels] at h
    rcases ih _ _ sid h with h2 | h2
    · exact scanRel1_coll_lt cx offs tIdx mi fileSyms r symst coll sid h2
    · exact Or.inr h2

theorem scanSec_coll_lt (cx : Ctx) (tIdx : Nat) (p : St × List Nat) (mi : Nat) :
    ∀ sid ∈ (scanSec cx tIdx p mi).2, sid ∈ p.2 ∨ sid < cx.syms.length := by
  intro sid h
  simp only [scanSec] at h
  exact scanRels_coll_lt cx _ tIdx mi _ _ _ _ sid h

theorem scanBatch_coll_lt (cx : Ctx) (tIdx : Nat) : ∀ (batch : List Nat)
    (p : St × List Nat),
    ∀ sid ∈ (scanBatch cx tIdx batch p).2, sid ∈ p.2 ∨ sid < cx.syms.length := by
  intro batch
  induction batch with
  | nil => intro p sid h; exact Or.inl h
  | cons mi rest ih =>
    intro p sid h
    simp only [scanBatch, List.foldl_cons] at h
    rcases ih (scanSec cx tIdx p mi) sid h with h2 | h2
    · exact scanSec_coll_lt cx tIdx p mi sid h2
    · exact Or.inr h2

/-- Every symbol collected by the batch scan is a valid symbol id. -/
theorem stepScan_coll_lt (cx : Ctx) (st : St) :
    ∀ sid ∈ (stepScan cx st).2, sid < cx.syms.length := by
  intro sid h
  rcases scanBatch_coll_lt cx _ (stepBatch cx st) ((stepA cx st), []) sid h with h2 | h2
  · cases h2
  · exact h2

/-- Two permutations of the same valid-id list sort identically when the
sort key `(file priority, sym_idx)` separates valid symbol ids. -/
theorem sortSyms_eq_of_perm (cx : Ctx) (l₁ l₂ : List Nat) (hp : l₁.Perm l₂)
    (hb : ∀ x ∈ l₁, x < cx.syms.length)
    (hinj : ∀ x ∈ List.range cx.syms.length, ∀ y ∈ List.range cx.syms.length,
      symLe cx x y → symLe cx y x → x = y) :
    sortSyms cx l₁ = sortSyms cx l₂ := by
  unfold sortSyms
  apply @List.Perm.eq_of_sorted Nat (symLe cx)
  · intro a b ha hb2 h1 h2
    have ha' : a ∈ l₁ := (List.perm_insertionSort (symLe cx) l₁).mem_iff.mp ha
    have hb' : b ∈ l₁ := hp.mem_iff.mpr
      ((List.perm_insertionSort (symLe cx) l₂).mem_iff.mp hb2)
    exact hinj a (List.mem_range.mpr (hb a ha')) b (List.mem_range.mpr (hb b hb')) h1 h2
  · exact List.sorted_insertionSort _ _
  · exact List.sorted_insertionSort _ _
  · exact (List.perm_insertionSort _ l₁).trans
      (hp.trans (List.perm_insertionSort _ l₂).symm)

/-- A sweep iteration depends on the arrival order only through the sorted
symbol list and the collected count. -/
theorem sweepStep_arr_congr (cx : Ctx) (arr1 arr2 : Nat → List Nat → List Nat)
    (st : St)
    (hsort : sortSyms cx (arr1 (stepA cx st).thunks.length (stepScan cx st).2) =
      sortSyms cx (arr2 (stepA cx st).thunks.length (stepScan cx st).2))
    (hlen : (arr1 (stepA cx st).thunks.length (stepScan cx st).2).length =
      (arr2 (stepA cx st).thunks.length (stepScan cx st).2).length) :
    sweepStep cx arr1 st = sweepStep cx arr2 st := by
  simp only [sweepStep]
  rw [hsort, hlen]

theorem sweepLoop_arr_eq (cx : Ctx) (arr1 arr2 : Nat → List Nat → List Nat)
    (h1 : ∀ (k : Nat) (l : List Nat), (arr1 k l).Perm l)
    (h2 : ∀ (k : Nat) (l : List Nat), (arr2 k l).Perm l)
    (hinj : ∀ x ∈ List.range cx.syms.length, ∀ y ∈ List.range cx.syms.length,
      symLe cx x y → symLe cx y x → x = y) :
    ∀ (fuel : Nat) (st : St),
      sweepLoop cx arr1 fuel st = sweepLoop cx arr2 fuel st := by
  intro fuel
  induction fuel with
  | zero => intro st; rfl
  | succ f ih =>
    intro st
    rw [sweepLoop, sweepLoop]
    split
    · rw [sweepStep_arr_congr cx arr1 arr2 st ?_ ?_, ih]
      · exact sortSyms_eq_of_perm cx _ _ ((h1 _ _).trans (h2 _ _).symm)
          (fun x hx => stepScan_coll_lt cx st x ((h1 _ _).mem_iff.mp hx)) hinj
      · exact ((h1 _ _).length_eq).trans ((h2 _ _).length_eq).symm
    · rfl

/-- **C7.** The output of `create_range_extension_thunks` is deterministic
with respect to the order in which parallel scanner tasks append symbols
to the current thunk: provided the sort key `(file priority, sym_idx)`
separates symbols (as it does for real inputs, where symbol-table indices
are unique within a file and priorities are unique across files), any two
arrival orders that are permutations of the canonical collection order
produce identical final states — identical `osec.thunks`, identical
per-thunk symbol orderings, identical `range_extn` values. -/
theorem sweep_deterministic (cx : Ctx) (arr1 arr2 : Nat → List Nat → List Nat)
    (st0 : St)
    (h1 : ∀ (k : Nat) (l : List Nat), (arr1 k l).Perm l)
    (h2 : ∀ (k : Nat) (l : List Nat), (arr2 k l).Perm l)
    (hinj : ∀ x ∈ List.range cx.syms.length, ∀ y ∈ List.range cx.syms.length,
      symLe cx x y → symLe cx y x → x = y) :
    createRangeExtensionThunks cx arr1 st0 = createRangeExtensionThunks cx arr2 st0 := by
  unfold createRangeExtensionThunks
  split
  · rfl
  · exact sweepLoop_arr_eq cx arr1 arr2 h1 h2 hinj _ _

/-- Witness for C7: the identity schedule and the reversed schedule
produce the same run on a concrete input. -/
theorem sweep_deterministic_witness :
    (∀ (k : Nat) (l : List Nat), (idArr k l).Perm l) ∧
    (∀ (k : Nat) (l : List Nat), ((fun (_ : Nat) (l : List Nat) => l.reverse) k l).Perm l) ∧
    (∀ x ∈ List.range cxTwo.syms.length, ∀ y ∈ List.range cxTwo.syms.length,
      symLe cxTwo x y → symLe cxTwo y x → x = y) ∧
    createRangeExtensionThunks cxTwo idArr (cleanSt 2 2) =
      createRangeExtensionThunks cxTwo (fun _ l => l.reverse) (cleanSt 2 2) := by
  refine ⟨fun k l => List.Perm.refl l, fun k l => List.reverse_perm l, by decide, ?_⟩
  exact sweep_deterministic cxTwo idArr (fun _ l => l.reverse) (cleanSt 2 2)
    (fun k l => List.Perm.refl l) (fun k l => List.reverse_perm l) (by decide)

/-! ## Counterexamples -/

/-- **C5, counterexample.** On `cxTwo` the relocation at index 0 of
member 0 selects thunk 0, whose address (offset 16, slot 0) is well
within branch range of the referring site (offset 0); yet upon
termination that thunk has been reset: the registration of its symbol
(id 1) is cleared to `(-1, -1)` and its flags to 0.  The final cleanup
loop resets every thunk, so no selected thunk stays "alive". -/
theorem thunk_alive_counterexample :
    runSweep cxTwo (cleanSt 2 2) ≠ none ∧
    (finalOf (runSweep cxTwo (cleanSt 2 2))).extns.getD 0 [] =
      [⟨0, 0⟩, ⟨-1, -1⟩] ∧
    (finalOf (runSweep cxTwo (cleanSt 2 2))).thunks.getD 0 dThunk =
      ⟨0, 16, [1]⟩ ∧
    (-(maxDistance Arch.arm64) ≤ (16 : Int) + 0 * 12 - 0 ∧
      (16 : Int) + 0 * 12 - 0 < maxDistance Arch.arm64) ∧
    (finalOf (runSweep cxTwo (cleanSt 2 2))).symst.getD 1 d0Sym = ⟨0, -1, -1⟩ := by
  decide

/-- **C3, counterexample.** On `cxGiant` (ARM32, second member of size
16 MiB) the sweep terminates with the second member still carrying the
sentinel offset `-1`: not every input section gets an assigned offset. -/
theorem offsets_assigned_counterexample :
    runSweep cxGiant (cleanSt 2 0) ≠ none ∧
    (finalOf (runSweep cxGiant (cleanSt 2 0))).offsets.getD 1 0 = -1 := by
  decide

/-- **C2, counterexample.** On `cxFarSite` the single relocation selects
thunk 0 with slot 0; the thunk sits at offset 8, but the referring site
is `P = 0 + 1073741824`, so the signed distance
`T.offset + sym_idx·stub_size - P = 8 - 2^30` lies far below
`-max_distance(ARM64) = -2^27`. -/
theorem thunk_distance_counterexample :
    runSweep cxFarSite (cleanSt 1 1) ≠ none ∧
    (finalOf (runSweep cxFarSite (cleanSt 1 1))).extns.getD 0 [] = [⟨0, 0⟩] ∧
    (finalOf (runSweep cxFarSite (cleanSt 1 1))).thunks.getD 0 dThunk =
      ⟨0, 8, [0]⟩ ∧
    ¬ (-(maxDistance Arch.arm64) ≤
        (8 : Int) + 0 * 12 - ((0 : Int) + 1073741824)) := by
  decide

/-- **C9, counterexample.** On `cxOverflow` one batch enlists ten
distinct out-of-range symbols with a 10240-byte stub each, so the fresh
thunk's size reaches `10 · 10240 = 102400 = max_thunk_size` and the
assertion `thunk.size() < max_thunk_size` fails. -/
theorem thunk_size_assert_counterexample :
    runSweep cxOverflow (cleanSt 1 10) ≠ none ∧
    ((finalOf (runSweep cxOverflow (cleanSt 1 10))).thunks.getD 0 dThunk).symbols.length = 10 ∧
    ¬ ((10 : Int) * 10240 < maxThunkSize) ∧
    (finalOf (runSweep cxOverflow (cleanSt 1 10))).assert_ok = false := by
  decide

/-! ## The scan phase: effect on symbol state and routing entries -/

/-- Full characterization of one `scan_rels` relocation step. -/
theorem scanRel1_spec (cx : Ctx) (offs : List Int) (tIdx : Nat) (mi : Nat)
    (fileSyms : List Nat) (r : ElfRel) (symst : List SymExtra) (coll : List Nat)
    (Hlen : symst.length = cx.syms.length) (HQ : ScanQ symst coll) :
    (scanRel1 cx offs tIdx mi fileSyms r symst coll).2.1.length = symst.length ∧
    (∃ l, (scanRel1 cx offs tIdx mi fileSyms r symst coll).2.2 = coll ++ l) ∧
    ScanQ (scanRel1 cx offs tIdx mi fileSyms r symst coll).2.1
      (scanRel1 cx offs tIdx mi fileSyms r symst coll).2.2 ∧
    (∀ sid : Nat,
      ((scanRel1 cx offs tIdx mi fileSyms r symst coll).2.1.getD sid d0Sym).thunk_idx =
        (symst.getD sid d0Sym).thunk_idx ∧
      ((scanRel1 cx offs tIdx mi fileSyms r symst coll).2.1.getD sid d0Sym).thunk_sym_idx =
        (symst.getD sid d0Sym).thunk_sym_idx) ∧
    ((scanRel1 cx offs tIdx mi fileSyms r symst coll).1 = RangeExtensionRef.unset ∨
      ((symst.getD (fileSyms.getD r.r_sym 0) d0Sym).thunk_idx ≠ -1 ∧
        (scanRel1 cx offs tIdx mi fileSyms r symst coll).1 =
          ⟨(symst.getD (fileSyms.getD r.r_sym 0) d0Sym).thunk_idx,
           (symst.getD (fileSyms.getD r.r_sym 0) d0Sym).thunk_sym_idx⟩) ∨
      ((scanRel1 cx offs tIdx mi fileSyms r symst coll).1 = ⟨(tIdx : Int), -1⟩ ∧
        fileSyms.getD r.r_sym 0 ∈ (scanRel1 cx offs tIdx mi fileSyms r symst coll).2.2 ∧
        (symst.getD (fileSyms.getD r.r_sym 0) d0Sym).thunk_idx = -1)) := by
  obtain ⟨hnd, hclean, hpt⟩ := HQ
  have hbound : ¬ (getSym cx (fileSyms.getD r.r_sym 0)).file = none →
      fileSyms.getD r.r_sym 0 < symst.length := by
    intro h2
    rw [Hlen]
    by_contra hge
    have hd : getSym cx (fileSyms.getD r.r_sym 0) = dSymS := by
      unfold getSym
      refine List.getD_eq_default _ _ ?_
      omega
    rw [hd] at h2
    exact h2 rfl
  simp only [scanRel1]
  split_ifs with h1 h2 h3 h4 h5
  -- undefined symbol
  · exact ⟨rfl, ⟨[], by simp⟩, ⟨hnd, hclean, hpt⟩, fun sid => ⟨rfl, rfl⟩, Or.inl rfl⟩
  -- reachable
  · exact ⟨rfl, ⟨[], by simp⟩, ⟨hnd, hclean, hpt⟩, fun sid => ⟨rfl, rfl⟩, Or.inl rfl⟩
  -- reuse of a previous registration
  · exact ⟨rfl, ⟨[], by simp⟩, ⟨hnd, hclean, hpt⟩, fun sid => ⟨rfl, rfl⟩,
      Or.inr (Or.inl ⟨h4, rfl⟩)⟩
  -- fresh path, flag transition 0 → -1: append
  · have hs0 : fileSyms.getD r.r_sym 0 < symst.length := hbound h2
    have hidx : (symst.getD (fileSyms.getD r.r_sym 0) d0Sym).thunk_idx = -1 := by
      by_contra hcon
      exact h4 hcon
    have hsymidx : (symst.getD (fileSyms.getD r.r_sym 0) d0Sym).thunk_sym_idx = -1 :=
      (hpt _ hs0).2.2 hidx
    have hnotmem : fileSyms.getD r.r_sym 0 ∉ coll := by
      intro hmem
      have := (hclean _ hmem).2
      rw [this] at h5
      exact absurd h5 (by simp)
    have hval : ({ symst.getD (fileSyms.getD r.r_sym 0) d0Sym with flags := -1 }
        : SymExtra) = ⟨-1, -1, -1⟩ := by
      cases hrec : symst.getD (fileSyms.getD r.r_sym 0) d0Sym
      rw [hrec] at hidx hsymidx
      simp only at hidx hsymidx
      simp [hidx, hsymidx]
    refine ⟨List.length_set _ _ _, ⟨[fileSyms.getD r.r_sym 0], rfl⟩, ⟨?_, ?_, ?_⟩,
      ?_, Or.inr (Or.inr ⟨rfl, by simp, hidx⟩)⟩
    · rw [List.nodup_append]
      refine ⟨hnd, List.nodup_singleton _, ?_⟩
      intro x hx hy
      rw [List.mem_singleton] at hy
      subst hy
      exact hnotmem hx
    · intro sid hmem
      rcases List.mem_append.mp hmem with hm | hm
      · have hne : sid ≠ fileSyms.getD r.r_sym 0 := fun he => hnotmem (he ▸ hm)
        rw [List.length_set, getD_set_ne _ _ _ _ _ (fun he => hne he.symm)]
        exact hclean _ hm
      · rw [List.mem_singleton] at hm
        subst hm
        rw [List.length_set, getD_set_self _ _ _ _ hs0]
        exact ⟨hs0, hval⟩
    · intro sid hsid
      rw [List.length_set] at hsid
      by_cases he : sid = fileSyms.getD r.r_sym 0
      · subst he
        rw [getD_set_self _ _ _ _ hs0, hval]
        refine ⟨Or.inr rfl, ?_, fun _ => rfl⟩
        simp
      · rw [getD_set_ne _ _ _ _ _ (fun h => he h.symm)]
        have h := hpt sid hsid
        refine ⟨h.1, ?_, h.2.2⟩
        rw [h.2.1]
        constructor
        · rintro (hh | hh)
          · exact Or.inl hh
          · exact Or.inr (List.mem_append.mpr (Or.inl hh))
        · rintro (hh | hh)
          · exact Or.inl hh
          · rcases List.mem_append.mp hh with hm | hm
            · exact Or.inr hm
            · rw [List.mem_singleton] at hm
              exact absurd hm he
    · intro sid
      rw [getD_set]
      split
      · rename_i hcase
        rw [← hcase.1]
        exact ⟨rfl, rfl⟩
      · exact ⟨rfl, rfl⟩
  -- fresh path, flag already -1: no append
  · have hs0 : fileSyms.getD r.r_sym 0 < symst.length := hbound h2
    have hidx : (symst.getD (fileSyms.getD r.r_sym 0) d0Sym).thunk_idx = -1 := by
      by_contra hcon
      exact h4 hcon
    have hfl : (symst.getD (fileSyms.getD r.r_sym 0) d0Sym).flags = -1 := by
      rcases (hpt _ hs0).1 with h | h
      · exact absurd h h5
      · exact h
    have hmem : fileSyms.getD r.r_sym 0 ∈ coll := by
      rcases ((hpt _ hs0).2.1).mp hfl with h | h
      · exact absurd hidx h
      · exact h
    have hval : ({ symst.getD (fileSyms.getD r.r_sym 0) d0Sym with flags := -1 }
        : SymExtra) = symst.getD (fileSyms.getD r.r_sym 0) d0Sym := by
      cases hrec : symst.getD (fileSyms.getD r.r_sym 0) d0Sym
      rw [hrec] at hfl
      simp only at hfl
      simp [hfl]
    have hset : symst.set (fileSyms.getD r.r_sym 0)
        { symst.getD (fileSyms.getD r.r_sym 0) d0Sym with flags := -1 } =
        symst.set (fileSyms.getD r.r_sym 0)
          (symst.getD (fileSyms.getD r.r_sym 0) d0Sym) := by
      rw [hval]
    have hgetD : ∀ sid : Nat,
        (symst.set (fileSyms.getD r.r_sym 0)
          { symst.getD (fileSyms.getD r.r_sym 0) d0Sym with flags := -1 }).getD sid d0Sym =
        symst.getD sid d0Sym := by
      intro sid
      rw [getD_set]
      split
      · rename_i hcase
        rw [← hcase.1, hval]
      · rfl
    refine ⟨List.length_set _ _ _, ⟨[], by simp⟩, ⟨hnd, ?_, ?_⟩, ?_,
      Or.inr (Or.inr ⟨rfl, hmem, hidx⟩)⟩
    · intro sid hm
      rw [List.length_set, hgetD]
      exact hclean _ hm
    · intro sid hsid
      rw [List.length_set] at hsid
      rw [hgetD]
      exact hpt sid hsid
    · intro sid
      rw [hgetD]
      exact ⟨rfl, rfl⟩
  -- not a thunk relocation
  · exact ⟨rfl, ⟨[], by simp⟩, ⟨hnd, hclean, hpt⟩, fun sid => ⟨rfl, rfl⟩, Or.inl rfl⟩

/-- `ExtChar` transports along registration-preserving symbol-state
changes and along growth of the collected list. -/
theorem ExtChar_mono (cx : Ctx) (tIdx : Nat) (fileSyms : List Nat)
    (s₁ s₀ : List SymExtra) (c₁ c₂ : List Nat) (rels : List ElfRel)
    (ext : List RangeExtensionRef)
    (hregs : ∀ sid : Nat, (s₁.getD sid d0Sym).thunk_idx = (s₀.getD sid d0Sym).thunk_idx ∧
      (s₁.getD sid d0Sym).thunk_sym_idx = (s₀.getD sid d0Sym).thunk_sym_idx)
    (hcoll : ∀ x ∈ c₁, x ∈ c₂)
    (h : ExtChar cx tIdx fileSyms s₁ c₁ rels ext) :
    ExtChar cx tIdx fileSyms s₀ c₂ rels ext := by
  obtain ⟨hl, hc⟩ := h
  refine ⟨hl, fun i hi => ?_⟩
  rcases hc i hi with h | ⟨hne, he⟩ | ⟨he, hm, hz⟩
  · exact Or.inl h
  · refine Or.inr (Or.inl ?_)
    rw [(hregs _).1, (hregs _).2] at he
    rw [(hregs _).1] at hne
    exact ⟨hne, he⟩
  · refine Or.inr (Or.inr ⟨he, hcoll _ hm, ?_⟩)
    rw [(hregs _).1] at hz
    exact hz

/-- Characterization of `scan_rels` over a whole relocation list. -/
theorem scanRels_spec (cx : Ctx) (offs : List Int) (tIdx : Nat) (mi : Nat)
    (fileSyms : List Nat) :
    ∀ (rels : List ElfRel) (symst : List SymExtra) (coll : List Nat),
    symst.length = cx.syms.length → ScanQ symst coll →
    (scanRels cx offs tIdx mi fileSyms rels symst coll).2.1.length = symst.length ∧
    (∃ l, (scanRels cx offs tIdx mi fileSyms rels symst coll).2.2 = coll ++ l) ∧
    ScanQ (scanRels cx offs tIdx mi fileSyms rels symst coll).2.1
      (scanRels cx offs tIdx mi fileSyms rels symst coll).2.2 ∧
    (∀ sid : Nat,
      ((scanRels cx offs tIdx mi fileSyms rels symst coll).2.1.getD sid d0Sym).thunk_idx =
        (symst.getD sid d0Sym).thunk_idx ∧
      ((scanRels cx offs tIdx mi fileSyms rels symst coll).2.1.getD sid d0Sym).thunk_sym_idx =
        (symst.getD sid d0Sym).thunk_sym_idx) ∧
    ExtChar cx tIdx fileSyms symst
      (scanRels cx offs tIdx mi fileSyms rels symst coll).2.2 rels
      (scanRels cx offs tIdx mi fileSyms rels symst coll).1 := by
  intro rels
  induction rels with
  | nil =>
    intro symst coll Hlen HQ
    exact ⟨rfl, ⟨[], by simp [scanRels]⟩, HQ, fun sid => ⟨rfl, rfl⟩,
      ⟨rfl, fun i hi => absurd hi (by simp)⟩⟩
  | cons r rs ih =>
    intro symst coll Hlen HQ
    have H1 := scanRel1_spec cx offs tIdx mi fileSyms r symst coll Hlen HQ
    have Hlen1 : (scanRel1 cx offs tIdx mi fileSyms r symst coll).2.1.length =
        cx.syms.length := H1.1.trans Hlen
    have H2 := ih (scanRel1 cx offs tIdx mi fileSyms r symst coll).2.1
      (scanRel1 cx offs tIdx mi fileSyms r symst coll).2.2 Hlen1 H1.2.2.1
    simp only [scanRels]
    refine ⟨H2.1.trans H1.1, ?_, H2.2.2.1, ?_, ?_, ?_⟩
    · obtain ⟨l1, hl1⟩ := H1.2.1
      obtain ⟨l2, hl2⟩ := H2.2.1
      exact ⟨l1 ++ l2, by rw [hl2, hl1, List.append_assoc]⟩
    · intro sid
      exact ⟨(H2.2.2.2.1 sid).1.trans (H1.2.2.2.1 sid).1,
        (H2.2.2.2.1 sid).2.trans (H1.2.2.2.1 sid).2⟩
    · simp only [List.length_cons]
      rw [H2.2.2.2.2.1]
    · intro i hi
      cases i with
      | zero =>
        simp only [List.getD_cons_zero]
        rcases H1.2.2.2.2 with h | ⟨hne, he⟩ | ⟨he, hm, hz⟩
        · exact Or.inl h
        · exact Or.inr (Or.inl ⟨hne, he⟩)
        · refine Or.inr (Or.inr ⟨he, ?_, hz⟩)
          obtain ⟨l2, hl2⟩ := H2.2.1
          rw [hl2]
          exact List.mem_append.mpr (Or.inl hm)
      | succ i =>
        simp only [List.getD_cons_succ]
        have hmono := ExtChar_mono cx tIdx fileSyms _ symst _ _ rs _
          (fun sid => H1.2.2.2.1 sid) (fun x hx => hx) H2.2.2.2.2
        exact hmono.2 i (by simpa using hi)

/-- Characterization of the scan of one batch member. -/
theorem scanSec_spec (cx : Ctx) (tIdx : Nat) (p : St × List Nat) (mi : Nat)
    (Hlen : p.1.symst.length = cx.syms.length) (HQ : ScanQ p.1.symst p.2) :
    (scanSec cx tIdx p mi).1.symst.length = p.1.symst.length ∧
    (∃ l, (scanSec cx tIdx p mi).2 = p.2 ++ l) ∧
    ScanQ (scanSec cx tIdx p mi).1.symst (scanSec cx tIdx p mi).2 ∧
    (∀ sid : Nat,
      (((scanSec cx tIdx p mi).1.symst.getD sid d0Sym)).thunk_idx =
        (p.1.symst.getD sid d0Sym).thunk_idx ∧
      (((scanSec cx tIdx p mi).1.symst.getD sid d0Sym)).thunk_sym_idx =
        (p.1.symst.getD sid d0Sym).thunk_sym_idx) ∧
    ((scanSec cx tIdx p mi).1.extns.length = p.1.extns.length) ∧
    (∀ mi' : Nat,
      ((scanSec cx tIdx p mi).1.extns.getD mi' [] = p.1.extns.getD mi' [] ∧
        (mi' = mi → p.1.extns.length ≤ mi')) ∨
      (mi' = mi ∧ mi' < p.1.extns.length ∧
        ExtChar cx tIdx (secFileSyms cx mi') p.1.symst (scanSec cx tIdx p mi).2
          (secRels cx mi') ((scanSec cx tIdx p mi).1.extns.getD mi' []))) := by
  have H := scanRels_spec cx p.1.offsets tIdx mi (secFileSyms cx mi)
    (secRels cx mi) p.1.symst p.2 Hlen HQ
  simp only [scanSec]
  refine ⟨H.1, H.2.1, H.2.2.1, H.2.2.2.1, List.length_set _ _ _, ?_⟩
  intro mi'
  rw [getD_set]
  split
  · rename_i hcase
    obtain ⟨he, hlt⟩ := hcase
    subst he
    exact Or.inr ⟨rfl, hlt, H.2.2.2.2⟩
  · rename_i hcase
    rw [not_and_or] at hcase
    refine Or.inl ⟨rfl, ?_⟩
    intro he
    subst he
    rcases hcase with h | h
    · exact absurd rfl h
    · omega

/-- Characterization of the scan of a whole batch. -/
theorem scanBatch_spec (cx : Ctx) (tIdx : Nat) : ∀ (batch : List Nat)
    (p : St × List Nat),
    p.1.symst.length = cx.syms.length → ScanQ p.1.symst p.2 →
    (scanBatch cx tIdx batch p).1.symst.length = p.1.symst.length ∧
    (∃ l, (scanBatch cx tIdx batch p).2 = p.2 ++ l) ∧
    ScanQ (scanBatch cx tIdx batch p).1.symst (scanBatch cx tIdx batch p).2 ∧
    (∀ sid : Nat,
      (((scanBatch cx tIdx batch p).1.symst.getD sid d0Sym)).thunk_idx =
        (p.1.symst.getD sid d0Sym).thunk_idx ∧
      (((scanBatch cx tIdx batch p).1.symst.getD sid d0Sym)).thunk_sym_idx =
        (p.1.symst.getD sid d0Sym).thunk_sym_idx) ∧
    ((scanBatch cx tIdx batch p).1.extns.length = p.1.extns.length) ∧
    (∀ mi' : Nat,
      ((scanBatch cx tIdx batch p).1.extns.getD mi' [] = p.1.extns.getD mi' [] ∧
        (mi' ∈ batch → p.1.extns.length ≤ mi')) ∨
      (mi' ∈ batch ∧ mi' < p.1.extns.length ∧
        ExtChar cx tIdx (secFileSyms cx mi') p.1.symst (scanBatch cx tIdx batch p).2
          (secRels cx mi') ((scanBatch cx tIdx batch p).1.extns.getD mi' []))) := by
  intro batch
  induction batch with
  | nil =>
    intro p Hlen HQ
    exact ⟨rfl, ⟨[], by simp [scanBatch]⟩, HQ, fun sid => ⟨rfl, rfl⟩, rfl,
      fun mi' => Or.inl ⟨rfl, fun h => absurd h (List.not_mem_nil _)⟩⟩
  | cons mi rest ih =>
    intro p Hlen HQ
    have H1 := scanSec_spec cx tIdx p mi Hlen HQ
    have H2 := ih (scanSec cx tIdx p mi) (H1.1.trans Hlen) H1.2.2.1
    have hfold : scanBatch cx tIdx (mi :: rest) p =
        scanBatch cx tIdx rest (scanSec cx tIdx p mi) := by
      simp [scanBatch]
    rw [hfold]
    obtain ⟨l2, hl2⟩ := H2.2.1
    refine ⟨H2.1.trans H1.1, ?_, H2.2.2.1, ?_, H2.2.2.2.2.1.trans H1.2.2.2.2.1, ?_⟩
    · obtain ⟨l1, hl1⟩ := H1.2.1
      exact ⟨l1 ++ l2, by rw [hl2, hl1, List.append_assoc]⟩
    · intro sid
      exact ⟨(H2.2.2.2.1 sid).1.trans (H1.2.2.2.1 sid).1,
        (H2.2.2.2.1 sid).2.trans (H1.2.2.2.1 sid).2⟩
    · intro mi'
      have hlenEq : (scanSec cx tIdx p mi).1.extns.length = p.1.extns.length :=
        H1.2.2.2.2.1
      rcases H2.2.2.2.2.2 mi' with ⟨h2u, h2m⟩ | ⟨h2b, h2lt, h2c⟩
      · rw [h2u]
        rcases H1.2.2.2.2.2 mi' with ⟨h1u, h1m⟩ | ⟨h1e, h1lt, h1c⟩
        · refine Or.inl ⟨h1u, ?_⟩
          intro hmem
          rcases List.mem_cons.mp hmem with h | h
          · exact h1m h
          · exact hlenEq ▸ h2m h
        · refine Or.inr ⟨List.mem_cons.mpr (Or.inl h1e), h1lt, ?_⟩
          refine ExtChar_mono cx tIdx _ _ _ _ _ _ _ (fun sid => ⟨rfl, rfl⟩) ?_ h1c
          intro x hx
          rw [hl2]
          exact List.mem_append.mpr (Or.inl hx)
      · refine Or.inr ⟨List.mem_cons.mpr (Or.inr h2b), hlenEq ▸ h2lt, ?_⟩
        exact ExtChar_mono cx tIdx _ _ _ _ _ _ _
          (fun sid => H1.2.2.2.1 sid) (fun x hx => hx) h2c

theorem getD_eq_getElem {α : Type} (l : List α) (i : Nat) (d : α)
    (h : i < l.length) : l.getD i d = l[i] := by
  simp [List.getD_eq_getElem?_getD, List.getElem?_eq_getElem h]

/-! ## Slot assignment and retirement -/

theorem getD_append_left {α : Type} (l₁ l₂ : List α) (i : Nat) (d : α)
    (h : i < l₁.length) : (l₁ ++ l₂).getD i d = l₁.getD i d := by
  simp [List.getD_eq_getElem?_getD, List.getElem?_append, h]

theorem getD_append_last {α : Type} (l : List α) (x : α) (d : α) :
    (l ++ [x]).getD l.length d = x := by
  simp [List.getD_eq_getElem?_getD, List.getElem?_concat_length]

theorem assignSlots_length (tIdx : Nat) : ∀ (l : List Nat) (i0 : Nat)
    (symst : List SymExtra),
    (assignSlots tIdx l i0 symst).length = symst.length := by
  intro l
  induction l with
  | nil => intro i0 symst; rfl
  | cons x xs ih =>
    intro i0 symst
    simp only [assignSlots]
    rw [ih, List.length_set]

theorem assignSlots_getD_notMem (tIdx : Nat) : ∀ (l : List Nat) (i0 : Nat)
    (symst : List SymExtra) (sid : Nat), sid ∉ l →
    (assignSlots tIdx l i0 symst).getD sid d0Sym = symst.getD sid d0Sym := by
  intro l
  induction l with
  | nil => intro i0 symst sid _; rfl
  | cons x xs ih =>
    intro i0 symst sid hmem
    simp only [List.mem_cons, not_or] at hmem
    simp only [assignSlots]
    rw [ih _ _ _ hmem.2, getD_set_ne _ _ _ _ _ (fun h => hmem.1 h.symm)]

theorem assignSlots_getD_mem (tIdx : Nat) : ∀ (l : List Nat) (i0 : Nat)
    (symst : List SymExtra) (sid : Nat), l.Nodup → sid ∈ l → sid < symst.length →
    ∃ j : Nat, i0 ≤ j ∧ j < i0 + l.length ∧
      (assignSlots tIdx l i0 symst).getD sid d0Sym =
        { symst.getD sid d0Sym with
          thunk_idx := (tIdx : Int), thunk_sym_idx := (j : Int) } := by
  intro l
  induction l with
  | nil => intro i0 symst sid _ hmem _; cases hmem
  | cons x xs ih =>
    intro i0 symst sid hnd hmem hlt
    rw [List.nodup_cons] at hnd
    by_cases he : sid = x
    · subst he
      refine ⟨i0, le_refl _, by simp, ?_⟩
      simp only [assignSlots]
      rw [assignSlots_getD_notMem tIdx xs _ _ _ hnd.1,
        getD_set_self _ _ _ _ hlt]
    · rcases List.mem_cons.mp hmem with h | h
      · exact absurd h he
      · obtain ⟨j, hj1, hj2, hj3⟩ := ih (i0 + 1) (symst.set x
          { symst.getD x d0Sym with
            thunk_idx := (tIdx : Int), thunk_sym_idx := (i0 : Int) }) sid hnd.2 h
          (by rw [List.length_set]; exact hlt)
        refine ⟨j, by omega, by simp only [List.length_cons]; omega, ?_⟩
        simp only [assignSlots]
        rw [hj3, getD_set_ne _ _ _ _ _ (fun hh => he hh.symm)]

/-- Pointwise effect of `reset_thunk`. -/
theorem resetThunk_getD (t : RangeExtensionThunk) (symst : List SymExtra)
    (sid : Nat) :
    (resetThunk t symst).getD sid d0Sym =
      if sid ∈ t.symbols then ⟨0, -1, -1⟩ else symst.getD sid d0Sym := by
  unfold resetThunk
  exact resetThunk_foldl_getD _ _ _

/-- Retiring the thunk at the `a` cursor preserves the registration
invariant. -/
theorem retire_RegInv (cx : Ctx) (st : St) (h : RegInv cx st)
    (hidx : st.a < st.thunks.length) :
    RegInv cx { retireAt st st.a with a := st.a + 1 } := by
  obtain ⟨hlen, hab, hpt⟩ := h
  simp only [RegInv, retireAt]
  refine ⟨(resetThunk_length _ _).trans hlen, hidx, ?_⟩
  intro sid hsid
  rw [resetThunk_length] at hsid
  rw [resetThunk_getD]
  by_cases hmem : sid ∈ (st.thunks.getD st.a dThunk).symbols
  · rw [if_pos hmem]
    simp
  · rw [if_neg hmem]
    obtain ⟨hv, hiff, hr3, hreg⟩ := hpt sid hsid
    refine ⟨hv, hiff, hr3, ?_⟩
    intro hne
    obtain ⟨k, hk1, hk2, hk3, hk4, j, hj1, hj2⟩ := hreg hne
    have hka : k ≠ st.a := by
      intro hkeq
      subst hkeq
      exact hmem hk4
    exact ⟨k, hk1, by omega, hk3, hk4, j, hj1, hj2⟩

theorem aPhase_RegInv (cx : Ctx) : ∀ (f : Nat) (cOff : Int) (st : St),
    RegInv cx st → RegInv cx (aPhase cx f cOff st) := by
  intro f
  induction f with
  | zero => intro cOff st h; exact h
  | succ f ih =>
    intro cOff st h
    rw [aPhase]
    split
    · rename_i hc
      exact ih cOff _ (retire_RegInv cx st h hc.1)
    · exact h

theorem finishLoop_RegInv (cx : Ctx) : ∀ (f : Nat) (st : St),
    RegInv cx st → RegInv cx (finishLoop f st) := by
  intro f
  induction f with
  | zero => intro st h; exact h
  | succ f ih =>
    intro st h
    rw [finishLoop]
    split
    · rename_i hc
      exact ih _ (retire_RegInv cx st h hc)
    · exact h

theorem finishLoop_frame : ∀ (f : Nat) (st : St),
    (finishLoop f st).thunks = st.thunks ∧
    (finishLoop f st).extns = st.extns ∧
    (finishLoop f st).offsets = st.offsets ∧
    (finishLoop f st).offset = st.offset ∧
    (finishLoop f st).assert_ok = st.assert_ok ∧
    (finishLoop f st).b = st.b ∧ (finishLoop f st).c = st.c ∧
    (finishLoop f st).d = st.d := by
  intro f
  induction f with
  | zero => intro st; simp [finishLoop]
  | succ f ih =>
    intro st
    rw [finishLoop]
    split
    · exact ih _
    · simp

theorem finishLoop_a_ge : ∀ (f : Nat) (st : St),
    st.thunks.length ≤ st.a + f → (finishLoop f st).thunks.length ≤ (finishLoop f st).a := by
  intro f
  induction f with
  | zero =>
    intro st h
    rw [finishLoop]
    omega
  | succ f ih =>
    intro st h
    rw [finishLoop]
    split
    · rename_i hc
      apply ih
      show (retireAt st st.a).thunks.length ≤ st.a + 1 + f
      have ht : (retireAt st st.a).thunks = st.thunks := rfl
      rw [ht]
      omega
    · rename_i hc
      omega

/-! ## The second (fix-up) scan -/

theorem fixupSec_getD (cx : Ctx) (tIdx : Nat) (symst : List SymExtra)
    (st : St) (mi mi' : Nat) :
    (fixupSec cx tIdx symst st mi).extns.getD mi' [] =
      if mi = mi' ∧ mi < st.extns.length then
        List.zipWith
          (fun (r : ElfRel) (e : RangeExtensionRef) =>
            if e.thunk_idx = (tIdx : Int) then
              { e with sym_idx :=
                  (symst.getD ((secFileSyms cx mi).getD r.r_sym 0) d0Sym).thunk_sym_idx }
            else e)
          (secRels cx mi) (st.extns.getD mi [])
      else st.extns.getD mi' [] := by
  simp only [fixupSec]
  exact getD_set _ _ _ _ _

theorem fixupSec_extns_length (cx : Ctx) (tIdx : Nat) (symst : List SymExtra)
    (st : St) (mi : Nat) :
    (fixupSec cx tIdx symst st mi).extns.length = st.extns.length := by
  simp only [fixupSec]
  exact List.length_set _ _ _

theorem RegInv_congr (cx : Ctx) {st st' : St} (h : RegInv cx st)
    (h1 : st'.symst = st.symst) (h2 : st'.a = st.a)
    (h3 : st'.thunks = st.thunks) : RegInv cx st' := by
  unfold RegInv at h ⊢
  rw [h1, h2, h3]
  exact h

theorem ExtInv_congr {st st' : St} (h : ExtInv st)
    (h1 : st'.extns = st.extns) (h2 : st'.thunks.length = st.thunks.length) :
    ExtInv st' := by
  unfold ExtInv at h ⊢
  rw [h1, h2]
  exact h

theorem RegInv_ScanQ_nil (cx : Ctx) (st : St) (h : RegInv cx st) :
    ScanQ st.symst [] := by
  obtain ⟨_, _, hpt⟩ := h
  refine ⟨List.nodup_nil, by simp, ?_⟩
  intro sid hsid
  obtain ⟨hv, hiff, hr3, _⟩ := hpt sid hsid
  refine ⟨hv, ?_, hr3⟩
  rw [hiff]
  constructor
  · exact fun h => Or.inl h
  · rintro (h | h)
    · exact h
    · exact absurd h (List.not_mem_nil _)

/-- After the fix-up fold over a nodup batch, every routing entry names a
thunk no newer than `tIdx` and carries a filled-in slot index. -/
theorem fixupFold_ok (cx : Ctx) (tIdx : Nat) (symst5 symA : List SymExtra)
    (coll : List Nat)
    (hsym : ∀ sid ∈ coll, ∃ j : Nat,
      (symst5.getD sid d0Sym).thunk_sym_idx = (j : Int))
    (hreg : ∀ sid : Nat, (symA.getD sid d0Sym).thunk_idx ≠ -1 →
      0 ≤ (symA.getD sid d0Sym).thunk_idx ∧
      (symA.getD sid d0Sym).thunk_idx < (tIdx : Int) ∧
      (symA.getD sid d0Sym).thunk_sym_idx ≠ -1) :
    ∀ (batch : List Nat), batch.Nodup → ∀ (st : St),
    (∀ mi : Nat,
      ((∀ e ∈ st.extns.getD mi [], e.thunk_idx ≠ -1 →
          0 ≤ e.thunk_idx ∧ e.thunk_idx ≤ (tIdx : Int) ∧ e.sym_idx ≠ -1) ∧
        (mi ∈ batch → ∀ e ∈ st.extns.getD mi [], e.thunk_idx ≠ (tIdx : Int))) ∨
      (mi ∈ batch ∧ mi < st.extns.length ∧
        ExtChar cx tIdx (secFileSyms cx mi) symA coll (secRels cx mi)
          (st.extns.getD mi []))) →
    ∀ mi : Nat, ∀ e ∈ (batch.foldl (fixupSec cx tIdx symst5) st).extns.getD mi [],
      e.thunk_idx ≠ -1 →
      0 ≤ e.thunk_idx ∧ e.thunk_idx ≤ (tIdx : Int) ∧ e.sym_idx ≠ -1 := by
  intro batch
  induction batch with
  | nil =>
    intro _ st hinv mi e he
    rcases hinv mi with ⟨h1, _⟩ | ⟨h1, _⟩
    · exact h1 e he
    · exact absurd h1 (List.not_mem_nil _)
  | cons mi0 rest ih =>
    intro hnd st hinv
    rw [List.nodup_cons] at hnd
    simp only [List.foldl_cons]
    apply ih hnd.2
    intro mi
    by_cases hme : mi0 = mi
    · subst hme
      rcases hinv mi0 with ⟨h1, h2⟩ | ⟨_, hlt, hchar⟩
      · -- the section was already in its final shape and, being in the
        -- batch, contains no entry pointing at the fresh thunk: the
        -- fix-up map leaves every entry as it was.
        left
        constructor
        · intro e he
          rw [fixupSec_getD] at he
          split at he
          · rw [List.mem_iff_getElem] at he
            obtain ⟨i, hi, hei⟩ := he
            rw [List.getElem_zipWith] at hei
            have hilen : i < (st.extns.getD mi0 []).length := by
              rw [List.length_zipWith] at hi
              omega
            have hmem : (st.extns.getD mi0 [])[i] ∈ st.extns.getD mi0 [] :=
              List.getElem_mem hilen
            have hne := h2 (List.mem_cons_self _ _) _ hmem
            rw [if_neg hne] at hei
            rw [← hei]
            exact h1 _ hmem
          · exact h1 e he
        · intro hmem e he
          rw [fixupSec_getD] at he
          split at he
          · rw [List.mem_iff_getElem] at he
            obtain ⟨i, hi, hei⟩ := he
            rw [List.getElem_zipWith] at hei
            have hilen : i < (st.extns.getD mi0 []).length := by
              rw [List.length_zipWith] at hi
              omega
            have hmem2 : (st.extns.getD mi0 [])[i] ∈ st.extns.getD mi0 [] :=
              List.getElem_mem hilen
            have hne := h2 (List.mem_cons_self _ _) _ hmem2
            rw [if_neg hne] at hei
            rw [← hei]
            exact hne
          · exact absurd hmem hnd.1
      · -- the section holds a freshly scanned vector: the fix-up pass
        -- resolves every entry routed to the fresh thunk.
        left
        obtain ⟨hclen, hc⟩ := hchar
        constructor
        · intro e he hne0
          rw [fixupSec_getD, if_pos ⟨rfl, hlt⟩] at he
          rw [List.mem_iff_getElem] at he
          obtain ⟨i, hi, hei⟩ := he
          rw [List.getElem_zipWith] at hei
          have hir : i < (secRels cx mi0).length := by
            rw [List.length_zipWith] at hi
            omega
          have hie : i < (st.extns.getD mi0 []).length := by
            rw [List.length_zipWith] at hi
            omega
          rw [← getD_eq_getElem _ _ dRel hir,
            ← getD_eq_getElem _ _ RangeExtensionRef.unset hie] at hei
          rcases hc i hir with hu | ⟨hrne, hrv⟩ | ⟨hfv, hfm, _⟩
          · rw [hu] at hei
            rw [if_neg (by simp [RangeExtensionRef.unset])] at hei
            rw [← hei] at hne0
            exact absurd rfl hne0
          · rw [hrv] at hei
            have hb := hreg _ hrne
            rw [if_neg (by simp only; omega)] at hei
            rw [← hei]
            exact ⟨hb.1, le_of_lt hb.2.1, hb.2.2⟩
          · rw [hfv] at hei
            rw [if_pos rfl] at hei
            obtain ⟨j, hj⟩ := hsym _ hfm
            have he1 : e.thunk_idx = (tIdx : Int) := by rw [← hei]
            have he2 : e.sym_idx = (symst5.getD ((secFileSyms cx mi0).getD
                ((secRels cx mi0).getD i dRel).r_sym 0) d0Sym).thunk_sym_idx := by
              rw [← hei]
            refine ⟨by omega, by omega, ?_⟩
            rw [he2, hj]
            omega
        · intro hmem
          exact absurd hmem hnd.1
    · rcases hinv mi with ⟨h1, h2⟩ | ⟨hb, hlt, hchar⟩
      · left
        have hu : (fixupSec cx tIdx symst5 st mi0).extns.getD mi [] =
            st.extns.getD mi [] := by
          rw [fixupSec_getD]
          rw [if_neg]
          intro hcase
          exact hme hcase.1
        rw [hu]
        refine ⟨h1, fun hm => h2 (List.mem_cons_of_mem _ hm)⟩
      · right
        have hu : (fixupSec cx tIdx symst5 st mi0).extns.getD mi [] =
            st.extns.getD mi [] := by
          rw [fixupSec_getD]
          rw [if_neg]
          intro hcase
          exact hme hcase.1
        rcases List.mem_cons.mp hb with h | h
        · exact absurd h.symm hme
        · exact ⟨h, by rw [fixupSec_extns_length]; exact hlt, by rw [hu]; exact hchar⟩

/-- One sweep iteration preserves the registration and routing-entry
invariants. -/
theorem sweepStep_inv (cx : Ctx) (st : St) (hreg : RegInv cx st)
    (hext : ExtInv st) :
    RegInv cx (sweepStep cx idArr st) ∧ ExtInv (sweepStep cx idArr st) := by
  -- invariants survive the D, C and A phases
  have hfD := dPhase_frame cx (cx.members.length - st.d) st
  have hregD : RegInv cx (stepD cx st) :=
    RegInv_congr cx hreg hfD.2.1 hfD.2.2.2.2.1 hfD.2.2.2.1
  have hextD : ExtInv (stepD cx st) :=
    ExtInv_congr hext hfD.2.2.1 (congrArg List.length hfD.2.2.2.1)
  have hfC := cPhase_frame cx cx.members.length { stepD cx st with c := st.b + 1 }
  have hregC : RegInv cx (stepC cx st) :=
    RegInv_congr cx hregD hfC.2.1 hfC.2.2.2.2.1 hfC.2.2.2.1
  have hextC : ExtInv (stepC cx st) :=
    ExtInv_congr hextD hfC.2.2.1 (congrArg List.length hfC.2.2.2.1)
  have hregA : RegInv cx (stepA cx st) :=
    aPhase_RegInv cx _ _ _ hregC
  have hfA := aPhase_frame cx ((stepC cx st).thunks.length - (stepC cx st).a)
    (stepCOff cx st) (stepC cx st)
  have hextA : ExtInv (stepA cx st) :=
    ExtInv_congr hextC hfA.2.2.2.1 (congrArg List.length hfA.2.2.2.2.1)
  -- the batch scan
  have hQ0 : ScanQ (stepA cx st).symst [] := RegInv_ScanQ_nil cx _ hregA
  have H := scanBatch_spec cx ((stepA cx st).thunks.length) (stepBatch cx st)
    ((stepA cx st), []) hregA.1 hQ0
  have hss : scanBatch cx ((stepA cx st).thunks.length) (stepBatch cx st)
      ((stepA cx st), []) = stepScan cx st := rfl
  rw [hss] at H
  -- facts about the sorted symbol list
  have hperm : (sortSyms cx (stepScan cx st).2).Perm (stepScan cx st).2 :=
    List.perm_insertionSort _ _
  have hsortnd : (sortSyms cx (stepScan cx st).2).Nodup :=
    hperm.nodup_iff.mpr H.2.2.1.1
  have hclean := H.2.2.1.2.1
  -- the final state's fields
  have hFsymst : (sweepStep cx idArr st).symst =
      assignSlots ((stepA cx st).thunks.length)
        (sortSyms cx (stepScan cx st).2) 0 (stepScan cx st).1.symst := by
    simp only [sweepStep, idArr]
    have h1 : (fixupBatch cx ((stepA cx st).thunks.length) (stepBatch cx st)
        { (stepScan cx st).1 with
          symst := assignSlots ((stepA cx st).thunks.length)
            (sortSyms cx (stepScan cx st).2) 0 (stepScan cx st).1.symst }).symst =
        assignSlots ((stepA cx st).thunks.length)
          (sortSyms cx (stepScan cx st).2) 0 (stepScan cx st).1.symst :=
      (fixupBatch_frame cx _ _ _).2.2.2.2.2.1
    exact h1
  have hFa : (sweepStep cx idArr st).a = (stepA cx st).a := by
    simp only [sweepStep, idArr]
    have h1 : (fixupBatch cx ((stepA cx st).thunks.length) (stepBatch cx st)
        { (stepScan cx st).1 with
          symst := assignSlots ((stepA cx st).thunks.length)
            (sortSyms cx (stepScan cx st).2) 0 (stepScan cx st).1.symst }).a =
        (stepScan cx st).1.a := (fixupBatch_frame cx _ _ _).2.2.2.1
    have h2 : (stepScan cx st).1.a = (stepA cx st).a :=
      (scanBatch_frame cx ((stepA cx st).thunks.length) (stepBatch cx st)
        ((stepA cx st), [])).2.2.2.1
    exact h1.trans h2
  have hFthunks : (sweepStep cx idArr st).thunks =
      (stepA cx st).thunks ++
        [⟨(stepA cx st).thunks.length, alignTo (stepA cx st).offset cx.thunk_align,
          sortSyms cx (stepScan cx st).2⟩] := by
    simp only [sweepStep, idArr]
    have h1 : (fixupBatch cx ((stepA cx st).thunks.length) (stepBatch cx st)
        { (stepScan cx st).1 with
          symst := assignSlots ((stepA cx st).thunks.length)
            (sortSyms cx (stepScan cx st).2) 0 (stepScan cx st).1.symst }).thunks =
        (stepScan cx st).1.thunks := (fixupBatch_frame cx _ _ _).2.2.2.2.1
    have h2 : (stepScan cx st).1.thunks = (stepA cx st).thunks :=
      (scanBatch_frame cx ((stepA cx st).thunks.length) (stepBatch cx st)
        ((stepA cx st), [])).2.2.2.2.1
    rw [h1, h2]
  have hFlen : (sweepStep cx idArr st).symst.length = (stepA cx st).symst.length := by
    rw [hFsymst, assignSlots_length]
    exact H.1
  -- the registration invariant for the final state
  have hRegF : RegInv cx (sweepStep cx idArr st) := by
    refine ⟨hFlen.trans hregA.1, ?_, ?_⟩
    · rw [hFa, hFthunks]
      simp only [List.length_append, List.length_singleton]
      have := hregA.2.1
      omega
    · intro sid hsid
      rw [hFlen] at hsid
      rw [hFsymst]
      by_cases hmem : sid ∈ sortSyms cx (stepScan cx st).2
      · -- freshly enlisted symbol: registered into the new thunk
        have hmem2 : sid ∈ (stepScan cx st).2 := hperm.mem_iff.mp hmem
        have hsidlt : sid < (stepScan cx st).1.symst.length := (hclean sid hmem2).1
        obtain ⟨j, hj0, hjlen, hjval⟩ := assignSlots_getD_mem
          ((stepA cx st).thunks.length) (sortSyms cx (stepScan cx st).2) 0
          (stepScan cx st).1.symst sid hsortnd hmem hsidlt
        rw [hjval, (hclean sid hmem2).2]
        have hrec : ({ ((⟨-1, -1, -1⟩ : SymExtra)) with
            thunk_idx := ((stepA cx st).thunks.length : Int),
            thunk_sym_idx := (j : Int) } : SymExtra) =
            ⟨-1, ((stepA cx st).thunks.length : Int), (j : Int)⟩ := rfl
        rw [hrec]
        refine ⟨Or.inr rfl, ?_, ?_, ?_⟩
        · show (-1 : Int) = -1 ↔ ((stepA cx st).thunks.length : Int) ≠ -1
          constructor
          · intro _
            omega
          · intro _
            rfl
        · show ((stepA cx st).thunks.length : Int) = -1 → (j : Int) = -1
          intro hcon
          omega
        · intro _
          refine ⟨(stepA cx st).thunks.length, rfl, ?_, ?_, ?_, j, rfl, ?_⟩
          · rw [hFa]
            exact hregA.2.1
          · rw [hFthunks]
            simp
          · rw [hFthunks, getD_append_last]
            exact hmem
          · rw [hFthunks, getD_append_last]
            show j < (sortSyms cx (stepScan cx st).2).length
            omega
      · -- symbol untouched by the fresh thunk
        rw [assignSlots_getD_notMem _ _ _ _ _ hmem]
        have hmem2 : sid ∉ (stepScan cx st).2 := fun h => hmem (hperm.mem_iff.mpr h)
        have hsid2 : sid < (stepScan cx st).1.symst.length := by
          rw [H.1]
          exact hsid
        obtain ⟨hv, hiff, hr3⟩ := H.2.2.1.2.2 sid hsid2
        refine ⟨hv, ?_, hr3, ?_⟩
        · rw [hiff]
          constructor
          · rintro (h | h)
            · exact h
            · exact absurd h hmem2
          · exact fun h => Or.inl h
        · intro hne
          have hre := H.2.2.2.1 sid
          rw [hre.1] at hne
          have hsidA : sid < (stepA cx st).symst.length := by
            rw [← H.1]
            exact hsid2
          obtain ⟨k, hk1, hk2, hk3, hk4, j, hj1, hj2⟩ :=
            ((hregA.2.2 sid hsidA).2.2.2) hne
          refine ⟨k, by rw [hre.1]; exact hk1, ?_, ?_, ?_, j, by rw [hre.2]; exact hj1, ?_⟩
          · rw [hFa]
            exact hk2
          · rw [hFthunks]
            simp only [List.length_append, List.length_singleton]
            omega
          · rw [hFthunks, getD_append_left _ _ _ _ hk3]
            exact hk4
          · rw [hFthunks, getD_append_left _ _ _ _ hk3]
            exact hj2
  refine ⟨hRegF, ?_⟩
  -- the routing-entry invariant for the final state
  have hFextns : (sweepStep cx idArr st).extns =
      ((stepBatch cx st).foldl
        (fixupSec cx ((stepA cx st).thunks.length)
          (assignSlots ((stepA cx st).thunks.length)
            (sortSyms cx (stepScan cx st).2) 0 (stepScan cx st).1.symst))
        { (stepScan cx st).1 with
          symst := assignSlots ((stepA cx st).thunks.length)
            (sortSyms cx (stepScan cx st).2) 0 (stepScan cx st).1.symst }).extns := by
    simp only [sweepStep, idArr, fixupBatch]
  have hpre : ∀ mi : Nat,
      ((∀ e ∈ ({ (stepScan cx st).1 with
          symst := assignSlots ((stepA cx st).thunks.length)
            (sortSyms cx (stepScan cx st).2) 0 (stepScan cx st).1.symst } : St).extns.getD mi [],
          e.thunk_idx ≠ -1 →
          0 ≤ e.thunk_idx ∧ e.thunk_idx ≤ ((stepA cx st).thunks.length : Int) ∧
            e.sym_idx ≠ -1) ∧
        (mi ∈ stepBatch cx st →
          ∀ e ∈ ({ (stepScan cx st).1 with
            symst := assignSlots ((stepA cx st).thunks.length)
              (sortSyms cx (stepScan cx st).2) 0 (stepScan cx st).1.symst } : St).extns.getD mi [],
            e.thunk_idx ≠ ((stepA cx st).thunks.length : Int))) ∨
      (mi ∈ stepBatch cx st ∧
        mi < ({ (stepScan cx st).1 with
          symst := assignSlots ((stepA cx st).thunks.length)
            (sortSyms cx (stepScan cx st).2) 0 (stepScan cx st).1.symst } : St).extns.length ∧
        ExtChar cx ((stepA cx st).thunks.length) (secFileSyms cx mi)
          (stepA cx st).symst (stepScan cx st).2 (secRels cx mi)
          (({ (stepScan cx st).1 with
            symst := assignSlots ((stepA cx st).thunks.length)
              (sortSyms cx (stepScan cx st).2) 0 (stepScan cx st).1.symst } : St).extns.getD mi [])) := by
    intro mi
    have hA0 : (stepScan cx st).1.extns.length = (stepA cx st).extns.length :=
      H.2.2.2.2.1
    rcases H.2.2.2.2.2 mi with ⟨hu, _⟩ | ⟨hb, hlt, hchar⟩
    · left
      constructor
      · intro e he hne
        show _ ∧ e.thunk_idx ≤ ((stepA cx st).thunks.length : Int) ∧ _
        have he2 : e ∈ (stepA cx st).extns.getD mi [] := by
          rw [← hu]
          exact he
        have h3 := hextA mi e he2 hne
        exact ⟨h3.1, le_of_lt h3.2.1, h3.2.2⟩
      · intro _ e he
        have he2 : e ∈ (stepA cx st).extns.getD mi [] := by
          rw [← hu]
          exact he
        by_cases hne : e.thunk_idx = -1
        · rw [hne]
          omega
        · have h3 := hextA mi e he2 hne
          omega
    · right
      refine ⟨hb, ?_, hchar⟩
      show mi < (stepScan cx st).1.extns.length
      rw [hA0]
      exact hlt
  have hsym : ∀ sid ∈ (stepScan cx st).2, ∃ j : Nat,
      ((assignSlots ((stepA cx st).thunks.length)
        (sortSyms cx (stepScan cx st).2) 0 (stepScan cx st).1.symst).getD sid
          d0Sym).thunk_sym_idx = (j : Int) := by
    intro sid hm
    obtain ⟨j, _, _, hjval⟩ := assignSlots_getD_mem
      ((stepA cx st).thunks.length) (sortSyms cx (stepScan cx st).2) 0
      (stepScan cx st).1.symst sid hsortnd (hperm.mem_iff.mpr hm) (hclean sid hm).1
    exact ⟨j, by rw [hjval]⟩
  have hregsA : ∀ sid : Nat,
      (((stepA cx st).symst.getD sid d0Sym)).thunk_idx ≠ -1 →
      0 ≤ ((stepA cx st).symst.getD sid d0Sym).thunk_idx ∧
      ((stepA cx st).symst.getD sid d0Sym).thunk_idx <
        ((stepA cx st).thunks.length : Int) ∧
      ((stepA cx st).symst.getD sid d0Sym).thunk_sym_idx ≠ -1 := by
    intro sid hne
    by_cases hlt : sid < (stepA cx st).symst.length
    · obtain ⟨k, hk1, _, hk3, _, j, hj1, _⟩ := (hregA.2.2 sid hlt).2.2.2 hne
      refine ⟨by omega, by omega, by omega⟩
    · have : (stepA cx st).symst.getD sid d0Sym = d0Sym :=
        List.getD_eq_default _ _ (by omega)
      rw [this] at hne
      exact absurd rfl hne
  have hfix := fixupFold_ok cx ((stepA cx st).thunks.length)
    (assignSlots ((stepA cx st).thunks.length)
      (sortSyms cx (stepScan cx st).2) 0 (stepScan cx st).1.symst)
    (stepA cx st).symst (stepScan cx st).2 hsym hregsA
    (stepBatch cx st) (List.nodup_range' _ _) _ hpre
  intro mi e he hne
  rw [hFextns] at he
  have h3 := hfix mi e he hne
  rw [hFthunks]
  simp only [List.length_append, List.length_singleton]
  refine ⟨h3.1, ?_, h3.2.2⟩
  have := h3.2.1
  push_cast
  omega

/-- The invariants hold at the end of the fueled loop, and the final
cleanup has pushed the retirement cursor past every thunk. -/
theorem sweepLoop_inv (cx : Ctx) : ∀ (fuel : Nat) (st st' : St),
    RegInv cx st → ExtInv st → sweepLoop cx idArr fuel st = some st' →
    RegInv cx st' ∧ ExtInv st' ∧ st'.thunks.length ≤ st'.a := by
  intro fuel
  induction fuel with
  | zero =>
    intro st st' _ _ h
    simp [sweepLoop] at h
  | succ f ih =>
    intro st st' hreg hext h
    rw [sweepLoop] at h
    split at h
    · obtain ⟨hreg2, hext2⟩ := sweepStep_inv cx st hreg hext
      exact ih _ _ hreg2 hext2 h
    · rw [Option.some.injEq] at h
      subst h
      have hfr := finishLoop_frame (st.thunks.length - st.a) st
      have hreg2 := finishLoop_RegInv cx (st.thunks.length - st.a) st hreg
      refine ⟨?_, ?_, ?_⟩
      · exact RegInv_congr cx hreg2 rfl rfl rfl
      · refine @ExtInv_congr (finishLoop (st.thunks.length - st.a) st)
          (sweepFinish st) ?_ rfl rfl
        exact ExtInv_congr hext hfr.2.1 (congrArg List.length hfr.1)
      · have := finishLoop_a_ge (st.thunks.length - st.a) st (by omega)
        exact this

/-- The invariants hold at the end of every successful run. -/
theorem runSweep_inv (cx : Ctx) (st0 st' : St) (hwf : WfInit cx st0)
    (hrun : runSweep cx st0 = some st') (hne : cx.members.length ≠ 0) :
    RegInv cx st' ∧ ExtInv st' ∧ st'.thunks.length ≤ st'.a := by
  obtain ⟨hthunks, hexlen, hsymlen, hsyms, hexts, hok⟩ := hwf
  unfold runSweep createRangeExtensionThunks at hrun
  rw [if_neg hne] at hrun
  refine sweepLoop_inv cx _ _ _ ?_ ?_ hrun
  · refine ⟨hsymlen, by rw [hthunks]; exact Nat.zero_le _, ?_⟩
    intro sid hsid
    have hmem : st0.symst.getD sid d0Sym ∈ st0.symst := by
      rw [getD_eq_getElem _ _ _ hsid]
      exact List.getElem_mem hsid
    rw [hsyms _ hmem]
    refine ⟨Or.inl rfl, by simp, fun _ => rfl, fun hcon => absurd rfl hcon⟩
  · intro mi e he _
    by_cases hlt : mi < st0.extns.length
    · have hmem : st0.extns.getD mi [] ∈ st0.extns := by
        rw [getD_eq_getElem _ _ _ hlt]
        exact List.getElem_mem hlt
      rw [hexts _ hmem] at he
      cases he
    · rw [List.getD_eq_default _ _ (Nat.le_of_not_lt hlt)] at he
      cases he

/-- **C4.** After `create_range_extension_thunks` returns, every
`range_extn` entry whose `thunk_idx` is set also has `sym_idx ≠ -1`: the
second scan pass over each batch fills in the slot index for every
relocation routed to the freshly created thunk, and relocations routed to
a previously existing thunk receive the already-assigned slot index at
scan time. -/
theorem routed_entries_filled (cx : Ctx) (st0 st' : St) (hwf : WfInit cx st0)
    (hrun : runSweep cx st0 = some st') :
    ∀ mi : Nat, ∀ e ∈ st'.extns.getD mi [], e.thunk_idx ≠ -1 →
      e.sym_idx ≠ -1 := by
  by_cases hne : cx.members.length = 0
  · unfold runSweep createRangeExtensionThunks at hrun
    rw [if_pos hne, Option.some.injEq] at hrun
    subst hrun
    intro mi e he _
    by_cases hlt : mi < st0.extns.length
    · have hmem : st0.extns.getD mi [] ∈ st0.extns := by
        rw [getD_eq_getElem _ _ _ hlt]
        exact List.getElem_mem hlt
      rw [hwf.2.2.2.2.1 _ hmem] at he
      cases he
    · rw [List.getD_eq_default _ _ (Nat.le_of_not_lt hlt)] at he
      cases he
  · obtain ⟨_, hext, _⟩ := runSweep_inv cx st0 st' hwf hrun hne
    intro mi e he hne2
    exact (hext mi e he hne2).2.2

/-- Witness for C4 at a concrete input. -/
theorem routed_entries_filled_witness :
    WfInit cxTwo (cleanSt 2 2) ∧
    runSweep cxTwo (cleanSt 2 2) = some stTwoFinal ∧
    (∀ mi : Nat, ∀ e ∈ stTwoFinal.extns.getD mi [], e.thunk_idx ≠ -1 →
      e.sym_idx ≠ -1) :=
  ⟨by unfold WfInit; decide, by decide,
    routed_entries_filled cxTwo (cleanSt 2 2) stTwoFinal
      (by unfold WfInit; decide) (by decide)⟩

/-- **C5** (amended).  Upon termination of `create_range_extension_thunks`
every thunk has been reset: the final cleanup loop walks all remaining
thunks, so every symbol's `thunk_idx`/`thunk_sym_idx` registration is
cleared to `-1` and its scratch flag to `0` — in particular this holds
for the symbols of every thunk that some relocation selected.  (The thunk
records themselves and the recorded `range_extn` entries survive.) -/
theorem registrations_cleared_at_end (cx : Ctx) (st0 st' : St)
    (hwf : WfInit cx st0) (hrun : runSweep cx st0 = some st') :
    (∀ sid : Nat, sid < st'.symst.length →
      st'.symst.getD sid d0Sym = (⟨0, -1, -1⟩ : SymExtra)) ∧
    (∀ t ∈ st'.thunks, ∀ sid ∈ t.symbols, sid < st'.symst.length →
      (st'.symst.getD sid d0Sym).thunk_idx = -1 ∧
      (st'.symst.getD sid d0Sym).thunk_sym_idx = -1 ∧
      (st'.symst.getD sid d0Sym).flags = 0) := by
  have hmain : ∀ sid : Nat, sid < st'.symst.length →
      st'.symst.getD sid d0Sym = (⟨0, -1, -1⟩ : SymExtra) := by
    by_cases hne : cx.members.length = 0
    · unfold runSweep createRangeExtensionThunks at hrun
      rw [if_pos hne, Option.some.injEq] at hrun
      subst hrun
      intro sid hsid
      have hmem : st0.symst.getD sid d0Sym ∈ st0.symst := by
        rw [getD_eq_getElem _ _ _ hsid]
        exact List.getElem_mem hsid
      exact hwf.2.2.2.1 _ hmem
    · obtain ⟨hreg, _, hfin⟩ := runSweep_inv cx st0 st' hwf hrun hne
      intro sid hsid
      obtain ⟨hv, hiff, hr3, hregc⟩ := hreg.2.2 sid hsid
      have hidx : (st'.symst.getD sid d0Sym).thunk_idx = -1 := by
        by_contra hcon
        obtain ⟨k, _, hk2, hk3, _⟩ := hregc hcon
        omega
      have hsym := hr3 hidx
      have hfl : (st'.symst.getD sid d0Sym).flags = 0 := by
        rcases hv with h | h
        · exact h
        · rw [hiff] at h
          exact absurd hidx h
      calc st'.symst.getD sid d0Sym
          = ⟨(st'.symst.getD sid d0Sym).flags,
             (st'.symst.getD sid d0Sym).thunk_idx,
             (st'.symst.getD sid d0Sym).thunk_sym_idx⟩ := rfl
        _ = ⟨0, -1, -1⟩ := by rw [hfl, hidx, hsym]
  refine ⟨hmain, ?_⟩
  intro t _ sid _ hsid
  rw [hmain sid hsid]
  exact ⟨rfl, rfl, rfl⟩

/-- Witness for the amended C5 at a concrete input. -/
theorem registrations_cleared_at_end_witness :
    WfInit cxTwo (cleanSt 2 2) ∧
    runSweep cxTwo (cleanSt 2 2) = some stTwoFinal ∧
    ((∀ sid : Nat, sid < stTwoFinal.symst.length →
      stTwoFinal.symst.getD sid d0Sym = (⟨0, -1, -1⟩ : SymExtra)) ∧
    (∀ t ∈ stTwoFinal.thunks, ∀ sid ∈ t.symbols, sid < stTwoFinal.symst.length →
      (stTwoFinal.symst.getD sid d0Sym).thunk_idx = -1 ∧
      (stTwoFinal.symst.getD sid d0Sym).thunk_sym_idx = -1 ∧
      (stTwoFinal.symst.getD sid d0Sym).flags = 0)) :=
  ⟨by unfold WfInit; decide, by decide,
    registrations_cleared_at_end cxTwo (cleanSt 2 2) stTwoFinal
      (by unfold WfInit; decide) (by decide)⟩

/-! ## The size assertion (C9) -/

/-- The thunk record and the assertion flag written by one iteration. -/
theorem sweepStep_thunks_assert (cx : Ctx) (arr : Nat → List Nat → List Nat)
    (st : St) :
    (sweepStep cx arr st).thunks = st.thunks ++
      [⟨(stepA cx st).thunks.length, alignTo (stepA cx st).offset cx.thunk_align,
        sortSyms cx (arr (stepA cx st).thunks.length (stepScan cx st).2)⟩] ∧
    (sweepStep cx arr st).assert_ok = (st.assert_ok &&
      decide (((arr (stepA cx st).thunks.length (stepScan cx st).2).length : Int) *
        cx.stub_size < maxThunkSize)) := by
  have hTA : (stepA cx st).thunks = st.thunks := by
    have d1 := (dPhase_frame cx (cx.members.length - st.d) st).2.2.2.1
    have c1 := (cPhase_frame cx cx.members.length
      { stepD cx st with c := st.b + 1 }).2.2.2.1
    have a1 := (aPhase_frame cx ((stepC cx st).thunks.length - (stepC cx st).a)
      (stepCOff cx st) (stepC cx st)).2.2.2.2.1
    calc (stepA cx st).thunks = (stepC cx st).thunks := a1
      _ = (stepD cx st).thunks := c1
      _ = st.thunks := d1
  have hOA : (stepA cx st).assert_ok = st.assert_ok := by
    have d1 := (dPhase_frame cx (cx.members.length - st.d) st).2.2.2.2.2.2.2
    have c1 := (cPhase_frame cx cx.members.length
      { stepD cx st with c := st.b + 1 }).2.2.2.2.2.2.2.2.2
    have a1 := (aPhase_frame cx ((stepC cx st).thunks.length - (stepC cx st).a)
      (stepCOff cx st) (stepC cx st)).2.2.2.2.2.2.2.2
    calc (stepA cx st).assert_ok = (stepC cx st).assert_ok := a1
      _ = (stepD cx st).assert_ok := c1
      _ = st.assert_ok := d1
  have hsc := scanBatch_frame cx ((stepA cx st).thunks.length) (stepBatch cx st)
    ((stepA cx st), [])
  constructor
  · simp only [sweepStep]
    have hf1 : (fixupBatch cx ((stepA cx st).thunks.length) (stepBatch cx st)
        { (stepScan cx st).1 with
          symst := assignSlots ((stepA cx st).thunks.length)
            (sortSyms cx (arr ((stepA cx st).thunks.length) (stepScan cx st).2)) 0
            (stepScan cx st).1.symst }).thunks = (stepScan cx st).1.thunks :=
      (fixupBatch_frame cx _ _ _).2.2.2.2.1
    have hf2 : (stepScan cx st).1.thunks = (stepA cx st).thunks := hsc.2.2.2.2.1
    rw [hf1, hf2, hTA]
  · simp only [sweepStep]
    have hf1 : (fixupBatch cx ((stepA cx st).thunks.length) (stepBatch cx st)
        { (stepScan cx st).1 with
          symst := assignSlots ((stepA cx st).thunks.length)
            (sortSyms cx (arr ((stepA cx st).thunks.length) (stepScan cx st).2)) 0
            (stepScan cx st).1.symst }).assert_ok = (stepScan cx st).1.assert_ok :=
      (fixupBatch_frame cx _ _ _).2.2.2.2.2.2.2.2.2
    have hf2 : (stepScan cx st).1.assert_ok = (stepA cx st).assert_ok :=
      hsc.2.2.2.2.2.2.2.2
    rw [hf1, hf2, hOA]

/-- One sweep iteration preserves the assertion characterization. -/
theorem sweepStep_assert_inv (cx : Ctx) (st : St) (h : AssertInv cx st) :
    AssertInv cx (sweepStep cx idArr st) := by
  obtain ⟨hT, hA⟩ := sweepStep_thunks_assert cx idArr st
  unfold AssertInv at h ⊢
  rw [hT, hA]
  have hlen : (sortSyms cx (idArr ((stepA cx st).thunks.length)
      (stepScan cx st).2)).length =
      (idArr ((stepA cx st).thunks.length) (stepScan cx st).2).length :=
    (List.perm_insertionSort _ _).length_eq
  constructor
  · intro hand t hmem
    rw [Bool.and_eq_true] at hand
    rcases List.mem_append.mp hmem with hm | hm
    · exact h.mp hand.1 t hm
    · rw [List.mem_singleton] at hm
      subst hm
      have h2 := of_decide_eq_true hand.2
      show ((sortSyms cx (idArr ((stepA cx st).thunks.length)
        (stepScan cx st).2)).length : Int) * cx.stub_size < maxThunkSize
      rw [hlen]
      exact h2
  · intro hall
    rw [Bool.and_eq_true]
    refine ⟨h.mpr (fun t hm => hall t (List.mem_append.mpr (Or.inl hm))), ?_⟩
    rw [decide_eq_true_eq]
    have h2 : ((sortSyms cx (idArr ((stepA cx st).thunks.length)
        (stepScan cx st).2)).length : Int) * cx.stub_size < maxThunkSize :=
      hall _ (List.mem_append.mpr (Or.inr (List.mem_singleton.mpr rfl)))
    rw [hlen] at h2
    exact h2

theorem sweepLoop_assert (cx : Ctx) : ∀ (fuel : Nat) (st st' : St),
    AssertInv cx st → sweepLoop cx idArr fuel st = some st' →
    AssertInv cx st' := by
  intro fuel
  induction fuel with
  | zero =>
    intro st st' _ h
    simp [sweepLoop] at h
  | succ f ih =>
    intro st st' hinv h
    rw [sweepLoop] at h
    split at h
    · exact ih _ _ (sweepStep_assert_inv cx st hinv) h
    · rw [Option.some.injEq] at h
      subst h
      unfold AssertInv at hinv ⊢
      have hfr := finishLoop_frame (st.thunks.length - st.a) st
      show (finishLoop (st.thunks.length - st.a) st).assert_ok = true ↔ _
      rw [hfr.2.2.2.2.1]
      have hth : (sweepFinish st).thunks =
          (finishLoop (st.thunks.length - st.a) st).thunks := rfl
      rw [hth, hfr.1]
      exact hinv

/-- **C9** (amended).  The assertion `thunk.size() < max_thunk_size` is a
genuine runtime check, not an invariant: the recorded assertion outcome is
true precisely when every thunk produced by the sweep stays below
`max_thunk_size`, and there are inputs (see the counterexample) on which
it fails. -/
theorem assert_ok_iff_thunk_sizes (cx : Ctx) (st0 st' : St)
    (hwf : WfInit cx st0) (hrun : runSweep cx st0 = some st') :
    st'.assert_ok = true ↔
      ∀ t ∈ st'.thunks, (t.symbols.length : Int) * cx.stub_size < maxThunkSize := by
  by_cases hne : cx.members.length = 0
  · unfold runSweep createRangeExtensionThunks at hrun
    rw [if_pos hne, Option.some.injEq] at hrun
    subst hrun
    rw [hwf.1, hwf.2.2.2.2.2]
    simp
  · unfold runSweep createRangeExtensionThunks at hrun
    rw [if_neg hne] at hrun
    refine sweepLoop_assert cx _ _ _ ?_ hrun
    unfold AssertInv
    rw [hwf.1]
    simp

/-- Witness for the amended C9 at a concrete input. -/
theorem assert_ok_iff_thunk_sizes_witness :
    WfInit cxTwo (cleanSt 2 2) ∧
    runSweep cxTwo (cleanSt 2 2) = some stTwoFinal ∧
    (stTwoFinal.assert_ok = true ↔
      ∀ t ∈ stTwoFinal.thunks,
        (t.symbols.length : Int) * cxTwo.stub_size < maxThunkSize) :=
  ⟨by unfold WfInit; decide, by decide,
    assert_ok_iff_thunk_sizes cxTwo (cleanSt 2 2) stTwoFinal
      (by unfold WfInit; decide) (by decide)⟩

/-! ## The section layout (C3) -/

theorem alignTo_ge (x a : Int) (ha : 0 < a) : x ≤ alignTo x a := by
  unfold alignTo
  have h1 : 0 ≤ (a - x % a) % a := Int.emod_nonneg _ (ne_of_gt ha)
  omega

theorem alignTo_emod (x a : Int) : alignTo x a % a = 0 := by
  unfold alignTo
  rw [Int.add_emod, Int.emod_emod_of_dvd _ dvd_rfl, ← Int.add_emod]
  have h : x + (a - x % a) = (x - x % a) + a * 1 := by ring
  rw [h, Int.add_mul_emod_self_left, Int.sub_emod,
    Int.emod_emod_of_dvd _ dvd_rfl, sub_self, Int.zero_emod]

theorem alignTo_of_emod_eq_zero (y a : Int) (h : y % a = 0) : alignTo y a = y := by
  unfold alignTo
  rw [h, sub_zero, Int.emod_self, add_zero]

/-- The `D` placement loop preserves the layout invariant. -/
theorem dPhase_layout (cx : Ctx) (hsz : ∀ s ∈ cx.members, 0 ≤ s.sh_size) :
    ∀ (f : Nat) (st : St), LayoutInv cx st → LayoutInv cx (dPhase cx f st) := by
  intro f
  induction f with
  | zero => intro st h; exact h
  | succ f ih =>
    intro st h
    rw [dPhase]
    split
    next hd =>
      dsimp only
      split
      next hg =>
        apply ih
        obtain ⟨hlen, hdle, hoff0, hd0, hsent, hpre, hord⟩ := h
        have hal : (0 : Int) < 2 ^ (cx.members.getD st.d dSec).p2align :=
          pow_pos (by norm_num) _
        have hA : st.offset ≤
            alignTo st.offset (2 ^ (cx.members.getD st.d dSec).p2align) :=
          alignTo_ge _ _ hal
        have hmem : cx.members.getD st.d dSec ∈ cx.members := by
          rw [getD_eq_getElem _ _ _ hd]
          exact List.getElem_mem _
        have hsh : 0 ≤ (cx.members.getD st.d dSec).sh_size := hsz _ hmem
        have hdlen : st.d < st.offsets.length := by omega
        unfold LayoutInv
        dsimp only
        refine ⟨?_, ?_, ?_, ?_, ?_, ?_, ?_⟩
        · rw [List.length_set]; exact hlen
        · omega
        · omega
        · intro h0; exact absurd h0 (Nat.succ_ne_zero _)
        · intro i hi hge hne
          rw [getD_set_ne _ _ _ _ _ (by omega)]
          exact hsent i hi (by omega) hne
        · intro i hi
          by_cases hieq : i = st.d
          · subst hieq
            rw [getD_set_self _ _ _ _ hdlen]
            exact ⟨by omega,
              alignTo_of_emod_eq_zero _ _ (alignTo_emod _ _), le_refl _⟩
          · rw [getD_set_ne _ _ _ _ _ (by omega)]
            obtain ⟨p1, p2, p3⟩ := hpre i (by omega)
            exact ⟨p1, p2, by omega⟩
        · intro i j hij hj
          by_cases hjeq : j = st.d
          · subst hjeq
            rw [getD_set_self _ _ _ _ hdlen, getD_set_ne _ _ _ _ _ (by omega)]
            obtain ⟨p1, p2, p3⟩ := hpre i (by omega)
            omega
          · rw [getD_set_ne _ _ _ _ _ (by omega), getD_set_ne _ _ _ _ _ (by omega)]
            exact hord i j hij (by omega)
      next hg => exact h
    next hd => exact h

/-- The layout invariant only looks at `offsets`, `d` and `offset`. -/
theorem LayoutInv_congr (cx : Ctx) (st st' : St)
    (h1 : st'.offsets = st.offsets) (h2 : st'.d = st.d)
    (h3 : st'.offset = st.offset) (h : LayoutInv cx st) : LayoutInv cx st' := by
  unfold LayoutInv at h ⊢
  rw [h1, h2, h3]
  exact h

/-- The layout-relevant fields after one sweep iteration. -/
theorem sweepStep_layout_fields (cx : Ctx) (arr : Nat → List Nat → List Nat)
    (st : St) :
    (sweepStep cx arr st).offsets = (stepA cx st).offsets ∧
    (sweepStep cx arr st).d = (stepA cx st).d ∧
    (sweepStep cx arr st).offset =
      alignTo (stepA cx st).offset cx.thunk_align +
        ((arr (stepA cx st).thunks.length (stepScan cx st).2).length : Int) *
          cx.stub_size := by
  have hsc := scanBatch_frame cx ((stepA cx st).thunks.length) (stepBatch cx st)
    ((stepA cx st), [])
  refine ⟨?_, ?_, ?_⟩
  · simp only [sweepStep]
    have hf1 : (fixupBatch cx ((stepA cx st).thunks.length) (stepBatch cx st)
        { (stepScan cx st).1 with
          symst := assignSlots ((stepA cx st).thunks.length)
            (sortSyms cx (arr ((stepA cx st).thunks.length) (stepScan cx st).2)) 0
            (stepScan cx st).1.symst }).offsets = (stepScan cx st).1.offsets :=
      (fixupBatch_frame cx _ _ _).2.2.2.2.2.2.2.1
    have hf2 : (stepScan cx st).1.offsets = (stepA cx st).offsets :=
      hsc.2.2.2.2.2.2.1
    rw [hf1, hf2]
  · simp only [sweepStep]
    have hf1 : (fixupBatch cx ((stepA cx st).thunks.length) (stepBatch cx st)
        { (stepScan cx st).1 with
          symst := assignSlots ((stepA cx st).thunks.length)
            (sortSyms cx (arr ((stepA cx st).thunks.length) (stepScan cx st).2)) 0
            (stepScan cx st).1.symst }).d = (stepScan cx st).1.d :=
      (fixupBatch_frame cx _ _ _).2.2.1
    have hf2 : (stepScan cx st).1.d = (stepA cx st).d := hsc.2.2.1
    rw [hf1, hf2]
  · simp only [sweepStep]

/-- One sweep iteration preserves the layout invariant. -/
theorem sweepStep_layout (cx : Ctx) (arr : Nat → List Nat → List Nat) (st : St)
    (hw : WfSizes cx) (h : LayoutInv cx st) :
    LayoutInv cx (sweepStep cx arr st) := by
  have h1 : LayoutInv cx (stepD cx st) :=
    dPhase_layout cx hw.1 (cx.members.length - st.d) st h
  have h2 : LayoutInv cx (stepC cx st) := by
    have hc := cPhase_frame cx cx.members.length { stepD cx st with c := st.b + 1 }
    have e1 : (stepC cx st).offsets = (stepD cx st).offsets :=
      hc.2.2.2.2.2.2.2.1
    have e2 : (stepC cx st).d = (stepD cx st).d := hc.2.2.2.2.2.1
    have e3 : (stepC cx st).offset = (stepD cx st).offset := hc.2.2.2.2.2.2.1
    exact LayoutInv_congr cx _ _ e1 e2 e3 h1
  have h3 : LayoutInv cx (stepA cx st) := by
    have ha := aPhase_frame cx ((stepC cx st).thunks.length - (stepC cx st).a)
      (stepCOff cx st) (stepC cx st)
    have e1 : (stepA cx st).offsets = (stepC cx st).offsets := ha.2.2.2.2.2.2.1
    have e2 : (stepA cx st).d = (stepC cx st).d := ha.2.2.1
    have e3 : (stepA cx st).offset = (stepC cx st).offset := ha.2.2.2.2.2.1
    exact LayoutInv_congr cx _ _ e1 e2 e3 h2
  obtain ⟨f1, f2, f3⟩ := sweepStep_layout_fields cx arr st
  have hg := alignTo_ge (stepA cx st).offset cx.thunk_align hw.2.1
  have hm : 0 ≤ ((arr (stepA cx st).thunks.length
      (stepScan cx st).2).length : Int) * cx.stub_size :=
    mul_nonneg (Int.natCast_nonneg _) hw.2.2
  have hoff : (stepA cx st).offset ≤
      alignTo (stepA cx st).offset cx.thunk_align +
        ((arr (stepA cx st).thunks.length (stepScan cx st).2).length : Int) *
          cx.stub_size := by linarith
  unfold LayoutInv at h3 ⊢
  rw [f1, f2, f3]
  obtain ⟨g1, g2, g3, g4, g5, g6, g7⟩ := h3
  refine ⟨g1, g2, by linarith, g4, g5, ?_, g7⟩
  intro i hi
  obtain ⟨p1, p2, p3⟩ := g6 i hi
  exact ⟨p1, p2, le_trans p3 hoff⟩

/-- The layout invariant at the start of the sweep. -/
theorem layout_init (cx : Ctx) (st0 : St) (hne : cx.members.length ≠ 0) :
    LayoutInv cx { st0 with
      offsets := (List.replicate cx.members.length (-1 : Int)).set 0 0,
      a := 0, b := 0, c := 0, d := 0, offset := 0, assert_ok := true } := by
  unfold LayoutInv
  dsimp only
  refine ⟨?_, ?_, le_refl _, ?_, ?_, ?_, ?_⟩
  · rw [List.length_set, List.length_replicate]
  · omega
  · intro _
    rw [getD_set_self _ _ _ _ (by rw [List.length_replicate]; omega)]
  · intro i hi hge hne0
    rw [getD_set_ne _ _ _ _ _ (by omega)]
    rw [getD_eq_getElem _ _ _ (by rw [List.length_replicate]; exact hi)]
    exact List.getElem_replicate _ (by rw [List.length_replicate]; exact hi)
  · intro i hi
    exact absurd hi (Nat.not_lt_zero i)
  · intro i j hij hj
    exact absurd hj (Nat.not_lt_zero j)

theorem sweepLoop_layout (cx : Ctx) (arr : Nat → List Nat → List Nat)
    (hw : WfSizes cx) : ∀ (fuel : Nat) (st st' : St),
    LayoutInv cx st → sweepLoop cx arr fuel st = some st' →
    LayoutInv cx st' := by
  intro fuel
  induction fuel with
  | zero =>
    intro st st' _ h
    simp [sweepLoop] at h
  | succ f ih =>
    intro st st' hinv h
    rw [sweepLoop] at h
    split at h
    · exact ih _ _ (sweepStep_layout cx arr st hw hinv) h
    · rw [Option.some.injEq] at h
      subst h
      have hfr := finishLoop_frame (st.thunks.length - st.a) st
      refine LayoutInv_congr cx st (sweepFinish st) ?_ ?_ ?_ hinv
      · show (finishLoop (st.thunks.length - st.a) st).offsets = st.offsets
        exact hfr.2.2.1
      · show (finishLoop (st.thunks.length - st.a) st).d = st.d
        exact hfr.2.2.2.2.2.2.2
      · show (finishLoop (st.thunks.length - st.a) st).offset = st.offset
        exact hfr.2.2.2.1

/-- **C3** (amended).  On a non-empty members list (with the nonnegative
sizes, positive thunk alignment and nonnegative stub size that the C++
types guarantee), the sweep assigns offsets exactly to the prefix placed
by the frontier cursor `d`, plus member 0 which is pinned at offset 0:
every placed member's offset is assigned (not the sentinel `-1`) and
satisfies `align_to(s.offset, 2^s.p2align) == s.offset`, placed members
in order do not overlap, and every other member retains the sentinel
`-1` — so the claim's "no sentinel remains" does not hold in general
(see the counterexample), only on the placed prefix. -/
theorem layout_at_end (cx : Ctx) (st0 st' : St) (hw : WfSizes cx)
    (hne : cx.members.length ≠ 0) (hrun : runSweep cx st0 = some st') :
    st'.offsets.length = cx.members.length ∧
    (st'.offsets.getD 0 0 ≠ -1 ∧
      alignTo (st'.offsets.getD 0 0)
        (2 ^ (cx.members.getD 0 dSec).p2align) = st'.offsets.getD 0 0) ∧
    (∀ i, i < st'.d →
      st'.offsets.getD i 0 ≠ -1 ∧
      alignTo (st'.offsets.getD i 0)
        (2 ^ (cx.members.getD i dSec).p2align) = st'.offsets.getD i 0) ∧
    (∀ i, i < cx.members.length → st'.d ≤ i → i ≠ 0 →
      st'.offsets.getD i 0 = -1) ∧
    (∀ i j, i < j → j < st'.d →
      st'.offsets.getD i 0 + (cx.members.getD i dSec).sh_size ≤
        st'.offsets.getD j 0) := by
  unfold runSweep createRangeExtensionThunks at hrun
  rw [if_neg hne] at hrun
  have hinv := sweepLoop_layout cx idArr hw _ _ _ (layout_init cx st0 hne) hrun
  obtain ⟨hlen, hdle, hoff0, hd0, hsent, hpre, hord⟩ := hinv
  refine ⟨hlen, ?_, ?_, hsent, hord⟩
  · by_cases hd : st'.d = 0
    · have h0 := hd0 hd
      rw [h0]
      exact ⟨by decide, alignTo_of_emod_eq_zero _ _ (Int.zero_emod _)⟩
    · obtain ⟨p1, p2, _⟩ := hpre 0 (Nat.pos_of_ne_zero hd)
      exact ⟨by omega, p2⟩
  · intro i hi
    obtain ⟨p1, p2, _⟩ := hpre i hi
    exact ⟨by omega, p2⟩

/-- Witness for the amended C3 at a concrete input. -/
theorem layout_at_end_witness :
    WfSizes cxTwo ∧ cxTwo.members.length ≠ 0 ∧
    runSweep cxTwo (cleanSt 2 2) = some stTwoFinal ∧
    (stTwoFinal.offsets.length = cxTwo.members.length ∧
    (stTwoFinal.offsets.getD 0 0 ≠ -1 ∧
      alignTo (stTwoFinal.offsets.getD 0 0)
        (2 ^ (cxTwo.members.getD 0 dSec).p2align) =
        stTwoFinal.offsets.getD 0 0) ∧
    (∀ i, i < stTwoFinal.d →
      stTwoFinal.offsets.getD i 0 ≠ -1 ∧
      alignTo (stTwoFinal.offsets.getD i 0)
        (2 ^ (cxTwo.members.getD i dSec).p2align) =
        stTwoFinal.offsets.getD i 0) ∧
    (∀ i, i < cxTwo.members.length → stTwoFinal.d ≤ i → i ≠ 0 →
      stTwoFinal.offsets.getD i 0 = -1) ∧
    (∀ i j, i < j → j < stTwoFinal.d →
      stTwoFinal.offsets.getD i 0 + (cxTwo.members.getD i dSec).sh_size ≤
        stTwoFinal.offsets.getD j 0)) :=
  ⟨by unfold WfSizes; decide, by decide, by decide,
    layout_at_end cxTwo (cleanSt 2 2) stTwoFinal
      (by unfold WfSizes; decide) (by decide) (by decide)⟩

/-! ## Thunk reachability (C2) -/

theorem alignTo_lt (x a : Int) (ha : 0 < a) : alignTo x a < x + a := by
  unfold alignTo
  have h1 := Int.emod_lt_of_pos (a - x % a) ha
  have h2 : 0 ≤ (a - x % a) % a := Int.emod_nonneg _ (ne_of_gt ha)
  omega

/-- Once the frontier has passed every member, the `D` loop is a no-op. -/
theorem dPhase_id (cx : Ctx) : ∀ (f : Nat) (st : St),
    cx.members.length ≤ st.d → dPhase cx f st = st := by
  intro f
  induction f with
  | zero => intro st _; rfl
  | succ f _ =>
    intro st h
    rw [dPhase]
    rw [if_neg (by omega)]

/-- The frontier offset never decreases across the `D` loop. -/
theorem dPhase_offset_ge (cx : Ctx) (hsz : ∀ s ∈ cx.members, 0 ≤ s.sh_size) :
    ∀ (f : Nat) (st : St), st.offset ≤ (dPhase cx f st).offset := by
  intro f
  induction f with
  | zero => intro st; exact le_refl _
  | succ f ih =>
    intro st
    rw [dPhase]
    split
    next hd =>
      dsimp only
      split
      next hg =>
        have hmem : cx.members.getD st.d dSec ∈ cx.members := by
          rw [getD_eq_getElem _ _ _ hd]
          exact List.getElem_mem _
        have hsh := hsz _ hmem
        have hA : st.offset ≤
            alignTo st.offset ((2 : Int) ^ (cx.members.getD st.d dSec).p2align) :=
          alignTo_ge _ _ (pow_pos (by norm_num) _)
        refine le_trans ?_ (ih _)
        show st.offset ≤
          alignTo st.offset ((2 : Int) ^ (cx.members.getD st.d dSec).p2align) +
            (cx.members.getD st.d dSec).sh_size
        omega
      next hg => exact le_refl _
    next hd => exact le_refl _

theorem cPhase_c_le (cx : Ctx) : ∀ (f : Nat) (st : St),
    st.c ≤ cx.members.length → (cPhase cx f st).c ≤ cx.members.length := by
  intro f
  induction f with
  | zero => intro st h; exact h
  | succ f ih =>
    intro st h
    rw [cPhase]
    split
    next hg =>
      have := ih { st with c := st.c + 1 }
      simp only at this
      exact this (by omega)
    next hg => exact h

theorem stepA_thunks (cx : Ctx) (st : St) :
    (stepA cx st).thunks = st.thunks := by
  have d1 := (dPhase_frame cx (cx.members.length - st.d) st).2.2.2.1
  have c1 := (cPhase_frame cx cx.members.length
    { stepD cx st with c := st.b + 1 }).2.2.2.1
  have a1 := (aPhase_frame cx ((stepC cx st).thunks.length - (stepC cx st).a)
    (stepCOff cx st) (stepC cx st)).2.2.2.2.1
  calc (stepA cx st).thunks = (stepC cx st).thunks := a1
    _ = (stepD cx st).thunks := c1
    _ = st.thunks := d1

theorem stepD_layout (cx : Ctx) (st : St)
    (hsz : ∀ s ∈ cx.members, 0 ≤ s.sh_size) (h : LayoutInv cx st) :
    LayoutInv cx (stepD cx st) :=
  dPhase_layout cx hsz (cx.members.length - st.d) st h

theorem stepA_layout (cx : Ctx) (st : St)
    (hsz : ∀ s ∈ cx.members, 0 ≤ s.sh_size) (h : LayoutInv cx st) :
    LayoutInv cx (stepA cx st) := by
  have h1 := stepD_layout cx st hsz h
  have hc := cPhase_frame cx cx.members.length { stepD cx st with c := st.b + 1 }
  have h2 : LayoutInv cx (stepC cx st) := by
    have e1 : (stepC cx st).offsets = (stepD cx st).offsets := hc.2.2.2.2.2.2.2.1
    have e2 : (stepC cx st).d = (stepD cx st).d := hc.2.2.2.2.2.1
    have e3 : (stepC cx st).offset = (stepD cx st).offset := hc.2.2.2.2.2.2.1
    exact LayoutInv_congr cx _ _ e1 e2 e3 h1
  have ha := aPhase_frame cx ((stepC cx st).thunks.length - (stepC cx st).a)
    (stepCOff cx st) (stepC cx st)
  have e1 : (stepA cx st).offsets = (stepC cx st).offsets := ha.2.2.2.2.2.2.1
  have e2 : (stepA cx st).d = (stepC cx st).d := ha.2.2.1
  have e3 : (stepA cx st).offset = (stepC cx st).offset := ha.2.2.2.2.2.1
  exact LayoutInv_congr cx _ _ e1 e2 e3 h2

/-- The remaining layout-relevant cursor equations for one iteration. -/
theorem sweepStep_b_eq (cx : Ctx) (arr : Nat → List Nat → List Nat) (st : St) :
    (sweepStep cx arr st).b = (stepC cx st).c := by
  simp only [sweepStep]

theorem stepA_offsets (cx : Ctx) (st : St) :
    (stepA cx st).offsets = (stepD cx st).offsets ∧
    (stepA cx st).d = (stepD cx st).d ∧
    (stepA cx st).offset = (stepD cx st).offset := by
  have hc := cPhase_frame cx cx.members.length { stepD cx st with c := st.b + 1 }
  have ha := aPhase_frame cx ((stepC cx st).thunks.length - (stepC cx st).a)
    (stepCOff cx st) (stepC cx st)
  refine ⟨?_, ?_, ?_⟩
  · calc (stepA cx st).offsets = (stepC cx st).offsets := ha.2.2.2.2.2.2.1
      _ = (stepD cx st).offsets := hc.2.2.2.2.2.2.2.1
  · calc (stepA cx st).d = (stepC cx st).d := ha.2.2.1
      _ = (stepD cx st).d := hc.2.2.2.2.2.1
  · calc (stepA cx st).offset = (stepC cx st).offset := ha.2.2.2.2.2.1
      _ = (stepD cx st).offset := hc.2.2.2.2.2.2.1

/-- Numeric facts about the per-target constants. -/
theorem arch_consts (a : Arch) :
    0 < batchSize a ∧ batchSize a < maxDistance a ∧
    (0 : Int) < maxThunkSize ∧ maxThunkSize < maxDistance a := by
  cases a <;> exact ⟨by decide, by decide, by decide, by decide⟩

/-- The frontier cursor never moves backwards. -/
theorem dPhase_d_ge (cx : Ctx) : ∀ (f : Nat) (st : St),
    st.d ≤ (dPhase cx f st).d := by
  intro f
  induction f with
  | zero => intro st; exact le_refl _
  | succ f ih =>
    intro st
    rw [dPhase]
    split
    next hd =>
      dsimp only
      split
      next hg =>
        refine le_trans (Nat.le_succ _) ?_
        exact ih { st with
          offsets := st.offsets.set st.d
            (alignTo st.offset (2 ^ (cx.members.getD st.d dSec).p2align)),
          offset := alignTo st.offset
              (2 ^ (cx.members.getD st.d dSec).p2align) +
            (cx.members.getD st.d dSec).sh_size,
          d := st.d + 1 }
      next hg => exact le_refl _
    next hd => exact le_refl _

/-- Offsets already placed are never rewritten by the `D` loop. -/
theorem dPhase_getD_lt (cx : Ctx) : ∀ (f : Nat) (st : St) (i : Nat),
    i < st.d → (dPhase cx f st).offsets.getD i 0 = st.offsets.getD i 0 := by
  intro f
  induction f with
  | zero => intro st i _; rfl
  | succ f ih =>
    intro st i hi
    rw [dPhase]
    split
    next hd =>
      dsimp only
      split
      next hg =>
        rw [ih _ i (show i < st.d + 1 by omega)]
        exact getD_set_ne st.offsets st.d i
          (alignTo st.offset (2 ^ (cx.members.getD st.d dSec).p2align)) 0 (by omega)
      next hg => rfl
    next hd => rfl

/-- The `D`-guard margin: if one maximal thunk fits between the frontier
and the end of the branch range at the batch start, the same holds after
the placement loop, the batch start stays strictly inside the placed
prefix, and its offset is untouched. -/
theorem dPhase_margin (cx : Ctx)
    (hbw : ∀ s ∈ cx.members, (2 : Int) ^ s.p2align + s.sh_size + maxThunkSize +
      cx.thunk_align ≤ batchSize cx.arch)
    (htal : 0 < cx.thunk_align) :
    ∀ (f : Nat) (st : St), st.b < cx.members.length →
    cx.members.length ≤ st.d + f →
    st.offsets.length = cx.members.length →
    (st.b < st.d ∨ (st.b = st.d ∧ st.offset = 0 ∧ st.offsets.getD st.b 0 = 0)) →
    st.offset + maxThunkSize ≤ st.offsets.getD st.b 0 + maxDistance cx.arch →
    st.b < (dPhase cx f st).d ∧
    (dPhase cx f st).offsets.getD st.b 0 = st.offsets.getD st.b 0 ∧
    (dPhase cx f st).offset + maxThunkSize ≤
      st.offsets.getD st.b 0 + maxDistance cx.arch := by
  intro f
  induction f with
  | zero =>
    intro st hb hfuel hlen hdisj hm
    rcases hdisj with h | h
    · exact ⟨h, rfl, hm⟩
    · exact absurd hb (by omega)
  | succ f ih =>
    intro st hb hfuel hlen hdisj hm
    rw [dPhase]
    split
    next hd =>
      dsimp only
      split
      next hg =>
        have hmem : cx.members.getD st.d dSec ∈ cx.members := by
          rw [getD_eq_getElem _ _ _ hd]
          exact List.getElem_mem _
        have hset : (st.offsets.set st.d
            (alignTo st.offset (2 ^ (cx.members.getD st.d dSec).p2align))).getD
              st.b 0 = st.offsets.getD st.b 0 := by
          rcases hdisj with hlt | ⟨heq, hoff0, h00⟩
          · exact getD_set_ne _ _ _ _ _ (by omega)
          · rw [← heq, getD_set_self _ _ _ _ (by omega), h00, hoff0]
            exact alignTo_of_emod_eq_zero _ _ (Int.zero_emod _)
        have hrec := ih { st with
            offsets := st.offsets.set st.d
              (alignTo st.offset (2 ^ (cx.members.getD st.d dSec).p2align)),
            offset := alignTo st.offset
                (2 ^ (cx.members.getD st.d dSec).p2align) +
              (cx.members.getD st.d dSec).sh_size,
            d := st.d + 1 }
          hb (show cx.members.length ≤ st.d + 1 + f by omega)
          (show (st.offsets.set st.d _).length = cx.members.length by
            rw [List.length_set]; exact hlen)
          (Or.inl (show st.b < st.d + 1 by omega))
          (by
            show alignTo st.offset (2 ^ (cx.members.getD st.d dSec).p2align) +
              (cx.members.getD st.d dSec).sh_size + maxThunkSize ≤
              (st.offsets.set st.d
                (alignTo st.offset
                  (2 ^ (cx.members.getD st.d dSec).p2align))).getD st.b 0 +
              maxDistance cx.arch
            rw [hset]
            omega)
        refine ⟨hrec.1, hrec.2.1.trans hset, ?_⟩
        exact hrec.2.2.trans
          (le_of_eq (congrArg (fun x => x + maxDistance cx.arch) hset))
      next hg =>
        rcases hdisj with hlt | ⟨heq, hoff0, h00⟩
        · exact ⟨hlt, rfl, hm⟩
        · exfalso
          apply hg
          have hmem : cx.members.getD st.d dSec ∈ cx.members := by
            rw [getD_eq_getElem _ _ _ hd]
            exact List.getElem_mem _
          have hbw1 := hbw _ hmem
          have hpow : (0 : Int) < 2 ^ (cx.members.getD st.d dSec).p2align :=
            pow_pos (by norm_num) _
          have hbs := (arch_consts cx.arch).2.1
          have hz : alignTo 0 ((2 : Int) ^ (cx.members.getD st.d dSec).p2align) = 0 :=
            alignTo_of_emod_eq_zero _ _ (Int.zero_emod _)
          rw [hoff0, h00, hz]
          omega
    next hd =>
      rcases hdisj with hlt | ⟨heq, _, _⟩
      · exact ⟨by omega, rfl, hm⟩
      · exact absurd hb (by omega)

/-- On exit, the `C` loop's guard has failed. -/
theorem cPhase_exit (cx : Ctx) : ∀ (f : Nat) (st : St),
    cx.members.length ≤ st.c + f →
    ¬((cPhase cx f st).c < cx.members.length ∧
      st.offsets.getD (cPhase cx f st).c 0 +
        (cx.members.getD (cPhase cx f st).c dSec).sh_size <
      st.offsets.getD st.b 0 + batchSize cx.arch) := by
  intro f
  induction f with
  | zero =>
    intro st hfuel
    intro hcon
    have : (cPhase cx 0 st).c = st.c := rfl
    omega
  | succ f ih =>
    intro st hfuel
    rw [cPhase]
    split
    next hcond =>
      exact ih { st with c := st.c + 1 }
        (show cx.members.length ≤ st.c + 1 + f by omega)
    next hcond => exact hcond

/-- If the `C` loop ran past the frontier, it ran to the very end: an
unplaced section (sentinel offset `-1`) never stops it, because every
section is smaller than a batch. -/
theorem cPhase_over (cx : Ctx) (htal : 0 < cx.thunk_align)
    (hbw : ∀ s ∈ cx.members, (2 : Int) ^ s.p2align + s.sh_size + maxThunkSize +
      cx.thunk_align ≤ batchSize cx.arch) :
    ∀ (f : Nat) (st : St),
    cx.members.length ≤ st.c + f → st.c ≤ cx.members.length → 1 ≤ st.c →
    0 ≤ st.offsets.getD st.b 0 →
    (∀ i, i < cx.members.length → st.d ≤ i → i ≠ 0 →
      st.offsets.getD i 0 = -1) →
    (cPhase cx f st).c ≤ st.d ∨ (cPhase cx f st).c = cx.members.length := by
  intro f
  induction f with
  | zero =>
    intro st hfuel hcle _ _ _
    right
    show st.c = cx.members.length
    omega
  | succ f ih =>
    intro st hfuel hcle hc1 hb0 hsent
    rw [cPhase]
    split
    next hcond =>
      exact ih { st with c := st.c + 1 }
        (show cx.members.length ≤ st.c + 1 + f by omega)
        (show st.c + 1 ≤ cx.members.length from hcond.1)
        (show 1 ≤ st.c + 1 by omega) hb0 hsent
    next hcond =>
      by_cases hcd : st.c ≤ st.d
      · exact Or.inl hcd
      · by_cases hcs : st.c = cx.members.length
        · exact Or.inr hcs
        · exfalso
          have hclt : st.c < cx.members.length := by omega
          have hge : ¬(st.offsets.getD st.c 0 +
              (cx.members.getD st.c dSec).sh_size <
              st.offsets.getD st.b 0 + batchSize cx.arch) :=
            fun hx => hcond ⟨hclt, hx⟩
          have hsc : st.offsets.getD st.c 0 = -1 :=
            hsent st.c hclt (by omega) (by omega)
          have hmem : cx.members.getD st.c dSec ∈ cx.members := by
            rw [getD_eq_getElem _ _ _ hclt]
            exact List.getElem_mem _
          have hbw1 := hbw _ hmem
          have hpow : (0 : Int) < 2 ^ (cx.members.getD st.c dSec).p2align :=
            pow_pos (by norm_num) _
          have hmt : (0 : Int) < maxThunkSize := (arch_consts cx.arch).2.2.1
          rw [hsc] at hge
          omega

/-- On exit, the `A` loop's cursor has not moved backwards and either
every thunk is retired or the thunk at the cursor is within branch reach
of `c_offset`. -/
theorem aPhase_exit (cx : Ctx) : ∀ (f : Nat) (cOff : Int) (st : St),
    st.thunks.length ≤ st.a + f →
    st.a ≤ (aPhase cx f cOff st).a ∧
    (st.thunks.length ≤ (aPhase cx f cOff st).a ∨
      cOff ≤ (st.thunks.getD (aPhase cx f cOff st).a dThunk).offset +
        maxDistance cx.arch) := by
  intro f
  induction f with
  | zero =>
    intro cOff st hfuel
    refine ⟨le_refl _, Or.inl ?_⟩
    show st.thunks.length ≤ st.a
    omega
  | succ f ih =>
    intro cOff st hfuel
    rw [aPhase]
    split
    next hcond =>
      have h := ih cOff { retireAt st st.a with a := st.a + 1 }
        (show st.thunks.length ≤ st.a + 1 + f by
          have : (retireAt st st.a).thunks = st.thunks := rfl
          omega)
      exact ⟨le_trans (Nat.le_succ _) h.1, h.2⟩
    next hcond =>
      by_cases hal : st.thunks.length ≤ st.a
      · exact ⟨le_refl _, Or.inl hal⟩
      · refine ⟨le_refl _, Or.inr ?_⟩
        have : ¬((st.thunks.getD st.a dThunk).offset + maxDistance cx.arch <
            cOff) := fun hx => hcond ⟨by omega, hx⟩
        omega

/-- The fix-up fold rewrites exactly the batch sections, pointwise. -/
theorem fixupFold_char (cx : Ctx) (tIdx : Nat) (symst5 : List SymExtra) :
    ∀ (batch : List Nat), batch.Nodup → ∀ (st : St) (mi : Nat),
    (batch.foldl (fixupSec cx tIdx symst5) st).extns.getD mi [] =
      if mi ∈ batch ∧ mi < st.extns.length then
        List.zipWith
          (fun (r : ElfRel) (e : RangeExtensionRef) =>
            if e.thunk_idx = (tIdx : Int) then
              { e with sym_idx :=
                  (symst5.getD ((secFileSyms cx mi).getD r.r_sym 0)
                    d0Sym).thunk_sym_idx }
            else e)
          (secRels cx mi) (st.extns.getD mi [])
      else st.extns.getD mi [] := by
  intro batch
  induction batch with
  | nil =>
    intro _ st mi
    rw [if_neg (by simp)]
    rfl
  | cons mi0 rest ih =>
    intro hnd st mi
    rw [List.nodup_cons] at hnd
    simp only [List.foldl_cons]
    rw [ih hnd.2 (fixupSec cx tIdx symst5 st mi0) mi]
    by_cases hm0 : mi0 = mi
    · subst hm0
      rw [if_neg (fun hc => hnd.1 hc.1)]
      rw [fixupSec_getD]
      by_cases hlt : mi0 < st.extns.length
      · rw [if_pos ⟨rfl, hlt⟩, if_pos ⟨List.mem_cons_self _ _, hlt⟩]
      · rw [if_neg (fun hc => hlt hc.2), if_neg (fun hc => hlt hc.2)]
    · have hu : (fixupSec cx tIdx symst5 st mi0).extns.getD mi [] =
          st.extns.getD mi [] := by
        rw [fixupSec_getD, if_neg (fun hc => hm0 hc.1)]
      have hlen : (fixupSec cx tIdx symst5 st mi0).extns.length =
          st.extns.length := fixupSec_extns_length _ _ _ _ _
      rw [hu, hlen]
      have hiff : (mi ∈ rest ∧ mi < st.extns.length) ↔
          (mi ∈ mi0 :: rest ∧ mi < st.extns.length) := by
        constructor
        · exact fun h => ⟨List.mem_cons_of_mem _ h.1, h.2⟩
        · rintro ⟨h1, h2⟩
          rcases List.mem_cons.mp h1 with h | h
          · exact absurd h.symm hm0
          · exact ⟨h, h2⟩
      exact if_congr hiff rfl rfl

/-- The reachability invariant only looks at these fields. -/
theorem ReachInv_congr (cx : Ctx) (st st' : St) (h : ReachInv cx st)
    (h1 : st'.b = st.b) (h2 : st'.d = st.d) (h3 : st'.offset = st.offset)
    (h4 : st'.offsets = st.offsets) (h5 : st'.extns = st.extns)
    (h6 : st'.thunks = st.thunks) (h7 : st'.assert_ok = st.assert_ok) :
    ReachInv cx st' := by
  unfold ReachInv Ent4 at h ⊢
  rw [h1, h2, h3, h4, h5, h6, h7]
  exact h

/-- The fix-up fold leaves the `extns` vector count unchanged. -/
theorem fixupFold_extns_length (cx : Ctx) (tIdx : Nat) (symst5 : List SymExtra) :
    ∀ (batch : List Nat) (st : St),
    (batch.foldl (fixupSec cx tIdx symst5) st).extns.length = st.extns.length := by
  intro batch
  induction batch with
  | nil => intro st; rfl
  | cons mi rest ih =>
    intro st
    simp only [List.foldl_cons]
    rw [ih, fixupSec_extns_length]

/-- A section the `D` loop places is placed at or past the frontier the
loop started from (or the loop never reached it). -/
theorem dPhase_new_ge (cx : Ctx) (hsz : ∀ s ∈ cx.members, 0 ≤ s.sh_size) :
    ∀ (f : Nat) (st : St) (i : Nat), st.offsets.length = cx.members.length →
    st.d ≤ i →
    st.offset ≤ (dPhase cx f st).offsets.getD i 0 ∨ (dPhase cx f st).d ≤ i := by
  intro f
  induction f with
  | zero => intro st i _ h1; exact Or.inr h1
  | succ f ih =>
    intro st i hlen h1
    rw [dPhase]
    split
    next hd =>
      dsimp only
      split
      next hg =>
        by_cases hie : i = st.d
        · left
          have hlt : i < ({ st with
              offsets := st.offsets.set st.d
                (alignTo st.offset (2 ^ (cx.members.getD st.d dSec).p2align)),
              offset := alignTo st.offset
                  (2 ^ (cx.members.getD st.d dSec).p2align) +
                (cx.members.getD st.d dSec).sh_size,
              d := st.d + 1 } : St).d := by
            show i < st.d + 1
            omega
          rw [dPhase_getD_lt cx f _ i hlt]
          show st.offset ≤ (st.offsets.set st.d
            (alignTo st.offset (2 ^ (cx.members.getD st.d dSec).p2align))).getD i 0
          rw [hie, getD_set_self _ _ _ _ (by omega)]
          exact alignTo_ge _ _ (pow_pos (by norm_num) _)
        · have hmem : cx.members.getD st.d dSec ∈ cx.members := by
            rw [getD_eq_getElem _ _ _ hd]
            exact List.getElem_mem _
          have hrec := ih { st with
              offsets := st.offsets.set st.d
                (alignTo st.offset (2 ^ (cx.members.getD st.d dSec).p2align)),
              offset := alignTo st.offset
                  (2 ^ (cx.members.getD st.d dSec).p2align) +
                (cx.members.getD st.d dSec).sh_size,
              d := st.d + 1 } i
            (by rw [List.length_set]; exact hlen) (by show st.d + 1 ≤ i; omega)
          rcases hrec with hl | hr
          · left
            refine le_trans ?_ hl
            show st.offset ≤ alignTo st.offset
                (2 ^ (cx.members.getD st.d dSec).p2align) +
              (cx.members.getD st.d dSec).sh_size
            have ha := alignTo_ge st.offset
              ((2 : Int) ^ (cx.members.getD st.d dSec).p2align)
              (pow_pos (by norm_num) _)
            have hs := hsz _ hmem
            omega
          · right
            exact hr
      next hg =>
        right
        exact h1
    next hd =>
      right
      exact h1

/-- Once `b` has passed the members, the loop immediately finishes. -/
theorem sweepLoop_of_b_ge (cx : Ctx) (arr : Nat → List Nat → List Nat) :
    ∀ (fuel : Nat) (st st' : St), ¬ st.b < cx.members.length →
    sweepLoop cx arr fuel st = some st' → st' = sweepFinish st := by
  intro fuel
  induction fuel with
  | zero =>
    intro st st' _ h
    simp [sweepLoop] at h
  | succ f _ =>
    intro st st' hb h
    rw [sweepLoop, if_neg hb, Option.some.injEq] at h
    exact h.symm

/-- One sweep iteration preserves the reachability invariant, provided
the batch-end cursor did not overrun the placement frontier. -/
theorem sweepStep_reach (cx : Ctx) (st : St) (hw : WfSizes cx)
    (hbw : BatchWf cx) (hreg : RegInv cx st) (hlay : LayoutInv cx st)
    (hri : ReachInv cx st) (hb : st.b < cx.members.length)
    (hnoov : (stepC cx st).c ≤ (stepD cx st).d) :
    ReachInv cx (sweepStep cx idArr st) := by
  obtain ⟨R1, R2, R3, R4, R5, R6, R7⟩ := hri
  -- frames of the three cursor loops
  have hfD := dPhase_frame cx (cx.members.length - st.d) st
  have hfC := cPhase_frame cx cx.members.length { stepD cx st with c := st.b + 1 }
  have hfA := aPhase_frame cx ((stepC cx st).thunks.length - (stepC cx st).a)
    (stepCOff cx st) (stepC cx st)
  have hDb : (stepD cx st).b = st.b := hfD.1
  have hDth : (stepD cx st).thunks = st.thunks := hfD.2.2.2.1
  have hDex : (stepD cx st).extns = st.extns := hfD.2.2.1
  have hCoffs : (stepC cx st).offsets = (stepD cx st).offsets :=
    hfC.2.2.2.2.2.2.2.1
  have hCoff : (stepC cx st).offset = (stepD cx st).offset := hfC.2.2.2.2.2.2.1
  have hCth : (stepC cx st).thunks = (stepD cx st).thunks := hfC.2.2.2.1
  have hCex : (stepC cx st).extns = (stepD cx st).extns := hfC.2.2.1
  have hAex2 : (stepA cx st).extns = (stepC cx st).extns := hfA.2.2.2.1
  have hAoffs := stepA_offsets cx st
  have hAth : (stepA cx st).thunks = st.thunks := stepA_thunks cx st
  have hTlen : (stepA cx st).thunks.length = st.thunks.length :=
    congrArg List.length hAth
  have hA1 : (stepA cx st).offset = (stepD cx st).offset := hAoffs.2.2
  -- frontier facts
  have hdge : st.d ≤ (stepD cx st).d := dPhase_d_ge cx _ st
  have hDgd : ∀ mi : Nat, mi < st.d →
      (stepD cx st).offsets.getD mi 0 = st.offsets.getD mi 0 :=
    fun mi h => dPhase_getD_lt cx _ st mi h
  have hDoffge : st.offset ≤ (stepD cx st).offset := dPhase_offset_ge cx hw.1 _ st
  have hlay1 : LayoutInv cx (stepD cx st) := stepD_layout cx st hw.1 hlay
  have hBD : st.b < (stepD cx st).d ∧
      (stepD cx st).offsets.getD st.b 0 = st.offsets.getD st.b 0 := by
    rcases R1 hb with hlt | hpr
    · exact ⟨by omega, hDgd st.b hlt⟩
    · have hm0 : st.offset + maxThunkSize ≤
          st.offsets.getD st.b 0 + maxDistance cx.arch := by
        rw [hpr.2.1, hpr.2.2]
        have := (arch_consts cx.arch).2.2.2
        omega
      have h := dPhase_margin cx hbw.1 hw.2.1 (cx.members.length - st.d) st hb
        (by have := hlay.2.1; omega) hlay.1 (Or.inr hpr) hm0
      exact ⟨h.1, h.2.1⟩
  have hMargin : st.assert_ok = true →
      (stepD cx st).offset + maxThunkSize ≤
        st.offsets.getD st.b 0 + maxDistance cx.arch := by
    intro hok
    rcases R1 hb with hlt | hpr
    · exact (dPhase_margin cx hbw.1 hw.2.1 (cx.members.length - st.d) st hb
        (by have := hlay.2.1; omega) hlay.1 (Or.inl hlt) (R2 hok hb)).2.2
    · have hm0 : st.offset + maxThunkSize ≤
          st.offsets.getD st.b 0 + maxDistance cx.arch := by
        rw [hpr.2.1, hpr.2.2]
        have := (arch_consts cx.arch).2.2.2
        omega
      exact (dPhase_margin cx hbw.1 hw.2.1 (cx.members.length - st.d) st hb
        (by have := hlay.2.1; omega) hlay.1 (Or.inr hpr) hm0).2.2
  -- cursor bounds of the batch
  have hbc : st.b + 1 ≤ (stepC cx st).c :=
    cPhase_c_ge cx cx.members.length { stepD cx st with c := st.b + 1 }
  have hcle : (stepC cx st).c ≤ cx.members.length :=
    cPhase_c_le cx cx.members.length { stepD cx st with c := st.b + 1 }
      (show st.b + 1 ≤ cx.members.length by omega)
  -- the C loop's stop condition
  have hexitRaw := cPhase_exit cx cx.members.length
    { stepD cx st with c := st.b + 1 }
    (show cx.members.length ≤ st.b + 1 + cx.members.length by omega)
  have hexit : ¬((stepC cx st).c < cx.members.length ∧
      (stepD cx st).offsets.getD (stepC cx st).c 0 +
        (cx.members.getD (stepC cx st).c dSec).sh_size <
      (stepD cx st).offsets.getD (stepD cx st).b 0 + batchSize cx.arch) :=
    hexitRaw
  rw [hDb] at hexit
  have hstop : (stepC cx st).c < cx.members.length →
      (stepD cx st).offsets.getD st.b 0 + batchSize cx.arch ≤
        (stepD cx st).offsets.getD (stepC cx st).c 0 +
          (cx.members.getD (stepC cx st).c dSec).sh_size := by
    intro hcm
    by_contra hcon
    exact hexit ⟨hcm, by omega⟩
  have hOb0 : 0 ≤ st.offsets.getD st.b 0 := by
    rcases R1 hb with hlt | hpr
    · exact (hlay.2.2.2.2.2.1 st.b hlt).1
    · rw [hpr.2.2]
  -- the stop index, when a real member, is already placed
  have hclt : (stepC cx st).c < cx.members.length →
      (stepC cx st).c < (stepD cx st).d := by
    intro hcm
    rcases Nat.lt_or_ge (stepC cx st).c (stepD cx st).d with h | h
    · exact h
    exfalso
    have hsent : (stepD cx st).offsets.getD (stepC cx st).c 0 = -1 :=
      hlay1.2.2.2.2.1 (stepC cx st).c hcm (by omega) (by omega)
    have hs := hstop hcm
    have hmem : cx.members.getD (stepC cx st).c dSec ∈ cx.members := by
      rw [getD_eq_getElem _ _ _ hcm]
      exact List.getElem_mem _
    have hbw1 := hbw.1 _ hmem
    have hpow : (0 : Int) < 2 ^ (cx.members.getD (stepC cx st).c dSec).p2align :=
      pow_pos (by norm_num) _
    have hmt : (0 : Int) < maxThunkSize := (arch_consts cx.arch).2.2.1
    have htal : (0 : Int) < cx.thunk_align := hw.2.1
    rw [hsent, hBD.2] at hs
    omega
  -- the end of every batch member is below c_offset
  have hcoffEnd : ∀ mi : Nat, mi < (stepC cx st).c → mi < (stepD cx st).d →
      (stepD cx st).offsets.getD mi 0 + (cx.members.getD mi dSec).sh_size ≤
        stepCOff cx st := by
    intro mi hmic hmid
    unfold stepCOff
    split
    next hceq =>
      rw [hCoff]
      exact (hlay1.2.2.2.2.2.1 mi hmid).2.2
    next hcne =>
      rw [hCoffs]
      have hcm : (stepC cx st).c < cx.members.length := by omega
      exact hlay1.2.2.2.2.2.2 mi (stepC cx st).c hmic (hclt hcm)
  -- the batch start's offset is a lower bound across the batch
  have hBle : ∀ mi : Nat, st.b ≤ mi → mi < (stepD cx st).d →
      st.offsets.getD st.b 0 ≤ (stepD cx st).offsets.getD mi 0 := by
    intro mi hbmi hmid
    rcases Nat.eq_or_lt_of_le hbmi with heq | hlt2
    · rw [← heq, hBD.2]
    · have hord := hlay1.2.2.2.2.2.2 st.b mi hlt2 hmid
      have hmemb : cx.members.getD st.b dSec ∈ cx.members := by
        rw [getD_eq_getElem _ _ _ hb]
        exact List.getElem_mem _
      have hshb := hw.1 _ hmemb
      rw [← hBD.2]
      omega
  -- the registration invariant survives to the A phase
  have hregD : RegInv cx (stepD cx st) :=
    RegInv_congr cx hreg hfD.2.1 hfD.2.2.2.2.1 hfD.2.2.2.1
  have hregC : RegInv cx (stepC cx st) :=
    RegInv_congr cx hregD hfC.2.1 hfC.2.2.2.2.1 hfC.2.2.2.1
  have hregA : RegInv cx (stepA cx st) := aPhase_RegInv cx _ _ _ hregC
  -- the A loop's exit condition
  have hAexit : (stepC cx st).a ≤ (stepA cx st).a ∧
      ((stepC cx st).thunks.length ≤ (stepA cx st).a ∨
        stepCOff cx st ≤
          ((stepC cx st).thunks.getD (stepA cx st).a dThunk).offset +
            maxDistance cx.arch) :=
    aPhase_exit cx ((stepC cx st).thunks.length - (stepC cx st).a)
      (stepCOff cx st) (stepC cx st) (by omega)
  rw [hCth, hDth] at hAexit
  -- the batch scan
  have hQ0 : ScanQ (stepA cx st).symst [] := RegInv_ScanQ_nil cx _ hregA
  have H := scanBatch_spec cx ((stepA cx st).thunks.length) (stepBatch cx st)
    ((stepA cx st), []) hregA.1 hQ0
  have hss : scanBatch cx ((stepA cx st).thunks.length) (stepBatch cx st)
      ((stepA cx st), []) = stepScan cx st := rfl
  rw [hss] at H
  have hperm : (sortSyms cx (stepScan cx st).2).Perm (stepScan cx st).2 :=
    List.perm_insertionSort _ _
  have hsortnd : (sortSyms cx (stepScan cx st).2).Nodup :=
    hperm.nodup_iff.mpr H.2.2.1.1
  have hclean := H.2.2.1.2.1
  have hexlen4 : (stepScan cx st).1.extns.length = (stepA cx st).extns.length :=
    H.2.2.2.2.1
  have hAexlen : (stepA cx st).extns.length = cx.members.length := by
    rw [hAex2, hCex, hDex]
    exact R3
  -- the final state's fields
  have hFb : (sweepStep cx idArr st).b = (stepC cx st).c :=
    sweepStep_b_eq cx idArr st
  have hLF := sweepStep_layout_fields cx idArr st
  have hFoffs : (sweepStep cx idArr st).offsets = (stepD cx st).offsets :=
    hLF.1.trans hAoffs.1
  have hFd : (sweepStep cx idArr st).d = (stepD cx st).d :=
    hLF.2.1.trans hAoffs.2.1
  have hFoff : (sweepStep cx idArr st).offset =
      alignTo (stepA cx st).offset cx.thunk_align +
        ((stepScan cx st).2.length : Int) * cx.stub_size := hLF.2.2
  have hTA := sweepStep_thunks_assert cx idArr st
  have hFth : (sweepStep cx idArr st).thunks = st.thunks ++
      [⟨(stepA cx st).thunks.length, alignTo (stepA cx st).offset cx.thunk_align,
        sortSyms cx (stepScan cx st).2⟩] := hTA.1
  have hFas : (sweepStep cx idArr st).assert_ok = (st.assert_ok &&
      decide (((stepScan cx st).2.length : Int) * cx.stub_size < maxThunkSize)) :=
    hTA.2
  have hAlign : (stepA cx st).offset ≤
      alignTo (stepA cx st).offset cx.thunk_align := alignTo_ge _ _ hw.2.1
  have hAlignLt : alignTo (stepA cx st).offset cx.thunk_align <
      (stepA cx st).offset + cx.thunk_align := alignTo_lt _ _ hw.2.1
  have hcollNN : 0 ≤ ((stepScan cx st).2.length : Int) * cx.stub_size :=
    mul_nonneg (Int.natCast_nonneg _) hw.2.2
  have hOffNN : 0 ≤ st.offset := hlay.2.2.1
  -- batch membership
  have hbatch : ∀ mi : Nat, mi ∈ stepBatch cx st ↔
      st.b ≤ mi ∧ mi < (stepC cx st).c := by
    intro mi
    unfold stepBatch
    rw [List.mem_range'_1]
    omega
  have hextns5 :
      ({ (stepScan cx st).1 with
        symst := assignSlots ((stepA cx st).thunks.length)
          (sortSyms cx (stepScan cx st).2) 0 (stepScan cx st).1.symst } : St).extns =
      (stepScan cx st).1.extns := rfl
  have hFextns : (sweepStep cx idArr st).extns =
      ((stepBatch cx st).foldl
        (fixupSec cx ((stepA cx st).thunks.length)
          (assignSlots ((stepA cx st).thunks.length)
            (sortSyms cx (stepScan cx st).2) 0 (stepScan cx st).1.symst))
        { (stepScan cx st).1 with
          symst := assignSlots ((stepA cx st).thunks.length)
            (sortSyms cx (stepScan cx st).2) 0 (stepScan cx st).1.symst }).extns := by
    simp only [sweepStep, idArr, fixupBatch]
  unfold ReachInv
  refine ⟨?_, ?_, ?_, ?_, ?_, ?_, ?_⟩
  · -- the new batch start is strictly inside the placed prefix
    intro hbm
    rw [hFb] at hbm
    rw [hFb, hFd]
    exact Or.inl (hclt hbm)
  · -- the D-guard margin at the new batch start
    intro hokF hbm
    rw [hFas, Bool.and_eq_true, decide_eq_true_eq] at hokF
    rw [hFb] at hbm
    rw [hFb, hFoff, hFoffs, hA1]
    have hM := hMargin hokF.1
    have hcd := hclt hbm
    have hs := hstop hbm
    have hmem : cx.members.getD (stepC cx st).c dSec ∈ cx.members := by
      rw [getD_eq_getElem _ _ _ hbm]
      exact List.getElem_mem _
    have hbw1 := hbw.1 _ hmem
    have hpow : (0 : Int) < 2 ^ (cx.members.getD (stepC cx st).c dSec).p2align :=
      pow_pos (by norm_num) _
    have hok2 := hokF.2
    have hALD2 : alignTo (stepD cx st).offset cx.thunk_align <
        (stepD cx st).offset + cx.thunk_align := by
      rw [← hA1]
      exact hAlignLt
    rw [← hBD.2] at hM
    linarith
  · -- extns mirrors members
    rw [hFextns, fixupFold_extns_length, hextns5, hexlen4, hAexlen]
  · -- thunks lie within [0, offset]
    intro t ht
    rw [hFth] at ht
    rw [hFoff]
    have hso : st.offset ≤ (stepA cx st).offset := by
      rw [hA1]
      exact hDoffge
    rcases List.mem_append.mp ht with hm | hm
    · have h4 := R4 t hm
      have hmul : 0 ≤ (t.symbols.length : Int) * cx.stub_size :=
        mul_nonneg (Int.natCast_nonneg _) hw.2.2
      exact ⟨h4.1, by linarith [h4.2, hso, hAlign, hcollNN]⟩
    · rw [List.mem_singleton] at hm
      subst hm
      constructor
      · show 0 ≤ alignTo (stepA cx st).offset cx.thunk_align
        linarith [hOffNN, hso, hAlign]
      · show alignTo (stepA cx st).offset cx.thunk_align +
          ((sortSyms cx (stepScan cx st).2).length : Int) * cx.stub_size ≤
          alignTo (stepA cx st).offset cx.thunk_align +
            ((stepScan cx st).2.length : Int) * cx.stub_size
        rw [hperm.length_eq]
  · -- thunk offsets are monotone
    intro k1 k2 hk12 hk2
    rw [hFth] at hk2 ⊢
    rw [List.length_append, List.length_singleton] at hk2
    by_cases h2 : k2 < st.thunks.length
    · rw [getD_append_left _ _ _ _ h2, getD_append_left _ _ _ _ (by omega)]
      exact R5 k1 k2 hk12 h2
    · have hk2e : k2 = st.thunks.length := by omega
      subst hk2e
      rw [getD_append_last]
      by_cases h1 : k1 < st.thunks.length
      · rw [getD_append_left _ _ _ _ h1]
        have hmem : st.thunks.getD k1 dThunk ∈ st.thunks := by
          rw [getD_eq_getElem _ _ _ h1]
          exact List.getElem_mem _
        have h4 := R4 _ hmem
        have hmul : 0 ≤ ((st.thunks.getD k1 dThunk).symbols.length : Int) *
            cx.stub_size := mul_nonneg (Int.natCast_nonneg _) hw.2.2
        have hso : st.offset ≤ (stepA cx st).offset := by
          rw [hA1]
          exact hDoffge
        show (st.thunks.getD k1 dThunk).offset ≤
          alignTo (stepA cx st).offset cx.thunk_align
        linarith [h4.2, hAlign]
      · have hk1e : k1 = st.thunks.length := by omega
        subst hk1e
        rw [getD_append_last]
  · -- thunks and placed sections do not overlap
    intro k hk mi hmi
    rw [hFth] at hk ⊢
    rw [hFd] at hmi
    rw [hFoffs]
    rw [List.length_append, List.length_singleton] at hk
    by_cases hkl : k < st.thunks.length
    · rw [getD_append_left _ _ _ _ hkl]
      by_cases hmid : mi < st.d
      · rw [hDgd mi hmid]
        exact R6 k hkl mi hmid
      · right
        have hmem : st.thunks.getD k dThunk ∈ st.thunks := by
          rw [getD_eq_getElem _ _ _ hkl]
          exact List.getElem_mem _
        have h4 := R4 _ hmem
        have hnew := dPhase_new_ge cx hw.1 (cx.members.length - st.d) st mi
          hlay.1 (by omega)
        rcases hnew with hl | hr
        · exact le_trans h4.2 hl
        · have hr2 : (stepD cx st).d ≤ mi := hr
          exact absurd hmi (by omega)
    · have hke : k = st.thunks.length := by omega
      subst hke
      rw [getD_append_last]
      left
      have hend := (hlay1.2.2.2.2.2.1 mi hmi).2.2
      have hso : (stepD cx st).offset ≤
          alignTo (stepA cx st).offset cx.thunk_align := by
        rw [← hA1]
        exact hAlign
      show (stepD cx st).offsets.getD mi 0 + (cx.members.getD mi dSec).sh_size ≤
        alignTo (stepA cx st).offset cx.thunk_align
      omega
  · -- the routing entries
    intro hokF mi e he hne
    rw [hFas, Bool.and_eq_true, decide_eq_true_eq] at hokF
    have hok := hokF.1
    have hok2 := hokF.2
    have hM := hMargin hok
    rw [hFextns] at he
    have hchar0 := fixupFold_char cx ((stepA cx st).thunks.length)
      (assignSlots ((stepA cx st).thunks.length)
        (sortSyms cx (stepScan cx st).2) 0 (stepScan cx st).1.symst)
      (stepBatch cx st) (List.nodup_range' _ _)
      { (stepScan cx st).1 with
        symst := assignSlots ((stepA cx st).thunks.length)
          (sortSyms cx (stepScan cx st).2) 0 (stepScan cx st).1.symst }
      mi
    rw [hextns5] at hchar0
    rw [hchar0] at he
    by_cases hcond : mi ∈ stepBatch cx st ∧ mi < (stepScan cx st).1.extns.length
    case neg =>
      rw [if_neg hcond] at he
      have htrans : (stepScan cx st).1.extns.getD mi [] =
          st.extns.getD mi [] := by
        rcases H.2.2.2.2.2 mi with ⟨heq, _⟩ | ⟨hbm, hlt, _⟩
        · rw [heq]
          show (stepA cx st).extns.getD mi [] = st.extns.getD mi []
          rw [hAex2, hCex, hDex]
        · exfalso
          refine hcond ⟨hbm, ?_⟩
          rw [hexlen4]
          exact hlt
      rw [htrans] at he
      obtain ⟨k, j, hk1, hj1, hklen, hjlen, hmid, hmim, hback, hfwd⟩ :=
        R7 hok mi e he hne
      refine ⟨k, j, hk1, hj1, ?_, ?_, ?_, hmim, ?_, ?_⟩
      · rw [hFth, List.length_append, List.length_singleton]
        omega
      · rw [hFth, getD_append_left _ _ _ _ hklen]
        exact hjlen
      · rw [hFd]
        omega
      · rw [hFoffs, hDgd mi hmid, hFth, getD_append_left _ _ _ _ hklen]
        exact hback
      · rw [hFth, getD_append_left _ _ _ _ hklen, hFoffs, hDgd mi hmid]
        exact hfwd
    case pos =>
      rw [if_pos hcond] at he
      have hchar2 : ExtChar cx ((stepA cx st).thunks.length) (secFileSyms cx mi)
          (stepA cx st).symst (stepScan cx st).2 (secRels cx mi)
          ((stepScan cx st).1.extns.getD mi []) := by
        rcases H.2.2.2.2.2 mi with ⟨_, hgee⟩ | ⟨_, _, hc⟩
        · exfalso
          have hgele : (stepA cx st).extns.length ≤ mi := hgee hcond.1
          have hlt2 := hcond.2
          rw [hexlen4] at hlt2
          omega
        · exact hc
      obtain ⟨hclen, hcc⟩ := hchar2
      rw [List.mem_iff_getElem] at he
      obtain ⟨i, hi, hei⟩ := he
      rw [List.getElem_zipWith] at hei
      have hir : i < (secRels cx mi).length := by
        rw [List.length_zipWith] at hi
        omega
      have hie0 : i < ((stepScan cx st).1.extns.getD mi []).length := by
        rw [List.length_zipWith] at hi
        omega
      rw [← getD_eq_getElem _ _ dRel hir,
        ← getD_eq_getElem _ _ RangeExtensionRef.unset hie0] at hei
      have hmic : mi < (stepC cx st).c := ((hbatch mi).mp hcond.1).2
      have hmid : mi < (stepD cx st).d := lt_of_lt_of_le hmic hnoov
      have hmim : mi < cx.members.length := lt_of_lt_of_le hmic hcle
      rcases hcc i hir with hu | ⟨hrne, hrv⟩ | ⟨hfv, hfm, _⟩
      · -- the entry is unset: contradiction with the selection hypothesis
        rw [hu] at hei
        rw [if_neg (by simp [RangeExtensionRef.unset])] at hei
        rw [← hei] at hne
        exact absurd rfl hne
      · -- the entry replays an existing registration
        rw [hrv] at hei
        have hsidlt : (secFileSyms cx mi).getD
            ((secRels cx mi).getD i dRel).r_sym 0 <
            (stepA cx st).symst.length := by
          by_contra hcon
          have hdef : (stepA cx st).symst.getD
              ((secFileSyms cx mi).getD ((secRels cx mi).getD i dRel).r_sym 0)
              d0Sym = d0Sym :=
            List.getD_eq_default _ _ (by omega)
          rw [hdef] at hrne
          exact hrne rfl
        obtain ⟨hv2, hiff2, hr32, hregc⟩ := hregA.2.2 _ hsidlt
        obtain ⟨k, hk1, hk2, hk3, hk4, j, hj1, hj2⟩ := hregc hrne
        have hklt : (k : Int) < ((stepA cx st).thunks.length : Int) := by
          exact_mod_cast hk3
        split at hei
        next hcondeq =>
          exfalso
          dsimp only at hcondeq
          omega
        next hcondne =>
          have he1 : e.thunk_idx = ((stepA cx st).symst.getD
              ((secFileSyms cx mi).getD ((secRels cx mi).getD i dRel).r_sym 0)
              d0Sym).thunk_idx := by
            rw [← hei]
          have he2 : e.sym_idx = ((stepA cx st).symst.getD
              ((secFileSyms cx mi).getD ((secRels cx mi).getD i dRel).r_sym 0)
              d0Sym).thunk_sym_idx := by
            rw [← hei]
          rw [hAth] at hk3 hk4 hj2
          refine ⟨k, j, ?_, ?_, ?_, ?_, ?_, hmim, ?_, ?_⟩
          · rw [he1]
            exact hk1
          · rw [he2]
            exact hj1
          · rw [hFth, List.length_append, List.length_singleton]
            omega
          · rw [hFth, getD_append_left _ _ _ _ hk3]
            exact hj2
          · rw [hFd]
            exact hmid
          · rw [hFoffs, hFth, getD_append_left _ _ _ _ hk3]
            have hend := hcoffEnd mi hmic hmid
            rcases hAexit.2 with hfloor | hfloor
            · exfalso
              omega
            · have hmono := R5 (stepA cx st).a k hk2 hk3
              omega
          · rw [hFth, getD_append_left _ _ _ _ hk3, hFoffs]
            have hmemk : st.thunks.getD k dThunk ∈ st.thunks := by
              rw [getD_eq_getElem _ _ _ hk3]
              exact List.getElem_mem _
            have h4 := R4 _ hmemk
            have hjmul : (j : Int) * cx.stub_size ≤
                ((st.thunks.getD k dThunk).symbols.length : Int) *
                  cx.stub_size := by
              have hc2 : (j : Int) ≤
                  ((st.thunks.getD k dThunk).symbols.length : Int) := by
                exact_mod_cast Nat.le_of_lt hj2
              exact mul_le_mul_of_nonneg_right hc2 hw.2.2
            have hble := hBle mi ((hbatch mi).mp hcond.1).1 hmid
            have hmt : (0 : Int) < maxThunkSize := (arch_consts cx.arch).2.2.1
            linarith [h4.2, hjmul, hDoffge, hM, hble, hmt]
      · -- the entry is routed to the fresh thunk
        rw [hfv] at hei
        rw [if_pos rfl] at hei
        have hsid := hclean _ hfm
        obtain ⟨jj, hj0, hjlt, hjval⟩ := assignSlots_getD_mem
          ((stepA cx st).thunks.length) (sortSyms cx (stepScan cx st).2) 0
          (stepScan cx st).1.symst _ hsortnd (hperm.mem_iff.mpr hfm) hsid.1
        rw [hjval] at hei
        have he1 : e.thunk_idx = ((stepA cx st).thunks.length : Int) := by
          rw [← hei]
        have he2 : e.sym_idx = (jj : Int) := by
          rw [← hei]
        refine ⟨st.thunks.length, jj, ?_, ?_, ?_, ?_, ?_, hmim, ?_, ?_⟩
        · rw [he1, hTlen]
        · rw [he2]
        · rw [hFth, List.length_append, List.length_singleton]
          omega
        · rw [hFth, getD_append_last]
          show jj < (sortSyms cx (stepScan cx st).2).length
          omega
        · rw [hFd]
          exact hmid
        · rw [hFoffs, hFth, getD_append_last]
          show (stepD cx st).offsets.getD mi 0 +
              (cx.members.getD mi dSec).sh_size ≤
            alignTo (stepA cx st).offset cx.thunk_align + maxDistance cx.arch
          have hend := (hlay1.2.2.2.2.2.1 mi hmid).2.2
          have hso : (stepD cx st).offset ≤
              alignTo (stepA cx st).offset cx.thunk_align := by
            rw [← hA1]
            exact hAlign
          have hmd0 : (0 : Int) < maxDistance cx.arch := by
            have h1 := (arch_consts cx.arch).1
            have h2 := (arch_consts cx.arch).2.1
            omega
          omega
        · rw [hFth, getD_append_last, hFoffs]
          show alignTo (stepA cx st).offset cx.thunk_align +
              (jj : Int) * cx.stub_size <
            (stepD cx st).offsets.getD mi 0 + maxDistance cx.arch
          have hjlt2 : (jj : Int) ≤ ((stepScan cx st).2.length : Int) - 1 := by
            have hc3 : jj < (sortSyms cx (stepScan cx st).2).length := by omega
            rw [hperm.length_eq] at hc3
            omega
          have hjmul : (jj : Int) * cx.stub_size ≤
              (((stepScan cx st).2.length : Int) - 1) * cx.stub_size :=
            mul_le_mul_of_nonneg_right hjlt2 hw.2.2
          have hexp : (((stepScan cx st).2.length : Int) - 1) * cx.stub_size =
              ((stepScan cx st).2.length : Int) * cx.stub_size -
                cx.stub_size := by
            ring
          have hALD : alignTo (stepA cx st).offset cx.thunk_align <
              (stepD cx st).offset + cx.thunk_align := by
            rw [← hA1]
            exact hAlignLt
          have hble := hBle mi ((hbatch mi).mp hcond.1).1 hmid
          have htal2 := hbw.2
          linarith [hjmul, hexp, hALD, hble, hM, hok2, htal2]

/-- The reachability invariant holds at the end of every successful run
that placed all members. -/
theorem sweepLoop_reach (cx : Ctx) (hw : WfSizes cx) (hbw : BatchWf cx) :
    ∀ (fuel : Nat) (st st' : St),
    RegInv cx st → ExtInv st → LayoutInv cx st → ReachInv cx st →
    sweepLoop cx idArr fuel st = some st' →
    st'.d = cx.members.length →
    ReachInv cx st' := by
  intro fuel
  induction fuel with
  | zero =>
    intro st st' _ _ _ _ h _
    simp [sweepLoop] at h
  | succ f ih =>
    intro st st' hreg hext hlay hri h hplaced
    rw [sweepLoop] at h
    split at h
    next hb =>
      by_cases hov : (stepC cx st).c ≤ (stepD cx st).d
      · obtain ⟨hreg2, hext2⟩ := sweepStep_inv cx st hreg hext
        exact ih _ _ hreg2 hext2 (sweepStep_layout cx idArr st hw hlay)
          (sweepStep_reach cx st hw hbw hreg hlay hri hb hov) h hplaced
      · exfalso
        -- the C loop overran the frontier: it ran to the very end, so the
        -- sweep finishes with an unplaced member, contradicting `hplaced`
        have hlay1 : LayoutInv cx (stepD cx st) := stepD_layout cx st hw.1 hlay
        obtain ⟨R1, _⟩ := hri
        have hDb : (stepD cx st).b = st.b :=
          (dPhase_frame cx (cx.members.length - st.d) st).1
        have hBD : st.b < (stepD cx st).d ∧
            (stepD cx st).offsets.getD st.b 0 = st.offsets.getD st.b 0 := by
          rcases R1 hb with hlt | hpr
          · exact ⟨by
              have hdg : st.d ≤ (stepD cx st).d :=
                dPhase_d_ge cx (cx.members.length - st.d) st
              omega, dPhase_getD_lt cx _ st st.b hlt⟩
          · have hm0 : st.offset + maxThunkSize ≤
                st.offsets.getD st.b 0 + maxDistance cx.arch := by
              rw [hpr.2.1, hpr.2.2]
              have := (arch_consts cx.arch).2.2.2
              omega
            have h2 := dPhase_margin cx hbw.1 hw.2.1 (cx.members.length - st.d)
              st hb (by have := hlay.2.1; omega) hlay.1 (Or.inr hpr) hm0
            exact ⟨h2.1, h2.2.1⟩
        have hOb0 : 0 ≤ st.offsets.getD st.b 0 := by
          rcases R1 hb with hlt | hpr
          · exact (hlay.2.2.2.2.2.1 st.b hlt).1
          · rw [hpr.2.2]
        have hoffb : (0 : Int) ≤ (stepD cx st).offsets.getD (stepD cx st).b 0 := by
          rw [hDb, hBD.2]
          exact hOb0
        have hsent : ∀ i, i < cx.members.length → (stepD cx st).d ≤ i →
            i ≠ 0 → (stepD cx st).offsets.getD i 0 = -1 := hlay1.2.2.2.2.1
        have hover : (stepC cx st).c ≤ (stepD cx st).d ∨
            (stepC cx st).c = cx.members.length :=
          cPhase_over cx hw.2.1 hbw.1 cx.members.length
            { stepD cx st with c := st.b + 1 }
            (show cx.members.length ≤ st.b + 1 + cx.members.length by omega)
            (show st.b + 1 ≤ cx.members.length by omega)
            (show 1 ≤ st.b + 1 by omega) hoffb hsent
        rcases hover with hle | heq
        · exact hov hle
        · have hb2 : ¬ (sweepStep cx idArr st).b < cx.members.length := by
            rw [sweepStep_b_eq, heq]
            omega
          have hfin := sweepLoop_of_b_ge cx idArr f (sweepStep cx idArr st)
            st' hb2 h
          have hdlt : (sweepStep cx idArr st).d < cx.members.length := by
            have h1 : (sweepStep cx idArr st).d = (stepD cx st).d :=
              (sweepStep_layout_fields cx idArr st).2.1.trans
                (stepA_offsets cx st).2.1
            rw [h1]
            omega
          have hfd : st'.d = (sweepStep cx idArr st).d := by
            rw [hfin]
            show (finishLoop ((sweepStep cx idArr st).thunks.length -
              (sweepStep cx idArr st).a) (sweepStep cx idArr st)).d = _
            exact (finishLoop_frame _ _).2.2.2.2.2.2.2
          omega
    next hb =>
      rw [Option.some.injEq] at h
      subst h
      have hfr := finishLoop_frame (st.thunks.length - st.a) st
      refine ReachInv_congr cx st (sweepFinish st) hri ?_ ?_ ?_ ?_ ?_ ?_ ?_
      · show (finishLoop (st.thunks.length - st.a) st).b = st.b
        exact hfr.2.2.2.2.2.1
      · show (finishLoop (st.thunks.length - st.a) st).d = st.d
        exact hfr.2.2.2.2.2.2.2
      · show (finishLoop (st.thunks.length - st.a) st).offset = st.offset
        exact hfr.2.2.2.1
      · show (finishLoop (st.thunks.length - st.a) st).offsets = st.offsets
        exact hfr.2.2.1
      · show (finishLoop (st.thunks.length - st.a) st).extns = st.extns
        exact hfr.2.1
      · show (finishLoop (st.thunks.length - st.a) st).thunks = st.thunks
        exact hfr.1
      · show (finishLoop (st.thunks.length - st.a) st).assert_ok = st.assert_ok
        exact hfr.2.2.2.2.1

/-- **C2** (amended).  Quantitative reachability of the routed entries at
the end of a run that placed every member and passed every size
assertion, for relocation sites inside their sections: every thunk and
every input section occupy disjoint ordered ranges (in particular each
thunk is placed at or past the end offset of every section placed before
its creation, among them the last section of the batch it was created
for); and every `range_extn` entry that selected a thunk names an
existing thunk (`thunk_idx < osec.thunks.size()`) and a live slot
(`sym_idx <` that thunk's symbol count), the whole referring section lies
within branch range of the selected thunk (spec invariant 2), and the
signed distance from the referring site `m[i].offset + r_offset` to the
slot address `thunk.offset + sym_idx * stub_size` lies in
`[-max_distance(E), +max_distance(E))`. -/
theorem entry_distance_in_range (cx : Ctx) (st0 st' : St) (hw : WfSizes cx)
    (hbw : BatchWf cx) (hsites : SitesWf cx) (hwfI : WfInit cx st0)
    (hne : cx.members.length ≠ 0) (hrun : runSweep cx st0 = some st')
    (hok : st'.assert_ok = true) (hplaced : st'.d = cx.members.length) :
    (∀ k : Nat, k < st'.thunks.length → ∀ mi : Nat, mi < cx.members.length →
      st'.offsets.getD mi 0 + (cx.members.getD mi dSec).sh_size ≤
        (st'.thunks.getD k dThunk).offset ∨
      (st'.thunks.getD k dThunk).offset +
        ((st'.thunks.getD k dThunk).symbols.length : Int) * cx.stub_size ≤
        st'.offsets.getD mi 0) ∧
    (∀ mi i : Nat, i < (secRels cx mi).length →
      ((st'.extns.getD mi []).getD i RangeExtensionRef.unset).thunk_idx ≠ -1 →
      ∃ k j : Nat,
        (k : Int) =
          ((st'.extns.getD mi []).getD i RangeExtensionRef.unset).thunk_idx ∧
        (j : Int) =
          ((st'.extns.getD mi []).getD i RangeExtensionRef.unset).sym_idx ∧
        k < st'.thunks.length ∧
        j < (st'.thunks.getD k dThunk).symbols.length ∧
        mi < cx.members.length ∧
        st'.offsets.getD mi 0 + (cx.members.getD mi dSec).sh_size ≤
          (st'.thunks.getD k dThunk).offset + maxDistance cx.arch ∧
        -(maxDistance cx.arch) ≤
          (st'.thunks.getD k dThunk).offset + (j : Int) * cx.stub_size -
            (st'.offsets.getD mi 0 + ((secRels cx mi).getD i dRel).r_offset) ∧
        (st'.thunks.getD k dThunk).offset + (j : Int) * cx.stub_size -
          (st'.offsets.getD mi 0 + ((secRels cx mi).getD i dRel).r_offset) <
          maxDistance cx.arch) := by
  obtain ⟨hthunks0, hexlen0, hsymlen0, hsyms0, hexts0, hok0⟩ := hwfI
  unfold runSweep createRangeExtensionThunks at hrun
  rw [if_neg hne] at hrun
  have hmain : ReachInv cx st' := by
    refine sweepLoop_reach cx hw hbw _ _ _ ?_ ?_ ?_ ?_ hrun hplaced
    · -- the registration invariant on entry
      refine ⟨hsymlen0, by rw [hthunks0]; exact Nat.zero_le _, ?_⟩
      intro sid hsid
      have hmem : st0.symst.getD sid d0Sym ∈ st0.symst := by
        rw [getD_eq_getElem _ _ _ hsid]
        exact List.getElem_mem hsid
      rw [hsyms0 _ hmem]
      refine ⟨Or.inl rfl, by simp, fun _ => rfl, fun hcon => absurd rfl hcon⟩
    · -- the routing-entry invariant on entry
      intro mi e he _
      by_cases hlt : mi < st0.extns.length
      · have hmem : st0.extns.getD mi [] ∈ st0.extns := by
          rw [getD_eq_getElem _ _ _ hlt]
          exact List.getElem_mem hlt
        rw [hexts0 _ hmem] at he
        cases he
      · rw [List.getD_eq_default _ _ (Nat.le_of_not_lt hlt)] at he
        cases he
    · exact layout_init cx st0 hne
    · -- the reachability invariant on entry
      unfold ReachInv
      dsimp only
      refine ⟨?_, ?_, ?_, ?_, ?_, ?_, ?_⟩
      · intro _
        right
        refine ⟨rfl, rfl, ?_⟩
        rw [getD_set_self _ _ _ _ (by rw [List.length_replicate]; omega)]
      · intro _ _
        rw [getD_set_self _ _ _ _ (by rw [List.length_replicate]; omega)]
        have := (arch_consts cx.arch).2.2.2
        omega
      · exact hexlen0
      · intro t ht
        rw [hthunks0] at ht
        cases ht
      · intro k1 k2 hk hk2
        rw [hthunks0] at hk2
        simp at hk2
      · intro k hk mi hmi
        rw [hthunks0] at hk
        simp at hk
      · intro _ mi e he _
        by_cases hlt : mi < st0.extns.length
        · have hmem : st0.extns.getD mi [] ∈ st0.extns := by
            rw [getD_eq_getElem _ _ _ hlt]
            exact List.getElem_mem hlt
          rw [hexts0 _ hmem] at he
          cases he
        · rw [List.getD_eq_default _ _ (Nat.le_of_not_lt hlt)] at he
          cases he
  obtain ⟨_, _, _, _, _, hsep, hent⟩ := hmain
  constructor
  · intro k hk mi hmi
    exact hsep k hk mi (by rw [hplaced]; exact hmi)
  · intro mi i hilt hnesel
    by_cases hee : i < (st'.extns.getD mi []).length
    · have hmem : (st'.extns.getD mi []).getD i RangeExtensionRef.unset ∈
          st'.extns.getD mi [] := by
        rw [getD_eq_getElem _ _ _ hee]
        exact List.getElem_mem _
      obtain ⟨k, j, hk1, hj1, hklen, hjlen, hmid, hmim, hback, hfwd⟩ :=
        hent hok mi _ hmem hnesel
      have hmemsec : cx.members.getD mi dSec ∈ cx.members := by
        rw [getD_eq_getElem _ _ _ hmim]
        exact List.getElem_mem _
      have hrel : (secRels cx mi).getD i dRel ∈
          (cx.members.getD mi dSec).rels := by
        rw [getD_eq_getElem _ _ _ hilt]
        exact List.getElem_mem _
      have hsite := hsites _ hmemsec _ hrel
      have hjs : 0 ≤ (j : Int) * cx.stub_size :=
        mul_nonneg (Int.natCast_nonneg _) hw.2.2
      refine ⟨k, j, hk1, hj1, hklen, hjlen, hmim, hback, ?_, ?_⟩
      · linarith [hback, hjs, hsite.2]
      · linarith [hfwd, hsite.1]
    · exfalso
      apply hnesel
      rw [List.getD_eq_default _ _ (Nat.le_of_not_lt hee)]
      rfl

/-- Witness for the amended C2 at a concrete input. -/
theorem entry_distance_in_range_witness :
    WfSizes cxTwo ∧ BatchWf cxTwo ∧ SitesWf cxTwo ∧
    WfInit cxTwo (cleanSt 2 2) ∧ cxTwo.members.length ≠ 0 ∧
    runSweep cxTwo (cleanSt 2 2) = some stTwoFinal ∧
    stTwoFinal.assert_ok = true ∧ stTwoFinal.d = cxTwo.members.length ∧
    ((∀ k : Nat, k < stTwoFinal.thunks.length →
      ∀ mi : Nat, mi < cxTwo.members.length →
      stTwoFinal.offsets.getD mi 0 + (cxTwo.members.getD mi dSec).sh_size ≤
        (stTwoFinal.thunks.getD k dThunk).offset ∨
      (stTwoFinal.thunks.getD k dThunk).offset +
        ((stTwoFinal.thunks.getD k dThunk).symbols.length : Int) *
          cxTwo.stub_size ≤ stTwoFinal.offsets.getD mi 0) ∧
    (∀ mi i : Nat, i < (secRels cxTwo mi).length →
      ((stTwoFinal.extns.getD mi []).getD i
        RangeExtensionRef.unset).thunk_idx ≠ -1 →
      ∃ k j : Nat,
        (k : Int) =
          ((stTwoFinal.extns.getD mi []).getD i
            RangeExtensionRef.unset).thunk_idx ∧
        (j : Int) =
          ((stTwoFinal.extns.getD mi []).getD i
            RangeExtensionRef.unset).sym_idx ∧
        k < stTwoFinal.thunks.length ∧
        j < (stTwoFinal.thunks.getD k dThunk).symbols.length ∧
        mi < cxTwo.members.length ∧
        stTwoFinal.offsets.getD mi 0 + (cxTwo.members.getD mi dSec).sh_size ≤
          (stTwoFinal.thunks.getD k dThunk).offset + maxDistance cxTwo.arch ∧
        -(maxDistance cxTwo.arch) ≤
          (stTwoFinal.thunks.getD k dThunk).offset +
              (j : Int) * cxTwo.stub_size -
            (stTwoFinal.offsets.getD mi 0 +
              ((secRels cxTwo mi).getD i dRel).r_offset) ∧
        (stTwoFinal.thunks.getD k dThunk).offset +
            (j : Int) * cxTwo.stub_size -
          (stTwoFinal.offsets.getD mi 0 +
            ((secRels cxTwo mi).getD i dRel).r_offset) <
          maxDistance cxTwo.arch)) :=
  ⟨by unfold WfSizes; decide, by unfold BatchWf; decide,
   by unfold SitesWf; decide, by unfold WfInit; decide, by decide, by decide,
   by decide, by decide,
   entry_distance_in_range cxTwo (cleanSt 2 2) stTwoFinal
     (by unfold WfSizes; decide) (by unfold BatchWf; decide)
     (by unfold SitesWf; decide) (by unfold WfInit; decide) (by decide)
     (by decide) (by decide) (by decide)⟩

end Mold
